import Mathlib

/-!
Verification of the session credential backup/recovery subsystem
(`bot/utils/session_backup.py`, class `SessionBackupManager`).

The filesystem is modelled as an explicit state value (`FS`): a list of file
entries (path, abstract content, modification time), a list of existing
directories, plus fault-injection sets (`denied` directories for which
`os.makedirs` raises, `locked` paths for which the append-probe fails,
`removeFail` paths for which `os.remove` raises) and a counter of open
embedded-database connections.  Paths are lists of path segments; a segment is
one component of the joined string path (the code joins with `os.path.join`).

Each Python method is translated line by line into a state-passing function
`FS → Except PyErr α × FS`; a `try/except` of the source appears as a `match`
on the `Except` value of the guarded steps, with the state of the partial
execution kept (Python state survives a caught exception).  `sqlite3` is
modelled abstractly through per-file flags: `isDb` (statements succeed) and
`tables` (result of enumerating `sqlite_master`); `sqlite3.connect` creates a
missing file (empty database), increments the open-connection counter and
raises only for a directory path; a checkpoint leaves the abstract content
unchanged (content stands for the post-checkpoint logical bytes).
`time.sleep` is a no-op and the logger is ignored.
-/

/-- Split a char list at the first occurrence of `c`: parts before and after. -/
def splitFirstChar (c : Char) : List Char → Option (List Char × List Char)
  | [] => none
  | x :: xs =>
    if x = c then some ([], xs)
    else (splitFirstChar c xs).map (fun q => (x :: q.1, q.2))

/-- Python `s.rsplit(c, 1)`: split at the last occurrence of `c`, if any. -/
def splitLastChar (c : Char) (s : List Char) : Option (List Char × List Char) :=
  (splitFirstChar c s.reverse).map (fun q => (q.2.reverse, q.1.reverse))

/-- Fuel-driven worker for `pyDeleteAll` (the fuel bounds the input length,
so the hungry branch can drop several characters and stay structural). -/
def pyDeleteAllFuel (pat : List Char) : Nat → List Char → List Char
  | _, [] => []
  | 0, l => l
  | fuel + 1, c :: rest =>
    if pat ≠ [] ∧ pat.isPrefixOf (c :: rest) then
      pyDeleteAllFuel pat fuel (List.drop (pat.length - 1) rest)
    else
      c :: pyDeleteAllFuel pat fuel rest

/-- Python `s.replace(pat, '')`: delete every (left-to-right, non-overlapping)
occurrence of `pat` in `s`.  For the empty pattern Python returns `s`. -/
def pyDeleteAll (pat s : List Char) : List Char :=
  pyDeleteAllFuel pat s.length s

/-- Python `s.isdigit()` restricted to ASCII digits: nonempty and all digits. -/
def isDigits (s : List Char) : Bool :=
  !s.isEmpty && s.all Char.isDigit

/-- `b` ends with the string `suf` (comparison on the underlying char lists). -/
def strEndsWith (b suf : String) : Bool :=
  suf.data.isSuffixOf b.data

/-- Match of the glob pattern `pre ++ "*" ++ suf` against a basename:
`b = pre ++ mid ++ suf` for some (possibly empty) `mid`. -/
def globMatch (pre suf b : String) : Bool :=
  pre.data.isPrefixOf b.data && suf.data.isSuffixOf b.data &&
    decide (pre.data.length + suf.data.length ≤ b.data.length)

/-- Abstract content of one on-disk file.  `blob` identifies the raw bytes,
`size` their count; `isDb` says whether embedded-database statements succeed
on the file, and `tables` is the number of rows of
`SELECT name FROM sqlite_master WHERE type='table'`. -/
structure FileData where
  size : Nat
  isDb : Bool
  tables : Nat
  blob : Nat
deriving DecidableEq, Repr

/-- A fresh empty database file, as created by connecting to a missing path. -/
def emptyDbFile : FileData := ⟨0, true, 0, 0⟩

/-- One file of the modelled filesystem. -/
structure Entry where
  path : List String
  data : FileData
  mtime : Nat
deriving DecidableEq, Repr

/-- The Python exceptions distinguished by the source's `except` clauses. -/
inductive PyErr where
  | permission
  | missing
  | dbErr
  | operational
deriving DecidableEq, Repr

instance {ε α : Type} [DecidableEq ε] [DecidableEq α] : DecidableEq (Except ε α) :=
  fun x y =>
    match x, y with
    | .ok a, .ok b => if h : a = b then .isTrue (by rw [h]) else .isFalse (by simp [h])
    | .error a, .error b => if h : a = b then .isTrue (by rw [h]) else .isFalse (by simp [h])
    | .ok _, .error _ => .isFalse (by simp)
    | .error _, .ok _ => .isFalse (by simp)

/-- The world state: sessions root, files, directories, fault-injection sets,
open-connection counter and the current `datetime.now()` reading
(`%Y%m%d` and `%H%M%S` parts). -/
structure FS where
  root : List String
  entries : List Entry
  dirs : List (List String)
  denied : List (List String)
  locked : List (List String)
  removeFail : List (List String)
  openConns : Nat
  nowDate : String
  nowTime : String
deriving DecidableEq, Repr

namespace FS

/-- Is there a file at `p`? -/
def isFile (fs : FS) (p : List String) : Bool :=
  fs.entries.any (fun e => decide (e.path = p))

/-- Is there a directory at `p`?  The sessions root always exists. -/
def isDir (fs : FS) (p : List String) : Bool :=
  decide (p = fs.root) || fs.dirs.any (fun d => decide (d = p))

/-- `os.path.exists`: true for files and directories. -/
def osExists (fs : FS) (p : List String) : Bool :=
  fs.isFile p || fs.isDir p

/-- Content of the file at `p`, if any (first entry wins). -/
def dataAt (fs : FS) (p : List String) : Option FileData :=
  (fs.entries.find? (fun e => decide (e.path = p))).map (·.data)

/-- Modification time of the file at `p` (0 when absent). -/
def mtimeAt (fs : FS) (p : List String) : Nat :=
  ((fs.entries.find? (fun e => decide (e.path = p))).map (·.mtime)).getD 0

/-- `os.path.getsize` on a path that exists: file size, or a nominal
directory size (a directory's `st_size` is nonzero on Linux). -/
def sizeAt (fs : FS) (p : List String) : Nat :=
  match fs.dataAt p with
  | some d => d.size
  | none => 4096

/-- Entry-list update behind `setFile`: overwrite in place when present,
else append a new entry at the end. -/
def updateEntries (l : List Entry) (p : List String) (d : FileData) (m : Nat) :
    List Entry :=
  if l.any (fun e => decide (e.path = p)) then
    l.map (fun e => if e.path = p then { e with data := d, mtime := m } else e)
  else
    l ++ [⟨p, d, m⟩]

/-- Write `d` at path `p` (overwrite in place, else append a new entry);
`shutil.copy2` preserves the source's modification time, passed as `m`. -/
def setFile (fs : FS) (p : List String) (d : FileData) (m : Nat) : FS :=
  { fs with entries := updateEntries fs.entries p d m }

/-- Erase the file at `p`. -/
def removeFile (fs : FS) (p : List String) : FS :=
  { fs with entries := fs.entries.filter (fun e => decide (e.path ≠ p)) }

/-- Adjust the open-connection counter. -/
def bumpConns (fs : FS) (k : Nat) : FS := { fs with openConns := k }

end FS

/-- `os.makedirs(d, exist_ok=True)`: raises `PermissionError` for a denied
directory, otherwise records the directory (idempotent in effect). -/
def osMakedirs (fs : FS) (d : List String) : Except PyErr Unit × FS :=
  if d ∈ fs.denied then (.error .permission, fs)
  else (.ok (), { fs with dirs := d :: fs.dirs })

/-- `os.remove(p)`: raises for an injected failure or a missing file. -/
def osRemove (fs : FS) (p : List String) : Except PyErr Unit × FS :=
  if p ∈ fs.removeFail then (.error .permission, fs)
  else if fs.isFile p then (.ok (), fs.removeFile p)
  else (.error .missing, fs)

/-- `shutil.copy2(src, dst)`: byte copy preserving modification metadata;
raises when the source file is missing. -/
def copy2 (fs : FS) (src dst : List String) : Except PyErr Unit × FS :=
  match fs.dataAt src with
  | some d => (.ok (), fs.setFile dst d (fs.mtimeAt src))
  | none => (.error .missing, fs)

/-- `sqlite3.connect(p)`: raises `OperationalError` for a directory; creates
an empty database file when `p` is missing; opens a connection. -/
def sqliteConnect (fs : FS) (p : List String) : Except PyErr Unit × FS :=
  if fs.isDir p then (.error .operational, fs)
  else if fs.isFile p then (.ok (), fs.bumpConns (fs.openConns + 1))
  else
    let fs1 := fs.setFile p emptyDbFile 0
    (.ok (), fs1.bumpConns (fs1.openConns + 1))

/-- `SELECT name FROM sqlite_master WHERE type='table'` + `fetchall` on the
open connection to `p`: the number of tables, or `DatabaseError` when the
file is not a database. -/
def sqliteSchemaQuery (fs : FS) (p : List String) : Except PyErr Nat × FS :=
  match fs.dataAt p with
  | some d => if d.isDb then (.ok d.tables, fs) else (.error .dbErr, fs)
  | none => (.error .dbErr, fs)

/-- `PRAGMA wal_checkpoint(TRUNCATE)` on the open connection to `p`:
`DatabaseError` when the file is not a database, otherwise a no-op on the
abstract content (which stands for the post-checkpoint bytes). -/
def sqliteCheckpoint (fs : FS) (p : List String) : Except PyErr Unit × FS :=
  match fs.dataAt p with
  | some d => if d.isDb then (.ok (), fs) else (.error .dbErr, fs)
  | none => (.error .dbErr, fs)

/-- `conn.close()`. -/
def sqliteClose (fs : FS) : FS := fs.bumpConns (fs.openConns - 1)

/-- Last path segment (the basename). -/
def lastSegOf (p : List String) : String := p.getLastD ""

/-- The sibling path obtained by appending `suf` to the basename: Python's
`path + '-wal'` / `path + '-shm'`. -/
def withSuffix (p : List String) (suf : String) : List String :=
  p.dropLast ++ [lastSegOf p ++ suf]

/-- `glob.glob(os.path.join(dir, pre ++ "*" ++ suf))`: the files directly in
`dir` whose basename matches, in filesystem-enumeration (entry) order. -/
def globFiles (fs : FS) (dir : List String) (pre suf : String) : List (List String) :=
  (fs.entries.filter
    (fun e => decide (e.path.dropLast = dir) && globMatch pre suf (lastSegOf e.path))).map
    (·.path)

/-- `_verify_session_integrity` (session_backup.py lines 87-110).  The
`os.path.getsize` call sits outside the `try`, but is guarded by the
existence check on the line before, so it cannot raise here; the
`sqlite3` block is guarded by `except Exception: return False`.  Note that
`conn.close()` is only reached on the non-raising path. -/
def verify_session_integrity (fs : FS) (p : List String) : Except PyErr Bool × FS :=
  if !(fs.osExists p) then (.ok false, fs)
  else if fs.sizeAt p < 1024 then (.ok false, fs)
  else
    match sqliteConnect fs p with
    | (.error _, fs1) => (.ok false, fs1)
    | (.ok _, fs1) =>
      match sqliteSchemaQuery fs1 p with
      | (.error _, fs2) => (.ok false, fs2)
      | (.ok tables, fs2) =>
        let fs3 := sqliteClose fs2
        if tables = 0 then (.ok false, fs3) else (.ok true, fs3)

/-- `get_session_file_path` (lines 112-123): first existing match among the
three layout locations, joined literally from the identity name. -/
def get_session_file_path (fs : FS) (name : String) : Option (List String) :=
  let p1 := fs.root ++ [name ++ ".session"]
  let p2 := fs.root ++ ["telethon", name ++ ".session"]
  let p3 := fs.root ++ ["pyrogram", name ++ ".session"]
  if fs.osExists p1 then some p1
  else if fs.osExists p2 then some p2
  else if fs.osExists p3 then some p3
  else none

/-- Result of one iteration of the retry loop of `_safe_sqlite_copy`. -/
inductive AttemptRes where
  | success
  | lockedTry
  | failedTry
deriving DecidableEq, Repr

/-- Copy phase of one `_safe_sqlite_copy` attempt (lines 56-74): main-file
copy (an exception here reaches the outer `except`), then best-effort
sidecar copies whose failures are swallowed by `try/except: pass`. -/
def safeCopyPhase (fs : FS) (src dst : List String) : AttemptRes × FS :=
  match copy2 fs src dst with
  | (.error _, fs1) => (.failedTry, fs1)
  | (.ok _, fs1) =>
    let fs2 :=
      if fs1.osExists (withSuffix src "-wal") then
        (copy2 fs1 (withSuffix src "-wal") (withSuffix dst "-wal")).2
      else fs1
    let fs3 :=
      if fs2.osExists (withSuffix src "-shm") then
        (copy2 fs2 (withSuffix src "-shm") (withSuffix dst "-shm")).2
      else fs2
    (.success, fs3)

/-- One attempt of `_safe_sqlite_copy` (lines 30-83): append-probe lock
check, then the checkpoint block — `try: connect / checkpoint / commit`
with `except sqlite3.OperationalError` caught (logged) and a `finally`
that closes the connection when one was opened; any other exception falls
through to the outer `except Exception`. -/
def safeCopyAttempt (fs : FS) (src dst : List String) : AttemptRes × FS :=
  if src ∈ fs.locked then (.lockedTry, fs)
  else
    match sqliteConnect fs src with
    | (.error e, fs1) =>
      if e = .operational then safeCopyPhase fs1 src dst
      else (.failedTry, fs1)
    | (.ok _, fs1) =>
      match sqliteCheckpoint fs1 src with
      | (.error e, fs2) =>
        let fs3 := sqliteClose fs2
        if e = .operational then safeCopyPhase fs3 src dst
        else (.failedTry, fs3)
      | (.ok _, fs2) => safeCopyPhase (sqliteClose fs2) src dst

/-- `_safe_sqlite_copy` (lines 26-85): up to `max_retries = 3` attempts; a
locked source or a caught exception on the last attempt yields `False`.
Every exception inside is caught, so the method itself never raises. -/
def safe_sqlite_copy (fs : FS) (src dst : List String) : Except PyErr Bool × FS :=
  match safeCopyAttempt fs src dst with
  | (.success, fs1) => (.ok true, fs1)
  | (_, fs1) =>
    match safeCopyAttempt fs1 src dst with
    | (.success, fs2) => (.ok true, fs2)
    | (_, fs2) =>
      match safeCopyAttempt fs2 src dst with
      | (.success, fs3) => (.ok true, fs3)
      | (_, fs3) => (.ok false, fs3)

/-- The backup root `<sessions_path>/backups`. -/
def backupRootOf (fs : FS) : List String := fs.root ++ ["backups"]

/-- The backup subdirectory mirroring the source file's relative directory
(`create_backup` lines 138-147). -/
def backupSubdirOf (fs : FS) (sf : List String) : List String :=
  let rel := sf.dropLast.drop fs.root.length
  if rel = [] then backupRootOf fs else backupRootOf fs ++ rel

/-- The timestamped backup basename `create_backup` writes (lines 149-151). -/
def timestampedName (fs : FS) (name : String) : String :=
  name ++ "_" ++ fs.nowDate ++ "_" ++ fs.nowTime ++ ".session.backup"

/-- The full path of the backup `create_backup` writes. -/
def backupPathOf (fs : FS) (name : String) (sf : List String) : List String :=
  backupSubdirOf fs sf ++ [timestampedName fs name]

/-- The state after a successful `os.makedirs(d)`. -/
def makedirsFS (fs : FS) (d : List String) : FS := { fs with dirs := d :: fs.dirs }

/-- The live target directory mirrored back from a backup's directory
(`restore_from_backup` lines 199-206). -/
def restoreTargetDirOf (fs : FS) (b : List String) : List String :=
  let rel := b.dropLast.drop (backupRootOf fs).length
  if rel = [] then fs.root else fs.root ++ rel

/-- `create_backup` (lines 125-162).  `os.makedirs` on line 147 is not
inside any `try`, so its exception escapes the method. -/
def create_backup (fs : FS) (name : String) (useTimestamp : Bool) :
    Except PyErr Bool × FS :=
  match get_session_file_path fs name with
  | none => (.ok false, fs)
  | some sf =>
    if !(fs.osExists sf) then (.ok false, fs)
    else
      match verify_session_integrity fs sf with
      | (.error e, fs1) => (.error e, fs1)
      | (.ok false, fs1) => (.ok false, fs1)
      | (.ok true, fs1) =>
        let backupSubdir := backupSubdirOf fs1 sf
        match osMakedirs fs1 backupSubdir with
        | (.error e, fs2) => (.error e, fs2)
        | (.ok _, fs2) =>
          let bname :=
            if useTimestamp then timestampedName fs2 name
            else name ++ ".session.backup"
          safe_sqlite_copy fs2 sf (backupSubdir ++ [bname])

/-- The three mirrored backup directories searched by restore / cleanup. -/
def backupDirsOf (fs : FS) : List (List String) :=
  [backupRootOf fs, backupRootOf fs ++ ["telethon"], backupRootOf fs ++ ["pyrogram"]]

/-- Candidate collection of `restore_from_backup` (lines 169-182): for each
existing mirrored directory, the files matching `<name>*.session.backup`. -/
def collectBackups (fs : FS) (name : String) : List (List String) :=
  (backupDirsOf fs).foldl
    (fun acc d => if fs.osExists d then acc ++ globFiles fs d name ".session.backup" else acc)
    []

/-- Stable insertion (by current modification time, descending) used to model
`list.sort(key=os.path.getmtime, reverse=True)`: an element is placed before
the first strictly older element, so equal keys keep their original order,
as Python's stable sort does. -/
def insertByMtime (fs : FS) (p : List String) :
    List (List String) → List (List String)
  | [] => [p]
  | q :: rest =>
    if fs.mtimeAt q ≤ fs.mtimeAt p then p :: q :: rest
    else q :: insertByMtime fs p rest

/-- Stable sort by modification time, descending. -/
def sortByMtimeDesc (fs : FS) : List (List String) → List (List String)
  | [] => []
  | p :: rest => insertByMtime fs p (sortByMtimeDesc fs rest)

/-- Candidate loop of `restore_from_backup` (lines 191-222): skip candidates
failing integrity verification, mirror the relative directory, `os.makedirs`
(uncaught), copy; on copy failure move to the next candidate. -/
def tryRestoreLoop (name : String) : List (List String) → FS → Except PyErr Bool × FS
  | [], fs => (.ok false, fs)
  | b :: rest, fs =>
    match verify_session_integrity fs b with
    | (.error e, fs1) => (.error e, fs1)
    | (.ok false, fs1) => tryRestoreLoop name rest fs1
    | (.ok true, fs1) =>
      let targetDir := restoreTargetDirOf fs1 b
      match osMakedirs fs1 targetDir with
      | (.error e, fs2) => (.error e, fs2)
      | (.ok _, fs2) =>
        match safe_sqlite_copy fs2 b (targetDir ++ [name ++ ".session"]) with
        | (.error e, fs3) => (.error e, fs3)
        | (.ok true, fs3) => (.ok true, fs3)
        | (.ok false, fs3) => tryRestoreLoop name rest fs3

/-- `restore_from_backup` (lines 164-228). -/
def restore_from_backup (fs : FS) (name : String) (useLatest : Bool) :
    Except PyErr Bool × FS :=
  let allBackups := collectBackups fs name
  if allBackups = [] then (.ok false, fs)
  else
    let cands :=
      if useLatest && decide (1 < allBackups.length) then sortByMtimeDesc fs allBackups
      else allBackups
    tryRestoreLoop name cands fs

/-- `backup_exists` (lines 230-244): pure existence check. -/
def backup_exists (fs : FS) (name : String) : Bool :=
  (backupDirsOf fs).any
    (fun d => fs.osExists d && !(globFiles fs d name ".session.backup").isEmpty)

/-- Identity-grouping key of `clean_old_backups` (lines 281-287):
`basename.rsplit('_', 1)`; when the part after the last underscore is all
digits once the backup extension and underscores are stripped, the part
before the last underscore is the key, else the basename minus extension. -/
def groupKeyOf (basename : String) : String :=
  match splitLastChar '_' basename.data with
  | some q =>
    if isDigits (pyDeleteAll "_".data (pyDeleteAll ".session.backup".data q.2)) then
      String.mk q.1
    else String.mk (pyDeleteAll ".session.backup".data basename.data)
  | none => String.mk (pyDeleteAll ".session.backup".data basename.data)

/-- Append `p` to the group of key `k` (Python dict insertion semantics:
first-seen key order, values in append order). -/
def addToGroups (gs : List (String × List (List String))) (k : String)
    (p : List String) : List (String × List (List String)) :=
  match gs with
  | [] => [(k, [p])]
  | (k', ps) :: rest =>
    if k' = k then (k', ps ++ [p]) :: rest
    else (k', ps) :: addToGroups rest k p

/-- The `session_backups` dict of `clean_old_backups` (lines 273-291). -/
def buildGroups (fls : List (List String)) : List (String × List (List String)) :=
  fls.foldl (fun gs p => addToGroups gs (groupKeyOf (lastSegOf p)) p) []

/-- Deletion of one over-quota backup entry (lines 299-319): remove the main
file and its present sidecars inside one `try`; any failure is caught and
the counter is not incremented for this entry. -/
def deleteBackupEntry (fs : FS) (v : List String) : Nat × FS :=
  match osRemove fs v with
  | (.error _, fs1) => (0, fs1)
  | (.ok _, fs1) =>
    match (if fs1.osExists (withSuffix v "-wal") then
             osRemove fs1 (withSuffix v "-wal")
           else (.ok (), fs1)) with
    | (.error _, fs2) => (0, fs2)
    | (.ok _, fs2) =>
      match (if fs2.osExists (withSuffix v "-shm") then
               osRemove fs2 (withSuffix v "-shm")
             else (.ok (), fs2)) with
      | (.error _, fs3) => (0, fs3)
      | (.ok _, fs3) => (1, fs3)

/-- The inner deletion loop over the victims of one group. -/
def deleteVictims : List (List String) → FS → Nat × FS
  | [], fs => (0, fs)
  | v :: vs, fs =>
    let q := deleteBackupEntry fs v
    let r := deleteVictims vs q.2
    (q.1 + r.1, r.2)

/-- The per-group loop of `clean_old_backups` (lines 293-319): skip groups
within quota; otherwise sort by current modification time descending and
delete everything beyond the first `keep`. -/
def cleanGroupsLoop (keep : Nat) : List (String × List (List String)) → FS → Nat × FS
  | [], fs => (0, fs)
  | (_, bs) :: rest, fs =>
    if bs.length ≤ keep then cleanGroupsLoop keep rest fs
    else
      let victims := (sortByMtimeDesc fs bs).drop keep
      let q := deleteVictims victims fs
      let r := cleanGroupsLoop keep rest q.2
      (q.1 + r.1, r.2)

/-- `clean_old_backups` (lines 265-327).  Every statement that can raise is
inside the per-entry `try/except`, so the sweep as a whole is total and
returns the counter. -/
def clean_old_backups (fs : FS) (keep : Nat) : Nat × FS :=
  let fls := (backupDirsOf fs).foldl
    (fun acc d => if fs.osExists d then acc ++ globFiles fs d "" ".session.backup" else acc)
    []
  cleanGroupsLoop keep (buildGroups fls) fs

/-- The per-session loop of `create_all_backups` (lines 253-258); the
identity is `basename.replace('.session', '')`. -/
def createAllLoop : List (List String) → FS → Except PyErr Nat × FS
  | [], fs => (.ok 0, fs)
  | p :: rest, fs =>
    let nm := String.mk (pyDeleteAll ".session".data (lastSegOf p).data)
    match create_backup fs nm true with
    | (.error e, fs1) => (.error e, fs1)
    | (.ok ok, fs1) =>
      match createAllLoop rest fs1 with
      | (.error e, fs2) => (.error e, fs2)
      | (.ok n, fs2) => (.ok ((if ok then 1 else 0) + n), fs2)

/-- `create_all_backups` (lines 246-263). -/
def create_all_backups (fs : FS) (autoCleanup : Bool) : Except PyErr Nat × FS :=
  let sessionDirs := [fs.root, fs.root ++ ["telethon"], fs.root ++ ["pyrogram"]]
  let sessions := sessionDirs.foldl (fun acc d => acc ++ globFiles fs d "" ".session") []
  match createAllLoop sessions fs with
  | (.error e, fs1) => (.error e, fs1)
  | (.ok n, fs1) =>
    if autoCleanup && decide (0 < n) then
      let q := clean_old_backups fs1 5
      (.ok n, q.2)
    else (.ok n, fs1)

/-- Pure characterization of `_verify_session_integrity`'s boolean result:
the file exists (and the path is not also a directory), has size at least
1024, opens as a database, and enumerates at least one table. -/
def integrityOk (fs : FS) (p : List String) : Bool :=
  match fs.dataAt p with
  | some d => !(fs.isDir p) && decide (1024 ≤ d.size) && d.isDb && decide (0 < d.tables)
  | none => false

/-- Net number of connections `_verify_session_integrity` leaves open: one
when the file opens but the schema query raises (the `conn.close()` on the
success path is skipped), zero otherwise. -/
def connLeak (fs : FS) (p : List String) : Nat :=
  match fs.dataAt p with
  | some d => if !(fs.isDir p) && decide (1024 ≤ d.size) && !d.isDb then 1 else 0
  | none => 0

/-- Remove `suf` from the end of `s` when it is a suffix. -/
def stripSuffixCL (suf s : List Char) : List Char :=
  if suf.isSuffixOf s then s.take (s.length - suf.length) else s

/-- Modelled from the spec: does a basename core end in the full
`_<YYYYMMDD>_<HHMMSS>` timestamp shape (an underscore, eight digits, an
underscore, six digits)? -/
def hasTimestampSuffix (core : List Char) : Bool :=
  let r := core.reverse
  decide (16 ≤ core.length) &&
    (r.take 6).all Char.isDigit && decide (r.get? 6 = some '_') &&
    ((r.drop 7).take 8).all Char.isDigit && decide (r.get? 15 = some '_')

/-- Modelled from the spec (claim wording): the identity owning a backup
basename is obtained by stripping the backup extension and then a trailing
`_<YYYYMMDD_HHMMSS>` timestamp suffix when one is present; legacy entries
keep the whole extension-stripped basename. -/
def specIdentityOf (basename : String) : String :=
  let core := stripSuffixCL ".session.backup".data basename.data
  if hasTimestampSuffix core then String.mk (core.take (core.length - 16))
  else String.mk core

/-- All backup files found by the cleanup glob across the three mirrored
directories (the `fls` list of `clean_old_backups`). -/
def listAllBackups (fs : FS) : List (List String) :=
  (backupDirsOf fs).foldl
    (fun acc d => if fs.osExists d then acc ++ globFiles fs d "" ".session.backup" else acc)
    []

/-- The backup files owned by spec-identity `k` (claim wording). -/
def backupsWithSpecIdentity (fs : FS) (k : String) : List (List String) :=
  (listAllBackups fs).filter (fun p => decide (specIdentityOf (lastSegOf p) = k))

/-- The backup files grouped under the code's key `k`. -/
def backupsWithGroupKey (fs : FS) (k : String) : List (List String) :=
  (listAllBackups fs).filter (fun p => decide (groupKeyOf (lastSegOf p) = k))

/-- Split a char list on `'/'` (operating-system path separator). -/
def splitOnSlash (l : List Char) : List (List Char) :=
  match l with
  | [] => [[]]
  | c :: rest =>
    match splitOnSlash rest with
    | [] => if c = '/' then [[], []] else [[c]]
    | h :: t => if c = '/' then [] :: h :: t else (c :: h) :: t

/-- Operating-system resolution of the segments of a string path: `..` pops
a segment, `.` and empty segments vanish. -/
def normSegs (segs : List String) : List String :=
  segs.foldl
    (fun acc s =>
      if s = ".." then acc.dropLast
      else if s = "." ∨ s = "" then acc
      else acc ++ [s])
    []

/-- The real path a model path denotes once each segment is re-read as text
of a string path: segments are split on separators and resolved. -/
def realPathOf (p : List String) : List String :=
  normSegs (p.foldr (fun s acc => (splitOnSlash s.data).map String.mk ++ acc) [])

/-- A healthy credential-file content. -/
def goodDb (blob : Nat) : FileData := ⟨2048, true, 3, blob⟩

/-- An oversized file that is not a database (opens, statements raise). -/
def badDb (blob : Nat) : FileData := ⟨2000, false, 0, blob⟩

/-- A timestamped backup entry of basename `b` under `<root>/backups`. -/
def bkEntry (b : String) (m blob : Nat) : Entry :=
  ⟨["S", "backups", b], goodDb blob, m⟩

/-- Baseline world: root `S`, no faults. -/
def baseFS : FS :=
  { root := ["S"], entries := [], dirs := [["S", "backups"]], denied := [],
    locked := [], removeFail := [], openConns := 0,
    nowDate := "20240105", nowTime := "090000" }

/-- Six healthy backups of identity `sess`, three per calendar day. -/
def fsRetention : FS :=
  { baseFS with entries :=
      [bkEntry "sess_20240101_120000.session.backup" 1 1,
       bkEntry "sess_20240101_130000.session.backup" 2 2,
       bkEntry "sess_20240101_140000.session.backup" 3 3,
       bkEntry "sess_20240102_120000.session.backup" 4 4,
       bkEntry "sess_20240102_130000.session.backup" 5 5,
       bkEntry "sess_20240102_140000.session.backup" 6 6] }

def fsBoundary : FS :=
  { baseFS with entries := [⟨["S", "a.session"], goodDb 5, 10⟩],
                denied := [["S", "backups"]] }

def fsSkipCorrupt : FS :=
  { baseFS with entries :=
      [⟨["S", "backups", "y_20240103_120000.session.backup"], badDb 91, 30⟩,
       ⟨["S", "backups", "y_20240102_120000.session.backup"], goodDb 92, 20⟩,
       ⟨["S", "backups", "y_20240101_120000.session.backup"], goodDb 93, 10⟩] }

def fsLeak : FS := { baseFS with entries := [⟨["S", "bad.session"], badDb 7, 1⟩] }

def fsSidecar : FS :=
  { baseFS with entries :=
      [bkEntry "sess_20240101_120000.session.backup" 1 1,
       ⟨["S", "backups", "sess_20240101_120000.session.backup-wal"], ⟨100, false, 0, 11⟩, 1⟩,
       bkEntry "sess_20240101_130000.session.backup" 2 2,
       bkEntry "sess_20240101_140000.session.backup" 3 3,
       bkEntry "sess_20240101_150000.session.backup" 4 4,
       bkEntry "sess_20240101_160000.session.backup" 5 5,
       bkEntry "sess_20240101_170000.session.backup" 6 6] }

def fsRound : FS :=
  { baseFS with
      entries := [⟨["S", "telethon", "alice.session"], goodDb 42, 100⟩],
      dirs := [["S", "backups"], ["S", "telethon"]] }

def fsTraversal : FS :=
  { baseFS with entries := [⟨["S", "../evil.session"], goodDb 9, 1⟩] }

/-- World with a prefix-colliding identity: `al` has a valid live file while
`alx` owns a newer valid backup whose basename also starts with `al`. -/
def fsPrefixClash : FS :=
  { baseFS with entries :=
      [⟨["S", "al.session"], goodDb 1, 100⟩,
       ⟨["S", "backups", "alx_20240101_120000.session.backup"], goodDb 77, 500⟩] }

/-- The grouping key of a path's basename. -/
def keyOf (p : List String) : String := groupKeyOf (lastSegOf p)

/-- The bucket of key `k` in a group list (first match). -/
def groupsGet (gs : List (String × List (List String))) (k : String) :
    List (List String) :=
  ((gs.find? (fun kb => decide (kb.1 = k))).map Prod.snd).getD []

/-- The backups the cleanup retains for grouping key `k`: all of them when
the group is within quota, otherwise the `keep` most recently modified
(stably, by the descending insertion sort the code performs). -/
def keptOf (fs : FS) (keep : Nat) (k : String) : List (List String) :=
  if (backupsWithGroupKey fs k).length ≤ keep then backupsWithGroupKey fs k
  else (sortByMtimeDesc fs (backupsWithGroupKey fs k)).take keep

/-- Seven same-key backups with an injected removal failure on the first
victim the sweep meets (the second-oldest backup). -/
def fsAbort : FS :=
  { baseFS with
      entries :=
        [bkEntry "sess_20240101_110000.session.backup" 1 1,
         bkEntry "sess_20240101_120000.session.backup" 2 2,
         bkEntry "sess_20240101_130000.session.backup" 3 3,
         bkEntry "sess_20240101_140000.session.backup" 4 4,
         bkEntry "sess_20240101_150000.session.backup" 5 5,
         bkEntry "sess_20240101_160000.session.backup" 6 6,
         bkEntry "sess_20240101_170000.session.backup" 7 7],
      removeFail := [["S", "backups", "sess_20240101_120000.session.backup"]] }

/-- Shape of a restore/cleanup candidate: it lies directly in one of the
three mirrored backup directories and its basename carries the backup
extension. -/
def candShape (fs : FS) (b : List String) : Prop :=
  b.dropLast ∈ backupDirsOf fs ∧ strEndsWith (lastSegOf b) ".session.backup" = true

/-- A candidate that restore will succeed on: verifies and is not locked. -/
def goodCand (fs : FS) (b : List String) : Bool :=
  integrityOk fs b && !decide (b ∈ fs.locked)

/-- The live path restore writes for candidate `b`. -/
def restoreTarget (fs : FS) (name : String) (b : List String) : List String :=
  restoreTargetDirOf fs b ++ [name ++ ".session"]

/-- Relation between the state at entry of `restore_from_backup` and the
state at the head of each candidate-loop iteration: only the connection
counter and the created target directories may differ. -/
structure LoopInv (fs0 fsi : FS) : Prop where
  entries_eq : fsi.entries = fs0.entries
  root_eq : fsi.root = fs0.root
  locked_eq : fsi.locked = fs0.locked
  denied_eq : fsi.denied = fs0.denied
  removeFail_eq : fsi.removeFail = fs0.removeFail
  nowDate_eq : fsi.nowDate = fs0.nowDate
  nowTime_eq : fsi.nowTime = fs0.nowTime
  dirs_mono : ∀ q, q ∈ fs0.dirs → q ∈ fsi.dirs
  dirs_growth : ∀ q, q ∈ fsi.dirs → q ∈ fs0.dirs ∨ q = fs0.root
      ∨ q = fs0.root ++ ["telethon"] ∨ q = fs0.root ++ ["pyrogram"]

/-- The candidate list `restore_from_backup` iterates. -/
def restoreCands (fs : FS) (name : String) (ul : Bool) : List (List String) :=
  let allBackups := collectBackups fs name
  if ul && decide (1 < allBackups.length) then sortByMtimeDesc fs allBackups
  else allBackups

/-- A path segment that the operating system reads back as itself: no
separator, not a traversal or current-directory marker, not empty. -/
def cleanSeg (s : String) : Prop :=
  (∀ c ∈ s.data, c ≠ '/') ∧ s ≠ ".." ∧ s ≠ "." ∧ s ≠ ""

instance (s : String) : Decidable (cleanSeg s) := by
  unfold cleanSeg
  infer_instance

/-- The directories of the documented filesystem layout. -/
def layoutDirs (fs : FS) : List (List String) :=
  [fs.root, fs.root ++ ["telethon"], fs.root ++ ["pyrogram"],
   backupRootOf fs, backupRootOf fs ++ ["telethon"], backupRootOf fs ++ ["pyrogram"]]

/-- Does the file at `p` open as a database (false when absent)? -/
def dbAt (fs : FS) (p : List String) : Bool :=
  ((fs.dataAt p).map (·.isDb)).getD false

/-- The best-effort sidecar copies performed after the main-file copy. -/
def sideCopies (fs : FS) (src dst : List String) : FS :=
  let f2 :=
    if fs.osExists (withSuffix src "-wal") then
      (copy2 fs (withSuffix src "-wal") (withSuffix dst "-wal")).2
    else fs
  if f2.osExists (withSuffix src "-shm") then
    (copy2 f2 (withSuffix src "-shm") (withSuffix dst "-shm")).2
  else f2

/-- The whole state effect of a successful `_safe_sqlite_copy`: main copy
then sidecar copies. -/
def copyEffect (fs : FS) (src dst : List String) : FS :=
  sideCopies ((copy2 fs src dst).2) src dst

/-- Entry-list effect of one `shutil.copy2` (no-op when the source file is
absent, as the raised exception is swallowed or aborts before writing). -/
def entriesCopy (l : List Entry) (src dst : List String) : List Entry :=
  match l.find? (fun e => decide (e.path = src)) with
  | some e => FS.updateEntries l dst e.data e.mtime
  | none => l

/-- Entry-list effect of a successful `_safe_sqlite_copy`: main file, then
write-ahead-log and shared-memory sidecars. -/
def entriesCopyAll (l : List Entry) (src dst : List String) : List Entry :=
  entriesCopy
    (entriesCopy (entriesCopy l src dst)
      (withSuffix src "-wal") (withSuffix dst "-wal"))
    (withSuffix src "-shm") (withSuffix dst "-shm")

namespace FS

theorem isFile_eq_isSome (fs : FS) (p : List String) :
    fs.isFile p = (fs.dataAt p).isSome := by
  unfold isFile dataAt
  induction fs.entries with
  | nil => simp [List.find?]
  | cons e t ih =>
    simp only [List.any_cons, List.find?]
    by_cases he : e.path = p
    · simp [he]
    · simpa [he] using ih

theorem dataAt_eq_none_of_not_isFile (fs : FS) (p : List String)
    (h : fs.isFile p = false) : fs.dataAt p = none := by
  have := isFile_eq_isSome fs p
  rw [h] at this
  exact Option.not_isSome_iff_eq_none.mp (by rw [← this]; simp)

theorem find?_updateEntries (l : List Entry) (q : List String) (d : FileData)
    (m : Nat) (p : List String) :
    (updateEntries l q d m).find? (fun e => decide (e.path = p))
      = if p = q then some ⟨q, d, m⟩ else l.find? (fun e => decide (e.path = p)) := by
  unfold updateEntries
  by_cases hq : l.any (fun e => decide (e.path = q)) = true
  · rw [if_pos hq]
    rw [List.find?_map]
    have hcomp :
        ((fun e => decide (e.path = p)) ∘
          (fun e => if e.path = q then { e with data := d, mtime := m } else e))
          = fun e : Entry => decide (e.path = p) := by
      funext e
      by_cases he : e.path = q <;> simp [he]
    rw [hcomp]
    by_cases hpq : p = q
    · subst hpq
      have hs : (l.find? (fun e => decide (e.path = p))).isSome := by
        rw [List.find?_isSome]
        exact List.any_eq_true.mp hq
      obtain ⟨e, he⟩ := Option.isSome_iff_exists.mp hs
      have hep : e.path = p := by have := List.find?_some he; simpa using this
      rw [if_pos rfl, he]
      simp [Option.map, hep]
    · rw [if_neg hpq]
      cases he : l.find? (fun e => decide (e.path = p)) with
      | none => simp
      | some e =>
        have hep : e.path = p := by have := List.find?_some he; simpa using this
        have : e.path ≠ q := by rw [hep]; exact hpq
        simp [this]
  · rw [if_neg hq]
    rw [List.find?_append]
    by_cases hpq : p = q
    · subst hpq
      have hnone : l.find? (fun e => decide (e.path = p)) = none := by
        rw [List.find?_eq_none]
        intro x hx
        simp only [decide_eq_true_eq]
        intro hxp
        exact hq (List.any_eq_true.mpr ⟨x, hx, by simp [hxp]⟩)
      rw [hnone]
      simp [List.find?]
    · cases he : l.find? (fun e => decide (e.path = p)) with
      | none => simp [he, List.find?, Ne.symm hpq, hpq]
      | some e => simp [he, hpq]

theorem dataAt_setFile (fs : FS) (q : List String) (d : FileData) (m : Nat)
    (p : List String) :
    (fs.setFile q d m).dataAt p = if p = q then some d else fs.dataAt p := by
  unfold setFile dataAt
  simp only [find?_updateEntries]
  by_cases hpq : p = q <;> simp [hpq]

theorem mtimeAt_setFile (fs : FS) (q : List String) (d : FileData) (m : Nat)
    (p : List String) :
    (fs.setFile q d m).mtimeAt p = if p = q then m else fs.mtimeAt p := by
  unfold setFile mtimeAt
  simp only [find?_updateEntries]
  by_cases hpq : p = q <;> simp [hpq]

theorem isFile_setFile (fs : FS) (q : List String) (d : FileData) (m : Nat)
    (p : List String) :
    (fs.setFile q d m).isFile p = (decide (p = q) || fs.isFile p) := by
  rw [isFile_eq_isSome, isFile_eq_isSome, dataAt_setFile]
  by_cases hpq : p = q <;> simp [hpq]

theorem find?_removeFile (l : List Entry) (q p : List String) :
    (l.filter (fun e => decide (e.path ≠ q))).find? (fun e => decide (e.path = p))
      = if p = q then none else l.find? (fun e => decide (e.path = p)) := by
  induction l with
  | nil => simp [List.find?]
  | cons e t ih =>
    by_cases heq : e.path = q
    · rw [List.filter_cons_of_neg (by simp [heq])]
      rw [ih]
      by_cases hpq : p = q
      · simp [hpq]
      · have : e.path ≠ p := by rw [heq]; exact fun h => hpq (h ▸ rfl)
        simp [List.find?, this, hpq]
    · rw [List.filter_cons_of_pos (by simp [heq])]
      by_cases hep : e.path = p
      · by_cases hpq : p = q
        · exact absurd (hep.trans hpq) heq
        · simp [List.find?, hep, hpq]
      · simp only [List.find?, hep, decide_False]
        exact ih

theorem dataAt_removeFile (fs : FS) (q p : List String) :
    (fs.removeFile q).dataAt p = if p = q then none else fs.dataAt p := by
  unfold removeFile dataAt
  simp only [find?_removeFile]
  by_cases hpq : p = q <;> simp [hpq]

theorem mtimeAt_removeFile (fs : FS) (q p : List String) :
    (fs.removeFile q).mtimeAt p = if p = q then 0 else fs.mtimeAt p := by
  unfold removeFile mtimeAt
  simp only [find?_removeFile]
  by_cases hpq : p = q <;> simp [hpq]

theorem isFile_removeFile (fs : FS) (q p : List String) :
    (fs.removeFile q).isFile p = (decide (p ≠ q) && fs.isFile p) := by
  rw [isFile_eq_isSome, isFile_eq_isSome, dataAt_removeFile]
  by_cases hpq : p = q <;> simp [hpq]

end FS

namespace FS

theorem setFile_root (fs : FS) (q : List String) (d : FileData) (m : Nat) :
    (fs.setFile q d m).root = fs.root := rfl

theorem setFile_dirs (fs : FS) (q : List String) (d : FileData) (m : Nat) :
    (fs.setFile q d m).dirs = fs.dirs := rfl

theorem setFile_denied (fs : FS) (q : List String) (d : FileData) (m : Nat) :
    (fs.setFile q d m).denied = fs.denied := rfl

theorem setFile_locked (fs : FS) (q : List String) (d : FileData) (m : Nat) :
    (fs.setFile q d m).locked = fs.locked := rfl

theorem setFile_removeFail (fs : FS) (q : List String) (d : FileData) (m : Nat) :
    (fs.setFile q d m).removeFail = fs.removeFail := rfl

theorem setFile_openConns (fs : FS) (q : List String) (d : FileData) (m : Nat) :
    (fs.setFile q d m).openConns = fs.openConns := rfl

theorem setFile_isDir (fs : FS) (q : List String) (d : FileData) (m : Nat)
    (p : List String) : (fs.setFile q d m).isDir p = fs.isDir p := rfl

theorem removeFile_root (fs : FS) (q : List String) :
    (fs.removeFile q).root = fs.root := rfl

theorem removeFile_dirs (fs : FS) (q : List String) :
    (fs.removeFile q).dirs = fs.dirs := rfl

theorem removeFile_isDir (fs : FS) (q p : List String) :
    (fs.removeFile q).isDir p = fs.isDir p := rfl

theorem bumpConns_entries (fs : FS) (k : Nat) :
    (fs.bumpConns k).entries = fs.entries := rfl

theorem bumpConns_dataAt (fs : FS) (k : Nat) (p : List String) :
    (fs.bumpConns k).dataAt p = fs.dataAt p := rfl

theorem bumpConns_isFile (fs : FS) (k : Nat) (p : List String) :
    (fs.bumpConns k).isFile p = fs.isFile p := rfl

theorem bumpConns_isDir (fs : FS) (k : Nat) (p : List String) :
    (fs.bumpConns k).isDir p = fs.isDir p := rfl

theorem bumpConns_openConns (fs : FS) (k : Nat) :
    (fs.bumpConns k).openConns = k := rfl

theorem bumpConns_self (fs : FS) : fs.bumpConns fs.openConns = fs := rfl

end FS

theorem FS.bumpConns_bumpConns (fs : FS) (a b : Nat) :
    (fs.bumpConns a).bumpConns b = fs.bumpConns b := rfl

theorem verify_spec (fs : FS) (p : List String) :
    verify_session_integrity fs p
      = (.ok (integrityOk fs p), fs.bumpConns (fs.openConns + connLeak fs p)) := by
  unfold verify_session_integrity integrityOk connLeak
  cases h : fs.dataAt p with
  | none =>
    have hf : fs.isFile p = false := by rw [FS.isFile_eq_isSome, h]; rfl
    by_cases hd : fs.isDir p = true
    · have hex : fs.osExists p = true := by simp [FS.osExists, hf, hd]
      have hsz : fs.sizeAt p = 4096 := by simp [FS.sizeAt, h]
      simp only [hex, hsz, sqliteConnect, hd]
      norm_num
      rfl
    · have hd' : fs.isDir p = false := by simpa using hd
      have hex : fs.osExists p = false := by simp [FS.osExists, hf, hd']
      simp only [hex]
      norm_num
      rfl
  | some d =>
    have hf : fs.isFile p = true := by rw [FS.isFile_eq_isSome, h]; rfl
    have hex : fs.osExists p = true := by simp [FS.osExists, hf]
    have hsz : fs.sizeAt p = d.size := by simp [FS.sizeAt, h]
    by_cases hlt : d.size < 1024
    · have hng : ¬(1024 ≤ d.size) := by omega
      simp only [hex, hsz, hlt, hng]
      norm_num [hlt]
      rfl
    · have hge : 1024 ≤ d.size := by omega
      by_cases hd : fs.isDir p = true
      · simp only [hex, hsz, hlt, sqliteConnect, hd]
        simp [hd, FS.bumpConns_self]
      · have hd' : fs.isDir p = false := by simpa using hd
        simp only [hex, hsz, hlt, sqliteConnect, hd', hf]
        simp only [Bool.false_eq_true, if_false, if_true, if_neg hlt]
        simp only [sqliteSchemaQuery, FS.bumpConns_dataAt, h]
        by_cases hdb : d.isDb = true
        · simp only [hdb, if_true, sqliteClose, FS.bumpConns_openConns,
            FS.bumpConns_bumpConns]
          by_cases ht : d.tables = 0
          · have ht' : ¬(0 < d.tables) := by omega
            simp [ht, ht', hge, hdb, hd', FS.bumpConns_self]
          · have ht' : 0 < d.tables := by omega
            simp [ht, ht', hge, hdb, hd', FS.bumpConns_self]
        · have hdb' : d.isDb = false := by simpa using hdb
          simp [hdb', hge, hd']

theorem safeCopyPhase_spec (fs : FS) (src dst : List String) :
    safeCopyPhase fs src dst
      = (if (fs.dataAt src).isSome then AttemptRes.success else .failedTry,
         if (fs.dataAt src).isSome then copyEffect fs src dst else fs) := by
  unfold safeCopyPhase copyEffect sideCopies copy2
  cases h : fs.dataAt src <;> simp [h]

theorem copy2_dataAt_other (fs : FS) (a b q : List String) (h : q ≠ b) :
    ((copy2 fs a b).2).dataAt q = fs.dataAt q := by
  unfold copy2
  cases hd : fs.dataAt a <;> simp [hd, FS.dataAt_setFile, h]

theorem copy2_mtimeAt_other (fs : FS) (a b q : List String) (h : q ≠ b) :
    ((copy2 fs a b).2).mtimeAt q = fs.mtimeAt q := by
  unfold copy2
  cases hd : fs.dataAt a <;> simp [hd, FS.mtimeAt_setFile, h]

theorem copy2_isFile_other (fs : FS) (a b q : List String) (h : q ≠ b) :
    ((copy2 fs a b).2).isFile q = fs.isFile q := by
  rw [FS.isFile_eq_isSome, FS.isFile_eq_isSome, copy2_dataAt_other fs a b q h]

theorem copy2_root (fs : FS) (a b : List String) : ((copy2 fs a b).2).root = fs.root := by
  unfold copy2; cases hd : fs.dataAt a <;> rfl

theorem copy2_dirs (fs : FS) (a b : List String) : ((copy2 fs a b).2).dirs = fs.dirs := by
  unfold copy2; cases hd : fs.dataAt a <;> rfl

theorem copy2_denied (fs : FS) (a b : List String) :
    ((copy2 fs a b).2).denied = fs.denied := by
  unfold copy2; cases hd : fs.dataAt a <;> rfl

theorem copy2_locked (fs : FS) (a b : List String) :
    ((copy2 fs a b).2).locked = fs.locked := by
  unfold copy2; cases hd : fs.dataAt a <;> rfl

theorem copy2_removeFail (fs : FS) (a b : List String) :
    ((copy2 fs a b).2).removeFail = fs.removeFail := by
  unfold copy2; cases hd : fs.dataAt a <;> rfl

theorem copy2_openConns (fs : FS) (a b : List String) :
    ((copy2 fs a b).2).openConns = fs.openConns := by
  unfold copy2; cases hd : fs.dataAt a <;> rfl

theorem copy2_nowDate (fs : FS) (a b : List String) :
    ((copy2 fs a b).2).nowDate = fs.nowDate := by
  unfold copy2; cases hd : fs.dataAt a <;> rfl

theorem copy2_nowTime (fs : FS) (a b : List String) :
    ((copy2 fs a b).2).nowTime = fs.nowTime := by
  unfold copy2; cases hd : fs.dataAt a <;> rfl

theorem copy2_isDir (fs : FS) (a b q : List String) :
    ((copy2 fs a b).2).isDir q = fs.isDir q := by
  unfold copy2 FS.isDir
  cases hd : fs.dataAt a <;> simp [FS.setFile_root, FS.setFile_dirs]

theorem copyEffect_root (fs : FS) (s d : List String) :
    (copyEffect fs s d).root = fs.root := by
  unfold copyEffect sideCopies
  dsimp only
  split_ifs <;> simp [copy2_root]

theorem copyEffect_dirs (fs : FS) (s d : List String) :
    (copyEffect fs s d).dirs = fs.dirs := by
  unfold copyEffect sideCopies
  dsimp only
  split_ifs <;> simp [copy2_dirs]

theorem copyEffect_denied (fs : FS) (s d : List String) :
    (copyEffect fs s d).denied = fs.denied := by
  unfold copyEffect sideCopies
  dsimp only
  split_ifs <;> simp [copy2_denied]

theorem copyEffect_locked (fs : FS) (s d : List String) :
    (copyEffect fs s d).locked = fs.locked := by
  unfold copyEffect sideCopies
  dsimp only
  split_ifs <;> simp [copy2_locked]

theorem copyEffect_removeFail (fs : FS) (s d : List String) :
    (copyEffect fs s d).removeFail = fs.removeFail := by
  unfold copyEffect sideCopies
  dsimp only
  split_ifs <;> simp [copy2_removeFail]

theorem copyEffect_openConns (fs : FS) (s d : List String) :
    (copyEffect fs s d).openConns = fs.openConns := by
  unfold copyEffect sideCopies
  dsimp only
  split_ifs <;> simp [copy2_openConns]

theorem copyEffect_nowDate (fs : FS) (s d : List String) :
    (copyEffect fs s d).nowDate = fs.nowDate := by
  unfold copyEffect sideCopies
  dsimp only
  split_ifs <;> simp [copy2_nowDate]

theorem copyEffect_nowTime (fs : FS) (s d : List String) :
    (copyEffect fs s d).nowTime = fs.nowTime := by
  unfold copyEffect sideCopies
  dsimp only
  split_ifs <;> simp [copy2_nowTime]

theorem copyEffect_isDir (fs : FS) (s d q : List String) :
    (copyEffect fs s d).isDir q = fs.isDir q := by
  unfold copyEffect sideCopies
  dsimp only
  split_ifs <;> simp [copy2_isDir]

theorem copyEffect_dataAt_other (fs : FS) (src dst q : List String)
    (h1 : q ≠ dst) (h2 : q ≠ withSuffix dst "-wal") (h3 : q ≠ withSuffix dst "-shm") :
    (copyEffect fs src dst).dataAt q = fs.dataAt q := by
  unfold copyEffect sideCopies
  dsimp only
  split_ifs <;>
    simp [copy2_dataAt_other _ _ _ _ h1, copy2_dataAt_other _ _ _ _ h2,
      copy2_dataAt_other _ _ _ _ h3]

theorem copyEffect_mtimeAt_other (fs : FS) (src dst q : List String)
    (h1 : q ≠ dst) (h2 : q ≠ withSuffix dst "-wal") (h3 : q ≠ withSuffix dst "-shm") :
    (copyEffect fs src dst).mtimeAt q = fs.mtimeAt q := by
  unfold copyEffect sideCopies
  dsimp only
  split_ifs <;>
    simp [copy2_mtimeAt_other _ _ _ _ h1, copy2_mtimeAt_other _ _ _ _ h2,
      copy2_mtimeAt_other _ _ _ _ h3]

theorem copyEffect_isFile_other (fs : FS) (src dst q : List String)
    (h1 : q ≠ dst) (h2 : q ≠ withSuffix dst "-wal") (h3 : q ≠ withSuffix dst "-shm") :
    (copyEffect fs src dst).isFile q = fs.isFile q := by
  rw [FS.isFile_eq_isSome, FS.isFile_eq_isSome,
    copyEffect_dataAt_other fs src dst q h1 h2 h3]

theorem copy2_dataAt_self (fs : FS) (src dst : List String) :
    ((copy2 fs src dst).2).dataAt dst
      = if (fs.dataAt src).isSome then fs.dataAt src else fs.dataAt dst := by
  unfold copy2
  cases hd : fs.dataAt src <;> simp [hd, FS.dataAt_setFile]

theorem copy2_mtimeAt_self (fs : FS) (src dst : List String) :
    ((copy2 fs src dst).2).mtimeAt dst
      = if (fs.dataAt src).isSome then fs.mtimeAt src else fs.mtimeAt dst := by
  unfold copy2
  cases hd : fs.dataAt src <;> simp [hd, FS.mtimeAt_setFile]

theorem copyEffect_dataAt_main (fs : FS) (src dst : List String)
    (h2 : dst ≠ withSuffix dst "-wal") (h3 : dst ≠ withSuffix dst "-shm") :
    (copyEffect fs src dst).dataAt dst
      = if (fs.dataAt src).isSome then fs.dataAt src else fs.dataAt dst := by
  unfold copyEffect sideCopies
  dsimp only
  split_ifs <;>
    simp [copy2_dataAt_other _ _ _ _ h2, copy2_dataAt_other _ _ _ _ h3,
      copy2_dataAt_self] <;>
    (intro hx; simp_all)

theorem copyEffect_mtimeAt_main (fs : FS) (src dst : List String)
    (h2 : dst ≠ withSuffix dst "-wal") (h3 : dst ≠ withSuffix dst "-shm") :
    (copyEffect fs src dst).mtimeAt dst
      = if (fs.dataAt src).isSome then fs.mtimeAt src else fs.mtimeAt dst := by
  unfold copyEffect sideCopies
  dsimp only
  split_ifs <;>
    simp [copy2_mtimeAt_other _ _ _ _ h2, copy2_mtimeAt_other _ _ _ _ h3,
      copy2_mtimeAt_self] <;>
    (intro hx; simp_all)

theorem safeCopyAttempt_spec (fs : FS) (src dst : List String)
    (hf : fs.isFile src = true) (hd : fs.isDir src = false) :
    safeCopyAttempt fs src dst
      = (if src ∈ fs.locked then (.lockedTry, fs)
         else if dbAt fs src then (.success, copyEffect fs src dst)
         else (.failedTry, fs)) := by
  obtain ⟨d, hdat⟩ : ∃ d, fs.dataAt src = some d := by
    rw [FS.isFile_eq_isSome] at hf
    exact Option.isSome_iff_exists.mp hf
  unfold safeCopyAttempt
  by_cases hl : src ∈ fs.locked
  · simp [hl]
  · simp only [if_neg hl]
    simp only [sqliteConnect, hd, hf]
    norm_num
    have hclose : sqliteClose (fs.bumpConns (fs.openConns + 1)) = fs := by
      unfold sqliteClose
      rw [FS.bumpConns_bumpConns, FS.bumpConns_openConns]
      simp [FS.bumpConns_self]
    simp only [sqliteCheckpoint, FS.bumpConns_dataAt, hdat]
    by_cases hdb : d.isDb = true
    · simp only [hdb, if_true]
      rw [hclose, safeCopyPhase_spec]
      simp [dbAt, hdat, hdb]
    · have hdb' : d.isDb = false := by simpa using hdb
      simp only [hdb', Bool.false_eq_true, if_false]
      rw [hclose]
      simp [dbAt, hdat, hdb']

theorem safe_sqlite_copy_spec (fs : FS) (src dst : List String)
    (hf : fs.isFile src = true) (hd : fs.isDir src = false) :
    safe_sqlite_copy fs src dst
      = (.ok (!decide (src ∈ fs.locked) && dbAt fs src),
         if !decide (src ∈ fs.locked) && dbAt fs src then copyEffect fs src dst else fs) := by
  unfold safe_sqlite_copy
  by_cases hl : src ∈ fs.locked
  · simp [safeCopyAttempt_spec fs src dst hf hd, hl]
  · by_cases hdb : dbAt fs src = true
    · simp [safeCopyAttempt_spec fs src dst hf hd, hl, hdb]
    · simp [safeCopyAttempt_spec fs src dst hf hd, hl, hdb]

theorem safe_sqlite_copy_never_raises (fs : FS) (src dst : List String) :
    ∃ b fs', safe_sqlite_copy fs src dst = (.ok b, fs') := by
  unfold safe_sqlite_copy
  rcases h1 : safeCopyAttempt fs src dst with ⟨r1, f1⟩
  cases r1 with
  | success => exact ⟨true, f1, by rfl⟩
  | lockedTry =>
    rcases h2 : safeCopyAttempt f1 src dst with ⟨r2, f2⟩
    cases r2 with
    | success => exact ⟨true, f2, by simp only [h2]⟩
    | lockedTry =>
      rcases h3 : safeCopyAttempt f2 src dst with ⟨r3, f3⟩
      cases r3 with
      | success => exact ⟨true, f3, by simp only [h2, h3]⟩
      | lockedTry => exact ⟨false, f3, by simp only [h2, h3]⟩
      | failedTry => exact ⟨false, f3, by simp only [h2, h3]⟩
    | failedTry =>
      rcases h3 : safeCopyAttempt f2 src dst with ⟨r3, f3⟩
      cases r3 with
      | success => exact ⟨true, f3, by simp only [h2, h3]⟩
      | lockedTry => exact ⟨false, f3, by simp only [h2, h3]⟩
      | failedTry => exact ⟨false, f3, by simp only [h2, h3]⟩
  | failedTry =>
    rcases h2 : safeCopyAttempt f1 src dst with ⟨r2, f2⟩
    cases r2 with
    | success => exact ⟨true, f2, by simp only [h2]⟩
    | lockedTry =>
      rcases h3 : safeCopyAttempt f2 src dst with ⟨r3, f3⟩
      cases r3 with
      | success => exact ⟨true, f3, by simp only [h2, h3]⟩
      | lockedTry => exact ⟨false, f3, by simp only [h2, h3]⟩
      | failedTry => exact ⟨false, f3, by simp only [h2, h3]⟩
    | failedTry =>
      rcases h3 : safeCopyAttempt f2 src dst with ⟨r3, f3⟩
      cases r3 with
      | success => exact ⟨true, f3, by simp only [h2, h3]⟩
      | lockedTry => exact ⟨false, f3, by simp only [h2, h3]⟩
      | failedTry => exact ⟨false, f3, by simp only [h2, h3]⟩

theorem getLast?_of_suffix {suf x : List Char} (h : suf.isSuffixOf x = true)
    (hne : suf ≠ []) : x.getLast? = suf.getLast? := by
  obtain ⟨pre, rfl⟩ := List.isSuffixOf_iff_suffix.mp h
  exact List.getLast?_append_of_ne_nil pre hne

theorem append_lit_ne (s t u : String) (hne : t.data ≠ [])
    (h : t.data.getLast? ≠ u.data.getLast?) : s ++ t ≠ u := by
  intro he
  apply h
  have hd : (s ++ t).data = u.data := congrArg String.data he
  rw [String.data_append] at hd
  rw [← hd]
  exact (List.getLast?_append_of_ne_nil s.data hne).symm

theorem append_singleton_ne (l : List String) (x y : String) (h : x ≠ y) :
    l ++ [x] ≠ l ++ [y] := by
  intro he
  exact h (by simpa using List.append_cancel_left he)

theorem locate_shape (fs : FS) (name : String) (sf : List String)
    (hloc : get_session_file_path fs name = some sf) :
    sf = fs.root ++ [name ++ ".session"]
      ∨ sf = fs.root ++ ["telethon", name ++ ".session"]
      ∨ sf = fs.root ++ ["pyrogram", name ++ ".session"] := by
  unfold get_session_file_path at hloc
  dsimp only at hloc
  split_ifs at hloc <;> injection hloc with h <;> simp [← h]

theorem locate_osExists (fs : FS) (name : String) (sf : List String)
    (hloc : get_session_file_path fs name = some sf) :
    fs.osExists sf = true := by
  unfold get_session_file_path at hloc
  dsimp only at hloc
  split_ifs at hloc with h1 h2 h3 <;> injection hloc with h <;> rw [← h] <;> assumption

theorem connLeak_of_ok (fs : FS) (p : List String) (h : integrityOk fs p = true) :
    connLeak fs p = 0 := by
  unfold integrityOk at h
  unfold connLeak
  cases hd : fs.dataAt p with
  | none => rfl
  | some d =>
    rw [hd] at h
    simp only [Bool.and_eq_true] at h
    simp [hd, h.1.2]

theorem integrityOk_dataAt (fs : FS) (p : List String) (h : integrityOk fs p = true) :
    ∃ d, fs.dataAt p = some d ∧ d.isDb = true ∧ 1024 ≤ d.size ∧ 0 < d.tables := by
  unfold integrityOk at h
  cases hd : fs.dataAt p with
  | none => rw [hd] at h; exact absurd h (by simp)
  | some d =>
    rw [hd] at h
    simp only [Bool.and_eq_true, decide_eq_true_eq] at h
    exact ⟨d, rfl, h.1.2, h.1.1.2, h.2⟩

theorem integrityOk_isDir (fs : FS) (p : List String) (h : integrityOk fs p = true) :
    fs.isDir p = false := by
  unfold integrityOk at h
  cases hd : fs.dataAt p with
  | none => rw [hd] at h; exact absurd h (by simp)
  | some d =>
    rw [hd] at h
    simp only [Bool.and_eq_true] at h
    simpa using h.1.1.1

theorem integrityOk_isFile (fs : FS) (p : List String) (h : integrityOk fs p = true) :
    fs.isFile p = true := by
  obtain ⟨d, hd, -⟩ := integrityOk_dataAt fs p h
  rw [FS.isFile_eq_isSome, hd]
  rfl

theorem backupSubdirOf_flat (fs : FS) (x : String) :
    backupSubdirOf fs (fs.root ++ [x]) = fs.root ++ ["backups"] := by
  unfold backupSubdirOf backupRootOf
  simp [List.dropLast_concat, List.drop_left]

theorem backupSubdirOf_sub (fs : FS) (t x : String) :
    backupSubdirOf fs (fs.root ++ [t, x]) = fs.root ++ ["backups", t] := by
  unfold backupSubdirOf backupRootOf
  have h1 : (fs.root ++ [t, x]).dropLast = fs.root ++ [t] := by
    rw [show fs.root ++ [t, x] = (fs.root ++ [t]) ++ [x] by simp]
    exact List.dropLast_concat
  rw [h1, List.drop_left]
  simp

theorem locate_ne_backupSubdir (fs : FS) (name : String) (sf : List String)
    (hloc : get_session_file_path fs name = some sf) :
    sf ≠ backupSubdirOf fs sf := by
  rcases locate_shape fs name sf hloc with h | h | h <;> subst h
  · rw [backupSubdirOf_flat]
    exact append_singleton_ne _ _ _
      (append_lit_ne name ".session" "backups" (by decide) (by decide))
  · rw [backupSubdirOf_sub]
    intro he
    have := List.append_cancel_left he
    simp at this
  · rw [backupSubdirOf_sub]
    intro he
    have := List.append_cancel_left he
    simp at this

theorem create_backup_spec (fs : FS) (name : String) (sf : List String)
    (hloc : get_session_file_path fs name = some sf)
    (hval : integrityOk fs sf = true)
    (hdenied : backupSubdirOf fs sf ∉ fs.denied) :
    create_backup fs name true
      = (.ok (!decide (sf ∈ fs.locked)),
         if (!decide (sf ∈ fs.locked)) = true then
           copyEffect (makedirsFS fs (backupSubdirOf fs sf)) sf (backupPathOf fs name sf)
         else makedirsFS fs (backupSubdirOf fs sf)) := by
  obtain ⟨d, hd, hdb, hsz, hta⟩ := integrityOk_dataAt fs sf hval
  have hex : fs.osExists sf = true := locate_osExists fs name sf hloc
  have hfile : fs.isFile sf = true := integrityOk_isFile fs sf hval
  have hdir : fs.isDir sf = false := integrityOk_isDir fs sf hval
  have hns : sf ≠ backupSubdirOf fs sf := locate_ne_backupSubdir fs name sf hloc
  have hdir2 : (makedirsFS fs (backupSubdirOf fs sf)).isDir sf = false := by
    unfold makedirsFS FS.isDir
    unfold FS.isDir at hdir
    simp only [List.any_cons, Bool.or_eq_false_iff] at hdir ⊢
    refine ⟨hdir.1, ?_, hdir.2⟩
    simp [Ne.symm hns]
  have hfile2 : (makedirsFS fs (backupSubdirOf fs sf)).isFile sf = true := hfile
  have hdb2 : dbAt (makedirsFS fs (backupSubdirOf fs sf)) sf = true := by
    unfold dbAt makedirsFS
    unfold dbAt at *
    simp only [show (({ fs with dirs := backupSubdirOf fs sf :: fs.dirs } : FS)).dataAt sf
        = fs.dataAt sf from rfl, hd]
    simpa using hdb
  unfold create_backup
  rw [hloc]
  dsimp only
  rw [hex]
  simp only [Bool.not_true, Bool.false_eq_true, if_false]
  rw [verify_spec, hval, connLeak_of_ok fs sf hval]
  simp only [Nat.add_zero, FS.bumpConns_self]
  unfold osMakedirs
  rw [if_neg hdenied]
  have hmk : ({ fs with dirs := backupSubdirOf fs sf :: fs.dirs } : FS)
      = makedirsFS fs (backupSubdirOf fs sf) := rfl
  rw [hmk]
  have hts : timestampedName (makedirsFS fs (backupSubdirOf fs sf)) name
      = timestampedName fs name := rfl
  dsimp only
  simp only [if_true, hts]
  rw [safe_sqlite_copy_spec _ _ _ hfile2 hdir2]
  have hlk : (makedirsFS fs (backupSubdirOf fs sf)).locked = fs.locked := rfl
  rw [hlk, hdb2]
  simp [backupPathOf]

theorem copy2_entries (fs : FS) (src dst : List String) :
    ((copy2 fs src dst).2).entries = entriesCopy fs.entries src dst := by
  unfold copy2 FS.dataAt entriesCopy
  cases h : fs.entries.find? (fun e => decide (e.path = src)) with
  | none => simp [h]
  | some e =>
    simp only [h, Option.map_some']
    have hm : fs.mtimeAt src = e.mtime := by
      unfold FS.mtimeAt
      rw [h]
      rfl
    rw [hm]
    rfl

theorem entriesCopy_of_none (l : List Entry) (src dst : List String)
    (h : l.find? (fun e => decide (e.path = src)) = none) :
    entriesCopy l src dst = l := by
  unfold entriesCopy
  rw [h]

theorem find?_eq_none_of_not_osExists (g : FS) (q : List String)
    (hq : g.osExists q = false) :
    g.entries.find? (fun e => decide (e.path = q)) = none := by
  have hisf : g.isFile q = false := by
    unfold FS.osExists at hq
    exact (Bool.or_eq_false_iff.mp hq).1
  have hda := FS.dataAt_eq_none_of_not_isFile g q hisf
  unfold FS.dataAt at hda
  exact Option.map_eq_none'.mp hda

theorem copyEffect_entries (fs : FS) (src dst : List String) :
    (copyEffect fs src dst).entries = entriesCopyAll fs.entries src dst := by
  unfold copyEffect sideCopies entriesCopyAll
  dsimp only
  by_cases h1 : ((copy2 fs src dst).2).osExists (withSuffix src "-wal") = true
  · rw [if_pos h1]
    by_cases h2 : ((copy2 (copy2 fs src dst).2 (withSuffix src "-wal")
        (withSuffix dst "-wal")).2).osExists (withSuffix src "-shm") = true
    · rw [if_pos h2]
      simp only [copy2_entries]
    · rw [if_neg h2]
      have hs := find?_eq_none_of_not_osExists _ _ (by simpa using h2)
      simp only [copy2_entries] at hs ⊢
      rw [entriesCopy_of_none _ _ _ hs]
  · rw [if_neg h1]
    have hw := find?_eq_none_of_not_osExists _ _ (by simpa using h1)
    simp only [copy2_entries] at hw
    by_cases h2 : ((copy2 fs src dst).2).osExists (withSuffix src "-shm") = true
    · rw [if_pos h2]
      simp only [copy2_entries]
      rw [entriesCopy_of_none _ _ _ hw]
    · rw [if_neg h2]
      have hs := find?_eq_none_of_not_osExists _ _ (by simpa using h2)
      simp only [copy2_entries] at hs ⊢
      rw [entriesCopy_of_none _ _ _ hw, entriesCopy_of_none _ _ _ hs]

theorem loopInv_self (fs : FS) : LoopInv fs fs :=
  ⟨rfl, rfl, rfl, rfl, rfl, rfl, rfl, fun _ h => h, fun _ h => Or.inl h⟩

theorem LoopInv.bump {fs0 fsi : FS} (h : LoopInv fs0 fsi) (k : Nat) :
    LoopInv fs0 (fsi.bumpConns k) :=
  ⟨h.entries_eq, h.root_eq, h.locked_eq, h.denied_eq, h.removeFail_eq,
   h.nowDate_eq, h.nowTime_eq, h.dirs_mono, h.dirs_growth⟩

theorem LoopInv.makedirs {fs0 fsi : FS} (h : LoopInv fs0 fsi) (d : List String)
    (hd : d = fs0.root ∨ d = fs0.root ++ ["telethon"] ∨ d = fs0.root ++ ["pyrogram"]) :
    LoopInv fs0 (makedirsFS fsi d) := by
  refine ⟨h.entries_eq, h.root_eq, h.locked_eq, h.denied_eq, h.removeFail_eq,
    h.nowDate_eq, h.nowTime_eq, ?_, ?_⟩
  · intro q hq
    exact List.mem_cons_of_mem d (h.dirs_mono q hq)
  · intro q hq
    rcases List.mem_cons.mp hq with hq | hq
    · subst hq
      rcases hd with hd | hd | hd <;> simp [hd]
    · exact h.dirs_growth q hq

theorem candShape_len (fs0 : FS) (b : List String) (h : candShape fs0 b) :
    fs0.root.length + 2 ≤ b.length := by
  obtain ⟨hdl, -⟩ := h
  have hmem : b.dropLast = backupRootOf fs0
      ∨ b.dropLast = backupRootOf fs0 ++ ["telethon"]
      ∨ b.dropLast = backupRootOf fs0 ++ ["pyrogram"] := by
    simpa [backupDirsOf] using hdl
  have hbne : b ≠ [] := by
    intro hb
    rw [hb] at hmem
    unfold backupRootOf at hmem
    rcases hmem with hm | hm | hm <;>
      exact absurd (congrArg List.length hm) (by simp)
  have hlen : b.dropLast.length = b.length - 1 := by simp
  have hpos : 1 ≤ b.length := List.length_pos.mpr hbne
  unfold backupRootOf at hmem
  rcases hmem with hm | hm | hm <;>
    · have := congrArg List.length hm
      simp at this
      omega

theorem candShape_ne_layout (fs0 : FS) (b : List String) (h : candShape fs0 b) :
    b ≠ fs0.root ∧ b ≠ fs0.root ++ ["telethon"] ∧ b ≠ fs0.root ++ ["pyrogram"] := by
  have hlen := candShape_len fs0 b h
  refine ⟨?_, ?_, ?_⟩ <;>
    · intro he
      have := congrArg List.length he
      simp at this
      omega

theorem isDir_stable {fs0 fsi : FS} (h : LoopInv fs0 fsi) {b : List String}
    (hc : candShape fs0 b) : fsi.isDir b = fs0.isDir b := by
  obtain ⟨h1, h2, h3⟩ := candShape_ne_layout fs0 b hc
  unfold FS.isDir
  rw [h.root_eq]
  have hany : (fsi.dirs.any fun d => decide (d = b))
      = (fs0.dirs.any fun d => decide (d = b)) := by
    cases hq : fs0.dirs.any fun d => decide (d = b) with
    | true =>
      obtain ⟨q, hqm, hqb⟩ := List.any_eq_true.mp hq
      exact List.any_eq_true.mpr ⟨q, h.dirs_mono q hqm, hqb⟩
    | false =>
      cases hx : fsi.dirs.any fun d => decide (d = b) with
      | false => rfl
      | true =>
        obtain ⟨q, hqm, hqb⟩ := List.any_eq_true.mp hx
        have hqb' : q = b := by simpa using hqb
        subst hqb'
        rcases h.dirs_growth q hqm with hg | hg | hg | hg
        · have hq0 : fs0.dirs.any (fun d => decide (d = q)) = true :=
            List.any_eq_true.mpr ⟨q, hg, by simp⟩
          exact absurd (hq0.symm.trans hq) (by simp)
        · exact absurd hg h1
        · exact absurd hg h2
        · exact absurd hg h3
  rw [hany]

theorem dataAt_entries_congr {fsa fsb : FS} (hE : fsa.entries = fsb.entries)
    (p : List String) : fsa.dataAt p = fsb.dataAt p := by
  unfold FS.dataAt
  rw [hE]

theorem isFile_entries_congr {fsa fsb : FS} (hE : fsa.entries = fsb.entries)
    (p : List String) : fsa.isFile p = fsb.isFile p := by
  rw [FS.isFile_eq_isSome, FS.isFile_eq_isSome, dataAt_entries_congr hE]

theorem integrityOk_stable {fs0 fsi : FS} (h : LoopInv fs0 fsi) {b : List String}
    (hc : candShape fs0 b) : integrityOk fsi b = integrityOk fs0 b := by
  unfold integrityOk
  rw [dataAt_entries_congr h.entries_eq, isDir_stable h hc]

theorem integrityOk_dbAt (fs : FS) (b : List String) (h : integrityOk fs b = true) :
    dbAt fs b = true := by
  obtain ⟨d, hd, hdb, -⟩ := integrityOk_dataAt fs b h
  unfold dbAt
  rw [hd]
  simpa using hdb

theorem restoreTargetDirOf_inv {fs0 fsi : FS} (h : LoopInv fs0 fsi) (b : List String) :
    restoreTargetDirOf fsi b = restoreTargetDirOf fs0 b := by
  unfold restoreTargetDirOf backupRootOf
  rw [h.root_eq]

theorem targetDir_shape (fs0 : FS) (b : List String) (hc : candShape fs0 b) :
    restoreTargetDirOf fs0 b = fs0.root
      ∨ restoreTargetDirOf fs0 b = fs0.root ++ ["telethon"]
      ∨ restoreTargetDirOf fs0 b = fs0.root ++ ["pyrogram"] := by
  obtain ⟨hdl, -⟩ := hc
  have hmem : b.dropLast = backupRootOf fs0
      ∨ b.dropLast = backupRootOf fs0 ++ ["telethon"]
      ∨ b.dropLast = backupRootOf fs0 ++ ["pyrogram"] := by
    simpa [backupDirsOf] using hdl
  unfold restoreTargetDirOf
  rcases hmem with hm | hm | hm <;> rw [hm]
  · left
    simp [List.drop_length]
  · right; left
    rw [List.drop_left]
    simp
  · right; right
    rw [List.drop_left]
    simp

theorem tryRestoreLoop_spec (name : String) (fs0 : FS) (hden : fs0.denied = []) :
    ∀ (cands : List (List String)) (fsi : FS), LoopInv fs0 fsi →
      (∀ b ∈ cands, candShape fs0 b) →
      ∃ fsf, tryRestoreLoop name cands fsi
          = (.ok (cands.find? (goodCand fs0)).isSome, fsf)
        ∧ (∀ b, cands.find? (goodCand fs0) = some b →
            fsf.entries = entriesCopyAll fs0.entries b (restoreTarget fs0 name b))
        ∧ (cands.find? (goodCand fs0) = none → fsf.entries = fs0.entries)
        ∧ fsf.root = fs0.root ∧ fsf.locked = fs0.locked
        ∧ fsf.denied = fs0.denied ∧ fsf.removeFail = fs0.removeFail := by
  intro cands
  induction cands with
  | nil =>
    intro fsi hinv _
    refine ⟨fsi, ?_, ?_, ?_, hinv.root_eq, hinv.locked_eq, hinv.denied_eq,
      hinv.removeFail_eq⟩
    · simp [tryRestoreLoop]
    · intro x hx
      simp [List.find?] at hx
    · intro _
      exact hinv.entries_eq
  | cons b rest ih =>
    intro fsi hinv hsh
    have hcb : candShape fs0 b := hsh b (List.mem_cons_self b rest)
    have hrest : ∀ x ∈ rest, candShape fs0 x :=
      fun x hx => hsh x (List.mem_cons_of_mem b hx)
    have hstep : tryRestoreLoop name (b :: rest) fsi
        = match verify_session_integrity fsi b with
          | (.error e, fs1) => (.error e, fs1)
          | (.ok false, fs1) => tryRestoreLoop name rest fs1
          | (.ok true, fs1) =>
            match osMakedirs fs1 (restoreTargetDirOf fs1 b) with
            | (.error e, fs2) => (.error e, fs2)
            | (.ok _, fs2) =>
              match safe_sqlite_copy fs2 b (restoreTargetDirOf fs1 b ++ [name ++ ".session"]) with
              | (.error e, fs3) => (.error e, fs3)
              | (.ok true, fs3) => (.ok true, fs3)
              | (.ok false, fs3) => tryRestoreLoop name rest fs3 := rfl
    rw [hstep, verify_spec, integrityOk_stable hinv hcb]
    cases hv : integrityOk fs0 b with
    | false =>
      dsimp only
      obtain ⟨fsf, heq, hsome, hnone, hr, hl, hd, hrf⟩ :=
        ih (fsi.bumpConns (fsi.openConns + connLeak fsi b)) (hinv.bump _) hrest
      refine ⟨fsf, ?_, ?_, ?_, hr, hl, hd, hrf⟩
      · rw [heq]
        simp [List.find?, goodCand, hv]
      · intro x hx
        apply hsome
        simpa [List.find?, goodCand, hv] using hx
      · intro hx
        apply hnone
        simpa [List.find?, goodCand, hv] using hx
    | true =>
      dsimp only
      set fsb := fsi.bumpConns (fsi.openConns + connLeak fsi b) with hfsb
      have hinvb : LoopInv fs0 fsb := hinv.bump _
      have htd : restoreTargetDirOf fsb b = restoreTargetDirOf fs0 b :=
        restoreTargetDirOf_inv hinvb b
      have hden' : restoreTargetDirOf fsb b ∉ fsb.denied := by
        rw [hinvb.denied_eq, hden]
        simp
      have hmk : osMakedirs fsb (restoreTargetDirOf fsb b)
          = (.ok (), makedirsFS fsb (restoreTargetDirOf fsb b)) := by
        unfold osMakedirs makedirsFS
        rw [if_neg hden']
      rw [hmk]
      dsimp only
      set fs2 := makedirsFS fsb (restoreTargetDirOf fsb b) with hfs2
      have hinv2 : LoopInv fs0 fs2 := by
        apply hinvb.makedirs
        rw [htd]
        exact targetDir_shape fs0 b hcb
      have hf2 : fs2.isFile b = true := by
        rw [isFile_entries_congr hinv2.entries_eq]
        exact integrityOk_isFile fs0 b hv
      have hd2 : fs2.isDir b = false := by
        rw [isDir_stable hinv2 hcb]
        exact integrityOk_isDir fs0 b hv
      rw [safe_sqlite_copy_spec fs2 b _ hf2 hd2]
      have hdb2 : dbAt fs2 b = true := by
        unfold dbAt
        rw [dataAt_entries_congr hinv2.entries_eq]
        have := integrityOk_dbAt fs0 b hv
        unfold dbAt at this
        exact this
      have hlk2 : fs2.locked = fs0.locked := hinv2.locked_eq
      by_cases hl : b ∈ fs0.locked
      · have hbool : (!decide (b ∈ fs2.locked) && dbAt fs2 b) = false := by
          rw [hlk2]
          simp [hl]
        rw [hbool]
        simp only [Bool.false_eq_true, if_false]
        obtain ⟨fsf, heq, hsome, hnone, hr, hlq, hdq, hrf⟩ := ih fs2 hinv2 hrest
        refine ⟨fsf, ?_, ?_, ?_, hr, hlq, hdq, hrf⟩
        · rw [heq]
          simp [List.find?, goodCand, hv, hl]
        · intro x hx
          apply hsome
          simpa [List.find?, goodCand, hv, hl] using hx
        · intro hx
          apply hnone
          simpa [List.find?, goodCand, hv, hl] using hx
      · have hbool : (!decide (b ∈ fs2.locked) && dbAt fs2 b) = true := by
          rw [hlk2, hdb2]
          simp [hl]
        rw [hbool]
        simp only [if_true]
        have hfind : (b :: rest).find? (goodCand fs0) = some b := by
          simp [List.find?, goodCand, hv, hl]
        refine ⟨copyEffect fs2 b (restoreTargetDirOf fsb b ++ [name ++ ".session"]),
          ?_, ?_, ?_, ?_, ?_, ?_, ?_⟩
        · rw [hfind]
          rfl
        · intro x hx
          rw [hfind] at hx
          injection hx with hx
          subst hx
          rw [copyEffect_entries, hinv2.entries_eq, htd]
          rfl
        · intro hx
          rw [hfind] at hx
          exact absurd hx (by simp)
        · rw [copyEffect_root]
          exact hinv2.root_eq
        · rw [copyEffect_locked]
          exact hinv2.locked_eq
        · rw [copyEffect_denied]
          exact hinv2.denied_eq
        · rw [copyEffect_removeFail]
          exact hinv2.removeFail_eq

theorem globFiles_mem (fs : FS) (dir : List String) (pre suf : String)
    (p : List String) :
    p ∈ globFiles fs dir pre suf ↔
      fs.isFile p = true ∧ p.dropLast = dir ∧ globMatch pre suf (lastSegOf p) = true := by
  unfold globFiles
  simp only [List.mem_map, List.mem_filter, Bool.and_eq_true, decide_eq_true_eq]
  constructor
  · rintro ⟨e, ⟨hem, hdl, hgm⟩, rfl⟩
    refine ⟨?_, hdl, hgm⟩
    unfold FS.isFile
    exact List.any_eq_true.mpr ⟨e, hem, by simp⟩
  · rintro ⟨hf, hdl, hgm⟩
    unfold FS.isFile at hf
    obtain ⟨e, hem, hep⟩ := List.any_eq_true.mp hf
    have hep' : e.path = p := by simpa using hep
    subst hep'
    exact ⟨e, ⟨hem, hdl, hgm⟩, rfl⟩

theorem globMatch_suffix (pre suf b : String) (h : globMatch pre suf b = true) :
    strEndsWith b suf = true := by
  unfold globMatch at h
  unfold strEndsWith
  simp only [Bool.and_eq_true] at h
  exact h.1.2

theorem globMatch_prefix (pre suf b : String) (h : globMatch pre suf b = true) :
    pre.data.isPrefixOf b.data = true := by
  unfold globMatch at h
  simp only [Bool.and_eq_true] at h
  exact h.1.1

theorem collectBackups_mem (fs : FS) (name : String) (p : List String)
    (hp : p ∈ collectBackups fs name) : candShape fs p ∧ fs.isFile p = true := by
  unfold collectBackups at hp
  simp only [backupDirsOf, List.foldl] at hp
  have step :
      ∀ (acc : List (List String)) (d : List String),
        p ∈ (if fs.osExists d = true then acc ++ globFiles fs d name ".session.backup"
             else acc) →
        p ∈ acc ∨ p ∈ globFiles fs d name ".session.backup" := by
    intro acc d hmem
    split_ifs at hmem with hex
    · exact List.mem_append.mp hmem
    · exact Or.inl hmem
  have h3 := step _ _ hp
  rcases h3 with h3 | h3
  · have h2 := step _ _ h3
    rcases h2 with h2 | h2
    · have h1 := step _ _ h2
      rcases h1 with h1 | h1
      · simp at h1
      · obtain ⟨hf, hdl, hgm⟩ := (globFiles_mem fs _ _ _ p).mp h1
        exact ⟨⟨by simp [backupDirsOf, hdl], globMatch_suffix _ _ _ hgm⟩, hf⟩
    · obtain ⟨hf, hdl, hgm⟩ := (globFiles_mem fs _ _ _ p).mp h2
      exact ⟨⟨by simp [backupDirsOf, hdl], globMatch_suffix _ _ _ hgm⟩, hf⟩
  · obtain ⟨hf, hdl, hgm⟩ := (globFiles_mem fs _ _ _ p).mp h3
    exact ⟨⟨by simp [backupDirsOf, hdl], globMatch_suffix _ _ _ hgm⟩, hf⟩

theorem insertByMtime_perm (fs : FS) (p : List String) (l : List (List String)) :
    (insertByMtime fs p l).Perm (p :: l) := by
  induction l with
  | nil => exact List.Perm.refl _
  | cons q rest ih =>
    unfold insertByMtime
    split_ifs
    · exact List.Perm.refl _
    · exact (List.Perm.cons q ih).trans (List.Perm.swap p q rest)

theorem sortByMtimeDesc_perm (fs : FS) (l : List (List String)) :
    (sortByMtimeDesc fs l).Perm l := by
  induction l with
  | nil => exact List.Perm.refl _
  | cons p rest ih =>
    unfold sortByMtimeDesc
    exact (insertByMtime_perm fs p _).trans (List.Perm.cons p ih)

theorem mem_sortByMtimeDesc (fs : FS) (l : List (List String)) (b : List String) :
    b ∈ sortByMtimeDesc fs l ↔ b ∈ l :=
  (sortByMtimeDesc_perm fs l).mem_iff

theorem restoreCands_sub (fs : FS) (name : String) (ul : Bool) (b : List String)
    (hb : b ∈ restoreCands fs name ul) : b ∈ collectBackups fs name := by
  unfold restoreCands at hb
  dsimp only at hb
  split_ifs at hb with h
  · exact (mem_sortByMtimeDesc fs _ b).mp hb
  · exact hb

theorem restore_from_backup_spec (fs : FS) (name : String) (ul : Bool)
    (hden : fs.denied = []) :
    ∃ fsf, restore_from_backup fs name ul
        = (.ok ((restoreCands fs name ul).find? (goodCand fs)).isSome, fsf)
      ∧ (∀ b, (restoreCands fs name ul).find? (goodCand fs) = some b →
          fsf.entries = entriesCopyAll fs.entries b (restoreTarget fs name b))
      ∧ ((restoreCands fs name ul).find? (goodCand fs) = none →
          fsf.entries = fs.entries)
      ∧ fsf.root = fs.root ∧ fsf.locked = fs.locked ∧ fsf.denied = fs.denied
      ∧ fsf.removeFail = fs.removeFail := by
  unfold restore_from_backup
  dsimp only
  by_cases hall : collectBackups fs name = []
  · rw [if_pos hall]
    have hcands : restoreCands fs name ul = [] := by
      unfold restoreCands
      rw [hall]
      simp
    rw [hcands]
    exact ⟨fs, by simp [List.find?], by intro b hb; simp [List.find?] at hb,
      fun _ => rfl, rfl, rfl, rfl, rfl⟩
  · rw [if_neg hall]
    have hsh : ∀ b ∈ restoreCands fs name ul, candShape fs b :=
      fun b hb => (collectBackups_mem fs name b (restoreCands_sub fs name ul b hb)).1
    obtain ⟨fsf, heq, hsome, hnone, hr, hl, hd, hrf⟩ :=
      tryRestoreLoop_spec name fs hden (restoreCands fs name ul) fs
        (loopInv_self fs) hsh
    refine ⟨fsf, ?_, hsome, hnone, hr, hl, hd, hrf⟩
    have : (if ul && decide (1 < (collectBackups fs name).length)
        then sortByMtimeDesc fs (collectBackups fs name)
        else collectBackups fs name) = restoreCands fs name ul := rfl
    rw [this]
    exact heq

theorem lastSegOf_concat (d : List String) (x : String) :
    lastSegOf (d ++ [x]) = x := by
  unfold lastSegOf
  rw [List.getLastD_concat]

theorem lastSegOf_withSuffix (t : List String) (suf : String) :
    lastSegOf (withSuffix t suf) = lastSegOf t ++ suf := by
  unfold withSuffix
  rw [lastSegOf_concat]

theorem ne_of_lastSeg_ne (p q : List String) (h : lastSegOf p ≠ lastSegOf q) :
    p ≠ q :=
  fun he => h (congrArg lastSegOf he)

theorem endsWith_ne_append_lit (x s lit suf1 : String)
    (hx : strEndsWith x suf1 = true) (h1 : suf1.data ≠ []) (h2 : lit.data ≠ [])
    (hch : suf1.data.getLast? ≠ lit.data.getLast?) : x ≠ s ++ lit := by
  intro he
  apply hch
  have hxl : x.data.getLast? = suf1.data.getLast? :=
    getLast?_of_suffix (by unfold strEndsWith at hx; exact hx) h1
  have hsl : (s ++ lit).data.getLast? = lit.data.getLast? := by
    rw [String.data_append]
    exact List.getLast?_append_of_ne_nil _ h2
  rw [← hxl, he, hsl]

/-- The three paths `restore_from_backup` may write for candidate `b` never
collide with a path whose basename carries the backup extension. -/
theorem backupName_ne_targets (p : List String) (name : String) (td : List String)
    (hp : strEndsWith (lastSegOf p) ".session.backup" = true) :
    p ≠ td ++ [name ++ ".session"]
    ∧ p ≠ withSuffix (td ++ [name ++ ".session"]) "-wal"
    ∧ p ≠ withSuffix (td ++ [name ++ ".session"]) "-shm" := by
  refine ⟨?_, ?_, ?_⟩
  · apply ne_of_lastSeg_ne
    rw [lastSegOf_concat]
    exact endsWith_ne_append_lit _ _ _ _ hp (by decide) (by decide) (by decide)
  · apply ne_of_lastSeg_ne
    rw [lastSegOf_withSuffix, lastSegOf_concat]
    exact endsWith_ne_append_lit _ _ _ _ hp (by decide) (by decide) (by decide)
  · apply ne_of_lastSeg_ne
    rw [lastSegOf_withSuffix, lastSegOf_concat]
    exact endsWith_ne_append_lit _ _ _ _ hp (by decide) (by decide) (by decide)

theorem tryRestoreLoop_frame (name : String) :
    ∀ (cands : List (List String)) (fsi : FS),
      (∀ b ∈ cands, candShape fsi b) →
      ∀ (p : List String), strEndsWith (lastSegOf p) ".session.backup" = true →
        ((tryRestoreLoop name cands fsi).2).dataAt p = fsi.dataAt p
        ∧ ((tryRestoreLoop name cands fsi).2).mtimeAt p = fsi.mtimeAt p
        ∧ ((tryRestoreLoop name cands fsi).2).isFile p = fsi.isFile p := by
  intro cands
  induction cands with
  | nil =>
    intro fsi _ p _
    exact ⟨rfl, rfl, rfl⟩
  | cons b rest ih =>
    intro fsi hsh p hp
    have hcb : candShape fsi b := hsh b (List.mem_cons_self b rest)
    have hstep : tryRestoreLoop name (b :: rest) fsi
        = match verify_session_integrity fsi b with
          | (.error e, fs1) => (.error e, fs1)
          | (.ok false, fs1) => tryRestoreLoop name rest fs1
          | (.ok true, fs1) =>
            match osMakedirs fs1 (restoreTargetDirOf fs1 b) with
            | (.error e, fs2) => (.error e, fs2)
            | (.ok _, fs2) =>
              match safe_sqlite_copy fs2 b (restoreTargetDirOf fs1 b ++ [name ++ ".session"]) with
              | (.error e, fs3) => (.error e, fs3)
              | (.ok true, fs3) => (.ok true, fs3)
              | (.ok false, fs3) => tryRestoreLoop name rest fs3 := rfl
    rw [hstep, verify_spec]
    cases hv : integrityOk fsi b with
    | false =>
      dsimp only
      have hr := ih (fsi.bumpConns (fsi.openConns + connLeak fsi b))
        (fun x hx => hsh x (List.mem_cons_of_mem b hx)) p hp
      exact hr
    | true =>
      dsimp only
      set fsb := fsi.bumpConns (fsi.openConns + connLeak fsi b) with hfsb
      by_cases hden : restoreTargetDirOf fsb b ∈ fsb.denied
      · unfold osMakedirs
        rw [if_pos hden]
        exact ⟨rfl, rfl, rfl⟩
      · unfold osMakedirs
        rw [if_neg hden]
        dsimp only
        set fs2 : FS := { fsb with dirs := restoreTargetDirOf fsb b :: fsb.dirs }
          with hfs2
        have hf2 : fs2.isFile b = true := integrityOk_isFile fsi b hv
        have hd2 : fs2.isDir b = false := by
          have hdir : fsi.isDir b = false := integrityOk_isDir fsi b hv
          have hnl := candShape_ne_layout fsi b hcb
          have hts : restoreTargetDirOf fsb b = fsi.root
              ∨ restoreTargetDirOf fsb b = fsi.root ++ ["telethon"]
              ∨ restoreTargetDirOf fsb b = fsi.root ++ ["pyrogram"] :=
            targetDir_shape fsi b hcb
          have hbne : b ≠ restoreTargetDirOf fsb b := by
            rcases hts with h | h | h <;> rw [h]
            · exact hnl.1
            · exact hnl.2.1
            · exact hnl.2.2
          unfold FS.isDir at hdir ⊢
          rw [hfs2]
          simp only [List.any_cons, Bool.or_eq_false_iff] at hdir ⊢
          refine ⟨hdir.1, ?_, hdir.2⟩
          simp [Ne.symm hbne]
        rw [safe_sqlite_copy_spec fs2 b _ hf2 hd2]
        obtain ⟨hne1, hne2, hne3⟩ :=
          backupName_ne_targets p name (restoreTargetDirOf fsb b) hp
        cases hB : (!decide (b ∈ fs2.locked) && dbAt fs2 b) with
        | true =>
          simp only [if_true]
          refine ⟨?_, ?_, ?_⟩
          · rw [copyEffect_dataAt_other _ _ _ _ hne1 hne2 hne3]
            rfl
          · rw [copyEffect_mtimeAt_other _ _ _ _ hne1 hne2 hne3]
            rfl
          · rw [copyEffect_isFile_other _ _ _ _ hne1 hne2 hne3]
            rfl
        | false =>
          simp only [Bool.false_eq_true, if_false]
          have hr := ih fs2 (fun x hx => hsh x (List.mem_cons_of_mem b hx)) p hp
          exact hr

theorem safeCopyPhase_preserves (fs : FS) (src dst : List String) :
    (safeCopyPhase fs src dst).2.openConns = fs.openConns
    ∧ (safeCopyPhase fs src dst).2.denied = fs.denied := by
  rw [safeCopyPhase_spec]
  dsimp only
  split_ifs
  · exact ⟨copyEffect_openConns fs src dst, copyEffect_denied fs src dst⟩
  · exact ⟨rfl, rfl⟩

theorem safeCopyAttempt_preserves (fs : FS) (src dst : List String) :
    (safeCopyAttempt fs src dst).2.openConns = fs.openConns
    ∧ (safeCopyAttempt fs src dst).2.denied = fs.denied := by
  unfold safeCopyAttempt
  by_cases hl : src ∈ fs.locked
  · simp [hl]
  · rw [if_neg hl]
    unfold sqliteConnect
    by_cases hd : fs.isDir src = true
    · simp only [hd, if_true]
      exact safeCopyPhase_preserves fs src dst
    · have hd' : fs.isDir src = false := by simpa using hd
      simp only [hd', Bool.false_eq_true, if_false]
      by_cases hf : fs.isFile src = true
      · simp only [hf, if_true]
        unfold sqliteCheckpoint
        cases hdat : (fs.bumpConns (fs.openConns + 1)).dataAt src with
        | none =>
          dsimp only
          unfold sqliteClose
          rw [FS.bumpConns_bumpConns, FS.bumpConns_openConns, Nat.add_sub_cancel]
          exact ⟨rfl, rfl⟩
        | some d =>
          dsimp only
          by_cases hdb : d.isDb = true
          · simp only [hdb, if_true]
            have hcl : sqliteClose ((fs.bumpConns (fs.openConns + 1)))
                = fs.bumpConns fs.openConns := by
              unfold sqliteClose
              rw [FS.bumpConns_bumpConns, FS.bumpConns_openConns, Nat.add_sub_cancel]
            rw [hcl, FS.bumpConns_self]
            exact safeCopyPhase_preserves fs src dst
          · have hdb' : d.isDb = false := by simpa using hdb
            simp only [hdb', Bool.false_eq_true, if_false]
            unfold sqliteClose
            rw [FS.bumpConns_bumpConns, FS.bumpConns_openConns, Nat.add_sub_cancel]
            exact ⟨rfl, rfl⟩
      · have hf' : fs.isFile src = false := by simpa using hf
        simp only [hf', Bool.false_eq_true, if_false]
        unfold sqliteCheckpoint
        set fsc := (fs.setFile src emptyDbFile 0) with hfsc
        have hdat : (fsc.bumpConns (fsc.openConns + 1)).dataAt src = some emptyDbFile := by
          rw [FS.bumpConns_dataAt, hfsc, FS.dataAt_setFile]
          simp
        rw [hdat]
        have hdb : emptyDbFile.isDb = true := rfl
        simp only [hdb, if_true]
        have hcl : sqliteClose (fsc.bumpConns (fsc.openConns + 1))
            = fsc.bumpConns fsc.openConns := by
          unfold sqliteClose
          rw [FS.bumpConns_bumpConns, FS.bumpConns_openConns, Nat.add_sub_cancel]
        rw [hcl, FS.bumpConns_self]
        have hph := safeCopyPhase_preserves fsc src dst
        refine ⟨hph.1.trans ?_, hph.2.trans ?_⟩
        · rw [hfsc, FS.setFile_openConns]
        · rw [hfsc, FS.setFile_denied]

theorem safe_sqlite_copy_preserves (fs : FS) (src dst : List String) :
    (safe_sqlite_copy fs src dst).2.openConns = fs.openConns
    ∧ (safe_sqlite_copy fs src dst).2.denied = fs.denied := by
  unfold safe_sqlite_copy
  rcases h1 : safeCopyAttempt fs src dst with ⟨r1, f1⟩
  have e1 := safeCopyAttempt_preserves fs src dst
  rw [h1] at e1
  rcases h2 : safeCopyAttempt f1 src dst with ⟨r2, f2⟩
  have e2 := safeCopyAttempt_preserves f1 src dst
  rw [h2] at e2
  rcases h3 : safeCopyAttempt f2 src dst with ⟨r3, f3⟩
  have e3 := safeCopyAttempt_preserves f2 src dst
  rw [h3] at e3
  cases r1 with
  | success => exact e1
  | lockedTry =>
    cases r2 with
    | success => simp only [h2]; exact ⟨e2.1.trans e1.1, e2.2.trans e1.2⟩
    | lockedTry =>
      cases r3 with
      | success => simp only [h2, h3]; exact ⟨e3.1.trans (e2.1.trans e1.1), e3.2.trans (e2.2.trans e1.2)⟩
      | lockedTry => simp only [h2, h3]; exact ⟨e3.1.trans (e2.1.trans e1.1), e3.2.trans (e2.2.trans e1.2)⟩
      | failedTry => simp only [h2, h3]; exact ⟨e3.1.trans (e2.1.trans e1.1), e3.2.trans (e2.2.trans e1.2)⟩
    | failedTry =>
      cases r3 with
      | success => simp only [h2, h3]; exact ⟨e3.1.trans (e2.1.trans e1.1), e3.2.trans (e2.2.trans e1.2)⟩
      | lockedTry => simp only [h2, h3]; exact ⟨e3.1.trans (e2.1.trans e1.1), e3.2.trans (e2.2.trans e1.2)⟩
      | failedTry => simp only [h2, h3]; exact ⟨e3.1.trans (e2.1.trans e1.1), e3.2.trans (e2.2.trans e1.2)⟩
  | failedTry =>
    cases r2 with
    | success => simp only [h2]; exact ⟨e2.1.trans e1.1, e2.2.trans e1.2⟩
    | lockedTry =>
      cases r3 with
      | success => simp only [h2, h3]; exact ⟨e3.1.trans (e2.1.trans e1.1), e3.2.trans (e2.2.trans e1.2)⟩
      | lockedTry => simp only [h2, h3]; exact ⟨e3.1.trans (e2.1.trans e1.1), e3.2.trans (e2.2.trans e1.2)⟩
      | failedTry => simp only [h2, h3]; exact ⟨e3.1.trans (e2.1.trans e1.1), e3.2.trans (e2.2.trans e1.2)⟩
    | failedTry =>
      cases r3 with
      | success => simp only [h2, h3]; exact ⟨e3.1.trans (e2.1.trans e1.1), e3.2.trans (e2.2.trans e1.2)⟩
      | lockedTry => simp only [h2, h3]; exact ⟨e3.1.trans (e2.1.trans e1.1), e3.2.trans (e2.2.trans e1.2)⟩
      | failedTry => simp only [h2, h3]; exact ⟨e3.1.trans (e2.1.trans e1.1), e3.2.trans (e2.2.trans e1.2)⟩

theorem safe_sqlite_copy_total_denied (st : FS) (sf pth : List String)
    (h : st.denied = []) :
    ∃ b f2, safe_sqlite_copy st sf pth = (.ok b, f2) ∧ f2.denied = [] := by
  obtain ⟨b, f2, hsc⟩ := safe_sqlite_copy_never_raises st sf pth
  refine ⟨b, f2, hsc, ?_⟩
  have hpr := (safe_sqlite_copy_preserves st sf pth).2
  rw [hsc] at hpr
  rw [hpr, h]

theorem create_backup_total (fs : FS) (name : String) (ts : Bool)
    (hden : fs.denied = []) :
    ∃ b fs', create_backup fs name ts = (.ok b, fs') ∧ fs'.denied = [] := by
  unfold create_backup
  cases hloc : get_session_file_path fs name with
  | none => exact ⟨false, fs, rfl, hden⟩
  | some sf =>
    dsimp only
    have hex : fs.osExists sf = true := locate_osExists fs name sf hloc
    rw [hex]
    simp only [Bool.not_true, Bool.false_eq_true, if_false]
    rw [verify_spec]
    cases hv : integrityOk fs sf with
    | false =>
      dsimp only
      exact ⟨false, _, rfl, hden⟩
    | true =>
      dsimp only
      rw [show osMakedirs (fs.bumpConns (fs.openConns + connLeak fs sf))
          (backupSubdirOf (fs.bumpConns (fs.openConns + connLeak fs sf)) sf)
          = (.ok (), makedirsFS (fs.bumpConns (fs.openConns + connLeak fs sf))
              (backupSubdirOf (fs.bumpConns (fs.openConns + connLeak fs sf)) sf))
        from by
          unfold osMakedirs makedirsFS
          rw [if_neg (by
            rw [show (fs.bumpConns (fs.openConns + connLeak fs sf)).denied
                = fs.denied from rfl, hden]
            simp)]]
      dsimp only
      exact safe_sqlite_copy_total_denied _ _ _ hden

theorem createAllLoop_total :
    ∀ (l : List (List String)) (fs : FS), fs.denied = [] →
      ∃ n fs', createAllLoop l fs = (.ok n, fs') ∧ fs'.denied = [] := by
  intro l
  induction l with
  | nil =>
    intro fs h
    exact ⟨0, fs, rfl, h⟩
  | cons p rest ih =>
    intro fs h
    obtain ⟨b, fs1, hcb, hd1⟩ := create_backup_total fs
      (String.mk (pyDeleteAll ".session".data (lastSegOf p).data)) true h
    obtain ⟨n, fs2, hrec, hd2⟩ := ih fs1 hd1
    refine ⟨(if b then 1 else 0) + n, fs2, ?_, hd2⟩
    unfold createAllLoop
    dsimp only
    rw [hcb]
    dsimp only
    rw [hrec]

/-- C2 (amended): with no injected directory-creation failure, every
`Except`-typed operation completes with its normal return value; `locate`
(`get_session_file_path`), `backup_exists` and `clean_old_backups` are
exception-free by construction — their result types contain no error case
because every statement of theirs that can raise is guarded in the source. -/
theorem c2_boundary_amended (fs : FS) (name : String) (ts ul auto : Bool)
    (hden : fs.denied = []) :
    (∃ b fs', create_backup fs name ts = (.ok b, fs'))
    ∧ (∃ b fs', restore_from_backup fs name ul = (.ok b, fs'))
    ∧ (∃ n fs', create_all_backups fs auto = (.ok n, fs')) := by
  refine ⟨?_, ?_, ?_⟩
  · obtain ⟨b, fs', h, -⟩ := create_backup_total fs name ts hden
    exact ⟨b, fs', h⟩
  · obtain ⟨fsf, h, -⟩ := restore_from_backup_spec fs name ul hden
    exact ⟨_, fsf, h⟩
  · unfold create_all_backups
    dsimp only
    obtain ⟨n, fs1, hloop, -⟩ := createAllLoop_total
      (List.foldl (fun acc d => acc ++ globFiles fs d "" ".session") []
        [fs.root, fs.root ++ ["telethon"], fs.root ++ ["pyrogram"]]) fs hden
    rw [hloop]
    dsimp only
    split_ifs
    · exact ⟨n, _, rfl⟩
    · exact ⟨n, fs1, rfl⟩

/-- C2 witness: the amended boundary theorem applied to the no-fault base
world. -/
theorem c2_boundary_amended_witness :
    ∃ b fs', create_backup baseFS "a" true = (.ok b, fs') :=
  (c2_boundary_amended baseFS "a" true true true rfl).1

/-- C2 counterexample: with a denied backup directory, `create_backup` lets
the `PermissionError` of `os.makedirs` (line 147) escape its boundary, so
the claim that no exception crosses a public boundary is false. -/
theorem c2_boundary_counterexample :
    (create_backup fsBoundary "a" true).1 = Except.error PyErr.permission := by
  decide

/-- C5: `_verify_session_integrity` never raises, and returns `true`
exactly when the path is a file (and not a directory) of size at least
1024 bytes that opens as a database and enumerates at least one table;
every other input — missing file, short file, unopenable file, empty
schema — yields `false`. -/
theorem c5_integrity_gate (fs : FS) (p : List String) :
    (verify_session_integrity fs p).1 = .ok (integrityOk fs p)
    ∧ ((verify_session_integrity fs p).1 = .ok true ↔
        ∃ d, fs.dataAt p = some d ∧ fs.isDir p = false ∧ 1024 ≤ d.size
          ∧ d.isDb = true ∧ 0 < d.tables) := by
  constructor
  · rw [verify_spec]
  · rw [verify_spec]
    simp only [Except.ok.injEq]
    constructor
    · intro h
      obtain ⟨d, hd, hdb, hsz, hta⟩ := integrityOk_dataAt fs p h
      exact ⟨d, hd, integrityOk_isDir fs p h, hsz, hdb, hta⟩
    · rintro ⟨d, hd, hdir, hsz, hdb, hta⟩
      unfold integrityOk
      rw [hd]
      simp [hdir, hsz, hdb, hta]

/-- C5 witness: the gate evaluated on concrete worlds — a 2000-byte
non-database file fails it, via the characterization. -/
theorem c5_integrity_gate_witness :
    (verify_session_integrity fsLeak ["S", "bad.session"]).1 = Except.ok false := by
  rw [(c5_integrity_gate fsLeak ["S", "bad.session"]).1]
  decide

/-- C7 (amended): `_safe_sqlite_copy` always restores the open-connection
count (its `finally` closes the checkpoint connection on every path), but
`_verify_session_integrity` leaves a connection open exactly on the paths
measured by `connLeak`: when the file opens as a database connection and
the schema query then raises, `conn.close()` (line 99) is skipped. -/
theorem c7_resource_release_amended (fs : FS) (src dst p : List String) :
    ((safe_sqlite_copy fs src dst).2).openConns = fs.openConns
    ∧ ((verify_session_integrity fs p).2).openConns
        = fs.openConns + connLeak fs p := by
  refine ⟨(safe_sqlite_copy_preserves fs src dst).1, ?_⟩
  rw [verify_spec]
  rfl

/-- C7 counterexample: verifying an oversized non-database file leaves one
connection open after the call, refuting guaranteed release. -/
theorem c7_resource_release_counterexample :
    ((verify_session_integrity fsLeak ["S", "bad.session"]).2).openConns = 1
    ∧ fsLeak.openConns = 0 := by
  decide

/-- C10: `_verify_session_integrity` never creates or modifies any file:
the file list is unchanged by the call, and for a nonexistent path the
call returns `false` with the world unchanged — the existence check
precedes `sqlite3.connect`, which would otherwise create the file. -/
theorem c10_verify_never_creates (fs : FS) (p : List String) :
    ((verify_session_integrity fs p).2).entries = fs.entries
    ∧ (fs.osExists p = false → verify_session_integrity fs p = (.ok false, fs)) := by
  constructor
  · rw [verify_spec]
    rfl
  · intro h
    unfold verify_session_integrity
    simp [h]

/-- C10 witness: a missing path stays missing and reports `false`. -/
theorem c10_verify_never_creates_witness :
    verify_session_integrity baseFS ["S", "ghost.session"] = (.ok false, baseFS) :=
  (c10_verify_never_creates baseFS ["S", "ghost.session"]).2 (by decide)

/-- C9: `restore_from_backup` leaves every backup entry untouched: any
path whose basename ends in the backup extension has the same content,
modification time and existence after the call, whether the restore
succeeded, failed, or raised. -/
theorem c9_restore_preserves_backups (fs : FS) (name : String) (ul : Bool)
    (p : List String) (hp : strEndsWith (lastSegOf p) ".session.backup" = true) :
    ((restore_from_backup fs name ul).2).dataAt p = fs.dataAt p
    ∧ ((restore_from_backup fs name ul).2).mtimeAt p = fs.mtimeAt p
    ∧ ((restore_from_backup fs name ul).2).isFile p = fs.isFile p := by
  unfold restore_from_backup
  dsimp only
  by_cases hall : collectBackups fs name = []
  · rw [if_pos hall]
    exact ⟨rfl, rfl, rfl⟩
  · rw [if_neg hall]
    apply tryRestoreLoop_frame name _ fs _ p hp
    intro b hb
    split_ifs at hb with h
    · exact (collectBackups_mem fs name b ((mem_sortByMtimeDesc fs _ b).mp hb)).1
    · exact (collectBackups_mem fs name b hb).1

/-- C9 witness: after the corrupt-newest restore scenario, the newest
backup file is still present with its original content. -/
theorem c9_restore_preserves_backups_witness :
    ((restore_from_backup fsSkipCorrupt "y" true).2).dataAt
        ["S", "backups", "y_20240103_120000.session.backup"]
      = fsSkipCorrupt.dataAt ["S", "backups", "y_20240103_120000.session.backup"] :=
  (c9_restore_preserves_backups fsSkipCorrupt "y" true
    ["S", "backups", "y_20240103_120000.session.backup"] (by decide)).1

theorem splitOnSlash_no_slash (l : List Char) (h : ∀ c ∈ l, c ≠ '/') :
    splitOnSlash l = [l] := by
  induction l with
  | nil => rfl
  | cons c rest ih =>
    unfold splitOnSlash
    rw [ih (fun x hx => h x (List.mem_cons_of_mem c hx))]
    have hc : c ≠ '/' := h c (List.mem_cons_self c rest)
    simp [hc]

theorem normSegs_clean (l : List String) (h : ∀ s ∈ l, s ≠ ".." ∧ s ≠ "." ∧ s ≠ "") :
    normSegs l = l := by
  unfold normSegs
  suffices hgen : ∀ (acc : List String),
      l.foldl
        (fun acc s =>
          if s = ".." then acc.dropLast
          else if s = "." ∨ s = "" then acc
          else acc ++ [s]) acc = acc ++ l by
    simpa using hgen []
  induction l with
  | nil => intro acc; simp
  | cons s rest ih =>
    intro acc
    obtain ⟨h1, h2, h3⟩ := h s (List.mem_cons_self s rest)
    simp only [List.foldl_cons, if_neg h1]
    rw [if_neg (show ¬(s = "." ∨ s = "") by rintro (hh | hh); exacts [h2 hh, h3 hh])]
    rw [ih (fun x hx => h x (List.mem_cons_of_mem s hx)) (acc ++ [s])]
    simp

theorem realPathOf_clean (l : List String) (h : ∀ s ∈ l, cleanSeg s) :
    realPathOf l = l := by
  unfold realPathOf
  have hflat : l.foldr
      (fun s acc => (splitOnSlash s.data).map String.mk ++ acc) [] = l := by
    induction l with
    | nil => rfl
    | cons s rest ih =>
      simp only [List.foldr_cons]
      rw [splitOnSlash_no_slash s.data (h s (List.mem_cons_self s rest)).1,
        ih (fun x hx => h x (List.mem_cons_of_mem s hx))]
      rfl
  rw [hflat]
  exact normSegs_clean l (fun s hs => (h s hs).2)

/-- C6 (amended): `get_session_file_path` applies no sanitization at all —
it joins the identity name literally — but for a name free of path
separators, every path it can return resolves to itself and stays below
the sessions root.  (The counterexample shows a separator-carrying name
escaping the root.) -/
theorem c6_locate_amended (fs : FS) (name : String)
    (hname : ∀ c ∈ name.data, c ≠ '/')
    (hroot : ∀ s ∈ fs.root, cleanSeg s) (p : List String)
    (hp : get_session_file_path fs name = some p) :
    realPathOf p = p ∧ fs.root <+: p := by
  have hx : cleanSeg (name ++ ".session") := by
    refine ⟨?_, ?_, ?_, ?_⟩
    · intro c hc
      rw [String.data_append] at hc
      rcases List.mem_append.mp hc with hc | hc
      · exact hname c hc
      · intro he
        subst he
        simp at hc
    · intro he
      have := congrArg (fun s : String => s.data.length) he
      simp [String.data_append] at this
    · intro he
      have := congrArg (fun s : String => s.data.length) he
      simp [String.data_append] at this
    · intro he
      have := congrArg (fun s : String => s.data.length) he
      simp [String.data_append] at this
  have hshape := locate_shape fs name p hp
  have hclean : ∀ s ∈ p, cleanSeg s := by
    rcases hshape with h | h | h <;> subst h <;> intro s hs <;>
      rcases List.mem_append.mp hs with hs | hs
    · exact hroot s hs
    · simpa using (by simpa using hs : s = name ++ ".session") ▸ hx
    · exact hroot s hs
    · rcases List.mem_cons.mp hs with hs | hs
      · subst hs
        exact ⟨by decide, by decide, by decide, by decide⟩
      · simp at hs
        subst hs
        exact hx
    · exact hroot s hs
    · rcases List.mem_cons.mp hs with hs | hs
      · subst hs
        exact ⟨by decide, by decide, by decide, by decide⟩
      · simp at hs
        subst hs
        exact hx
  refine ⟨realPathOf_clean p hclean, ?_⟩
  rcases hshape with h | h | h <;> subst h <;> exact List.prefix_append _ _

/-- C6 witness: a clean name resolves inside the root. -/
theorem c6_locate_amended_witness :
    realPathOf ["S", "a.session"] = ["S", "a.session"]
    ∧ fsBoundary.root <+: ["S", "a.session"] :=
  c6_locate_amended fsBoundary "a" (by decide) (by decide)
    ["S", "a.session"] (by decide)

/-- C6 counterexample: the name `../evil` contains a separator and a
traversal segment, yet `get_session_file_path` happily resolves it, and
the returned path resolves outside the sessions root. -/
theorem c6_locate_counterexample :
    get_session_file_path fsTraversal "../evil" = some ["S", "../evil.session"]
    ∧ ('/' ∈ "../evil".data)
    ∧ realPathOf ["S", "../evil.session"] = ["evil.session"]
    ∧ ¬ (fsTraversal.root <+: realPathOf ["S", "../evil.session"]) := by
  refine ⟨by decide, by decide, by decide, ?_⟩
  rw [show realPathOf ["S", "../evil.session"] = ["evil.session"] from by decide]
  decide

theorem pairwise_insertByMtime (fs : FS) (p : List String)
    (l : List (List String))
    (h : List.Pairwise (fun a b => fs.mtimeAt b ≤ fs.mtimeAt a) l) :
    List.Pairwise (fun a b => fs.mtimeAt b ≤ fs.mtimeAt a) (insertByMtime fs p l) := by
  induction l with
  | nil => simp [insertByMtime]
  | cons q rest ih =>
    unfold insertByMtime
    split_ifs with hle
    · refine List.Pairwise.cons ?_ h
      intro x hx
      rcases List.mem_cons.mp hx with hx | hx
      · subst hx
        exact hle
      · exact le_trans (List.rel_of_pairwise_cons h hx) hle
    · refine List.Pairwise.cons ?_ (ih (List.Pairwise.sublist (List.sublist_cons_self q rest) h))
      intro x hx
      have hx' := (insertByMtime_perm fs p rest).mem_iff.mp hx
      rcases List.mem_cons.mp hx' with hx' | hx'
      · subst hx'
        omega
      · exact List.rel_of_pairwise_cons h hx'

theorem sortByMtimeDesc_sorted (fs : FS) (l : List (List String)) :
    List.Pairwise (fun a b => fs.mtimeAt b ≤ fs.mtimeAt a) (sortByMtimeDesc fs l) := by
  induction l with
  | nil => simp [sortByMtimeDesc]
  | cons p rest ih =>
    unfold sortByMtimeDesc
    exact pairwise_insertByMtime fs p _ ih

theorem withSuffix_ne_self (t : List String) (suf : String) (h : suf.data ≠ []) :
    withSuffix t suf ≠ t := by
  intro he
  have h2 := congrArg (fun l : List String => l.getLastD "") he
  simp only at h2
  have h3 : (withSuffix t suf).getLastD "" = lastSegOf t ++ suf := by
    unfold withSuffix
    rw [List.getLastD_concat]
  have h4 : t.getLastD "" = lastSegOf t := rfl
  rw [h3, h4] at h2
  have h5 := congrArg (fun s : String => s.data.length) h2
  simp only [String.data_append, List.length_append] at h5
  exact h (List.length_eq_zero.mp (by omega))

/-- C4: `restore_from_backup(name, useLatest=true)` tries the candidates in
stable descending modification-time order, skipping each candidate that
fails verification, returning `true` and writing the bytes of the first
candidate that both verifies and copies; it returns `false` exactly when
every candidate fails verification or is locked against copying. -/
theorem c4_restore_iteration (fs : FS) (name : String) (hden : fs.denied = []) :
    ∃ fsf,
      restore_from_backup fs name true
        = (.ok ((restoreCands fs name true).find? (goodCand fs)).isSome, fsf)
      ∧ (∀ b, (restoreCands fs name true).find? (goodCand fs) = some b →
          fsf.dataAt (restoreTarget fs name b) = fs.dataAt b)
      ∧ ((restoreCands fs name true).find? (goodCand fs) = none ↔
          ∀ b ∈ restoreCands fs name true,
            integrityOk fs b = false ∨ b ∈ fs.locked)
      ∧ (restoreCands fs name true).Perm (collectBackups fs name)
      ∧ List.Pairwise (fun a b => fs.mtimeAt b ≤ fs.mtimeAt a)
          (restoreCands fs name true) := by
  obtain ⟨fsf, heq, hsome, hnone, hr, hl, hd, hrf⟩ :=
    restore_from_backup_spec fs name true hden
  refine ⟨fsf, heq, ?_, ?_, ?_, ?_⟩
  · intro b hb
    have hE := hsome b hb
    have hgood : goodCand fs b = true := List.find?_some hb
    have hok : integrityOk fs b = true := by
      unfold goodCand at hgood
      simp only [Bool.and_eq_true] at hgood
      exact hgood.1
    obtain ⟨d, hdat, -⟩ := integrityOk_dataAt fs b hok
    have hCE : fsf.dataAt (restoreTarget fs name b)
        = (copyEffect fs b (restoreTarget fs name b)).dataAt (restoreTarget fs name b) := by
      apply dataAt_entries_congr
      rw [hE, copyEffect_entries]
    rw [hCE, copyEffect_dataAt_main fs b _
      (Ne.symm (withSuffix_ne_self _ "-wal" (by decide)))
      (Ne.symm (withSuffix_ne_self _ "-shm" (by decide)))]
    rw [hdat]
    simp [hdat]
  · rw [List.find?_eq_none]
    constructor
    · intro hall b hb
      have := hall b hb
      unfold goodCand at this
      by_cases hio : integrityOk fs b = true
      · right
        by_contra hlk
        exact this (by simp [hio, hlk])
      · left
        simpa using hio
    · intro hall b hb
      rcases hall b hb with hio | hlk
      · unfold goodCand
        simp [hio]
      · unfold goodCand
        simp [hlk]
  · unfold restoreCands
    dsimp only
    split_ifs with h
    · exact sortByMtimeDesc_perm fs _
    · exact List.Perm.refl _
  · unfold restoreCands
    dsimp only
    split_ifs with h
    · exact sortByMtimeDesc_sorted fs _
    · have hlen : (collectBackups fs name).length ≤ 1 := by
        by_contra hgt
        exact h (by simp; omega)
      match hc : collectBackups fs name with
      | [] => simp
      | [x] => simp
      | x :: y :: rest =>
        rw [hc] at hlen
        simp at hlen

/-- C4 witness: in the concrete three-backup world where the newest backup
is corrupt and the second is valid, restore succeeds and the live file
carries the second backup's bytes. -/
theorem c4_restore_iteration_witness :
    (restore_from_backup fsSkipCorrupt "y" true).1 = .ok true
    ∧ ((restore_from_backup fsSkipCorrupt "y" true).2).dataAt ["S", "y.session"]
        = some (goodDb 92) := by
  obtain ⟨fsf, heq, hsome, -, -, -⟩ := c4_restore_iteration fsSkipCorrupt "y" rfl
  have hf : (restoreCands fsSkipCorrupt "y" true).find? (goodCand fsSkipCorrupt)
      = some ["S", "backups", "y_20240102_120000.session.backup"] := by decide
  constructor
  · rw [heq, hf]
    rfl
  · have h2 := hsome _ hf
    have ht : restoreTarget fsSkipCorrupt "y"
        ["S", "backups", "y_20240102_120000.session.backup"] = ["S", "y.session"] := by
      decide
    rw [ht] at h2
    have hsnd : (restore_from_backup fsSkipCorrupt "y" true).2 = fsf :=
      congrArg Prod.snd heq
    rw [hsnd, h2]
    decide

theorem concat_ne_self (l : List String) (x : String) : l ++ [x] ≠ l := by
  intro h
  have := congrArg List.length h
  simp at this

theorem eq_singleton_of_len_le_one {α : Type} (l : List α) (x : α)
    (hlen : l.length ≤ 1) (hx : x ∈ l) : l = [x] := by
  match l with
  | [] => simp at hx
  | [a] =>
    have : x = a := by simpa using hx
    rw [this]
  | a :: b :: rest => simp at hlen

theorem sorted_head_unique_max (fs : FS) (l : List (List String)) (x : List String)
    (hs : List.Pairwise (fun a b => fs.mtimeAt b ≤ fs.mtimeAt a) l)
    (hx : x ∈ l) (hdom : ∀ y ∈ l, y ≠ x → fs.mtimeAt y < fs.mtimeAt x) :
    ∃ rest, l = x :: rest := by
  match l with
  | [] => simp at hx
  | h :: t =>
    by_cases hhx : h = x
    · exact ⟨t, by rw [hhx]⟩
    · exfalso
      have hxt : x ∈ t := by
        rcases List.mem_cons.mp hx with hx | hx
        · exact absurd hx.symm hhx
        · exact hx
      have h1 : fs.mtimeAt x ≤ fs.mtimeAt h := List.rel_of_pairwise_cons hs hxt
      have h2 : fs.mtimeAt h < fs.mtimeAt x :=
        hdom h (List.mem_cons_self h t) hhx
      omega

theorem timestampedName_endsWith (fs : FS) (name : String) :
    strEndsWith (timestampedName fs name) ".session.backup" = true := by
  unfold timestampedName strEndsWith
  apply List.isSuffixOf_iff_suffix.mpr
  rw [String.data_append]
  exact List.suffix_append _ _

theorem timestampedName_globMatch (fs : FS) (name : String) :
    globMatch name ".session.backup" (timestampedName fs name) = true := by
  unfold globMatch
  simp only [Bool.and_eq_true, decide_eq_true_eq]
  refine ⟨⟨?_, ?_⟩, ?_⟩
  · apply List.isPrefixOf_iff_prefix.mpr
    unfold timestampedName
    simp only [String.data_append]
    rw [List.append_assoc, List.append_assoc, List.append_assoc, List.append_assoc]
    exact List.prefix_append _ _
  · have := timestampedName_endsWith fs name
    unfold strEndsWith at this
    exact this
  · unfold timestampedName
    simp only [String.data_append, List.length_append]
    have : (".session.backup".data).length = 15 := by decide
    omega

theorem collectBackups_mem_iff (g : FS) (name : String) (p : List String) :
    p ∈ collectBackups g name ↔
      g.isFile p = true ∧ p.dropLast ∈ backupDirsOf g
      ∧ g.osExists p.dropLast = true
      ∧ globMatch name ".session.backup" (lastSegOf p) = true := by
  have hstep :
      ∀ (acc : List (List String)) (d : List String),
        p ∈ (if g.osExists d = true then acc ++ globFiles g d name ".session.backup"
             else acc)
          ↔ p ∈ acc ∨ (g.osExists d = true ∧ p ∈ globFiles g d name ".session.backup") := by
    intro acc d
    split_ifs with hex
    · rw [List.mem_append]
      constructor
      · rintro (h | h)
        · exact Or.inl h
        · exact Or.inr ⟨hex, h⟩
      · rintro (h | ⟨-, h⟩)
        · exact Or.inl h
        · exact Or.inr h
    · constructor
      · exact Or.inl
      · rintro (h | ⟨hex', -⟩)
        · exact h
        · exact absurd hex' hex
  unfold collectBackups
  simp only [backupDirsOf, List.foldl]
  rw [hstep, hstep, hstep]
  simp only [List.not_mem_nil, false_or]
  constructor
  · rintro ((⟨hex, hm⟩ | ⟨hex, hm⟩) | ⟨hex, hm⟩) <;>
      obtain ⟨hf, hdl, hgm⟩ := (globFiles_mem g _ _ _ p).mp hm <;>
      exact ⟨hf, by simp [backupDirsOf, hdl], by rw [hdl]; exact hex, hgm⟩
  · rintro ⟨hf, hdl, hex, hgm⟩
    have hdl' : p.dropLast = backupRootOf g
        ∨ p.dropLast = backupRootOf g ++ ["telethon"]
        ∨ p.dropLast = backupRootOf g ++ ["pyrogram"] := by
      simpa [backupDirsOf] using hdl
    rcases hdl' with hd | hd | hd
    · exact Or.inl (Or.inl ⟨by rw [← hd]; exact hex,
        (globFiles_mem g _ _ _ p).mpr ⟨hf, hd, hgm⟩⟩)
    · exact Or.inl (Or.inr ⟨by rw [← hd]; exact hex,
        (globFiles_mem g _ _ _ p).mpr ⟨hf, hd, hgm⟩⟩)
    · exact Or.inr ⟨by rw [← hd]; exact hex,
        (globFiles_mem g _ _ _ p).mpr ⟨hf, hd, hgm⟩⟩

theorem endsWith_ne_lit (x lit suf1 : String) (hx : strEndsWith x suf1 = true)
    (h1 : suf1.data ≠ []) (hch : suf1.data.getLast? ≠ lit.data.getLast?) :
    x ≠ lit := by
  intro he
  apply hch
  unfold strEndsWith at hx
  rw [← getLast?_of_suffix hx h1, he]

theorem restoreTargetDirOf_root_congr (g fs : FS) (b : List String)
    (h : g.root = fs.root) : restoreTargetDirOf g b = restoreTargetDirOf fs b := by
  unfold restoreTargetDirOf backupRootOf
  rw [h]

theorem backupDirsOf_root_congr (g fs : FS) (h : g.root = fs.root) :
    backupDirsOf g = backupDirsOf fs := by
  unfold backupDirsOf backupRootOf
  rw [h]

theorem bpath_ne_layout (fs : FS) (sub : List String) (bn : String)
    (hsub : sub ∈ backupDirsOf fs) (hbn : strEndsWith bn ".session.backup" = true) :
    ∀ d ∈ layoutDirs fs, sub ++ [bn] ≠ d := by
  have hlen : fs.root.length + 1 ≤ sub.length := by
    rcases (by simpa [backupDirsOf, backupRootOf] using hsub) with h | h | h <;>
      · have := congrArg List.length h
        simp at this
        omega
  intro d hd he
  rcases (by simpa [layoutDirs, backupRootOf] using hd)
    with h | h | h | h | h | h <;> subst h
  · have := congrArg List.length he
    simp at this
    omega
  · have := congrArg List.length he
    simp at this
    omega
  · have := congrArg List.length he
    simp at this
    omega
  · have := congrArg List.length he
    simp at this
    omega
  · have hlast := congrArg (fun l : List String => l.getLastD "") he
    simp only at hlast
    rw [show fs.root ++ ["backups", "telethon"]
        = (fs.root ++ ["backups"]) ++ ["telethon"] from by simp] at hlast
    simp only [List.getLastD_concat] at hlast
    exact endsWith_ne_lit bn "telethon" ".session.backup" hbn (by decide) (by decide)
      hlast
  · have hlast := congrArg (fun l : List String => l.getLastD "") he
    simp only at hlast
    rw [show fs.root ++ ["backups", "pyrogram"]
        = (fs.root ++ ["backups"]) ++ ["pyrogram"] from by simp] at hlast
    simp only [List.getLastD_concat] at hlast
    exact endsWith_ne_lit bn "pyrogram" ".session.backup" hbn (by decide) (by decide)
      hlast

theorem restore_fresh_backup (fs3 : FS) (name : String) (bpath tgt : List String)
    (hden3 : fs3.denied = [])
    (hcands : ∃ rest, restoreCands fs3 name true = bpath :: rest)
    (hgood : goodCand fs3 bpath = true)
    (htgt : restoreTarget fs3 name bpath = tgt)
    (hne2 : tgt ≠ withSuffix tgt "-wal") (hne3 : tgt ≠ withSuffix tgt "-shm")
    (hsome : (fs3.dataAt bpath).isSome = true) :
    ∃ fs4, restore_from_backup fs3 name true = (.ok true, fs4)
      ∧ fs4.dataAt tgt = fs3.dataAt bpath := by
  obtain ⟨rest, hc⟩ := hcands
  obtain ⟨fsf, heq, hs, -, -, -, -, -⟩ := restore_from_backup_spec fs3 name true hden3
  have hfind : (restoreCands fs3 name true).find? (goodCand fs3) = some bpath := by
    rw [hc]
    simp [List.find?, hgood]
  refine ⟨fsf, ?_, ?_⟩
  · rw [heq, hfind]
    rfl
  · have hE := hs bpath hfind
    rw [htgt] at hE
    have hcg : fsf.dataAt tgt = (copyEffect fs3 bpath tgt).dataAt tgt :=
      dataAt_entries_congr (by rw [hE, copyEffect_entries]) tgt
    rw [hcg, copyEffect_dataAt_main _ _ _ hne2 hne3, if_pos hsome]

/-- C3 (amended): round trip.  For a located, valid live credential file of
identity `name` on a standard layout with no locks, no denied directories,
and every pre-existing backup file matching the `name*` glob strictly older
than the live file, `create_backup` succeeds, and after deleting the live
file `restore_from_backup` succeeds and reproduces the original bytes at
the original live path. -/
theorem c3_roundtrip_amended (fs : FS) (name : String) (sf : List String)
    (hden : fs.denied = []) (hlock : fs.locked = [])
    (hdirs : ∀ d ∈ fs.dirs, d ∈ layoutDirs fs)
    (hloc : get_session_file_path fs name = some sf)
    (hval : integrityOk fs sf = true)
    (hdom : ∀ p, fs.isFile p = true → p.dropLast ∈ backupDirsOf fs →
        globMatch name ".session.backup" (lastSegOf p) = true →
        fs.mtimeAt p < fs.mtimeAt sf) :
    ∃ fs1 fs4,
      create_backup fs name true = (.ok true, fs1)
      ∧ restore_from_backup (fs1.removeFile sf) name true = (.ok true, fs4)
      ∧ fs4.dataAt sf = fs.dataAt sf := by
  obtain ⟨d, hdat, hdb, hsz, hta⟩ := integrityOk_dataAt fs sf hval
  have hlk : (!decide (sf ∈ fs.locked)) = true := by
    rw [hlock]
    simp
  have hcre := create_backup_spec fs name sf hloc hval (by rw [hden]; simp)
  rw [hlk, if_pos rfl] at hcre
  set sub := backupSubdirOf fs sf with hsub
  set bn := timestampedName fs name with hbn
  have hbp : backupPathOf fs name sf = sub ++ [bn] := rfl
  set bpath := sub ++ [bn] with hbpath
  rw [hbp] at hcre
  set fs1 := copyEffect (makedirsFS fs sub) sf bpath with hfs1
  set fs3 := fs1.removeFile sf with hfs3
  -- basic state facts
  have hroot3 : fs3.root = fs.root := by
    rw [hfs3, FS.removeFile_root, hfs1, copyEffect_root]
    rfl
  have hden3 : fs3.denied = [] := by
    rw [hfs3, show (fs1.removeFile sf).denied = fs1.denied from rfl, hfs1,
      copyEffect_denied]
    exact hden
  have hlock3 : fs3.locked = [] := by
    rw [hfs3, show (fs1.removeFile sf).locked = fs1.locked from rfl, hfs1,
      copyEffect_locked]
    exact hlock
  have hdirs3 : fs3.dirs = sub :: fs.dirs := by
    rw [hfs3, FS.removeFile_dirs, hfs1, copyEffect_dirs]
    rfl
  -- name shape facts
  have hsf_last : lastSegOf sf = name ++ ".session" := by
    rcases locate_shape fs name sf hloc with h | h | h <;> rw [h]
    · exact lastSegOf_concat _ _
    · rw [show fs.root ++ ["telethon", name ++ ".session"]
          = (fs.root ++ ["telethon"]) ++ [name ++ ".session"] from by simp]
      exact lastSegOf_concat _ _
    · rw [show fs.root ++ ["pyrogram", name ++ ".session"]
          = (fs.root ++ ["pyrogram"]) ++ [name ++ ".session"] from by simp]
      exact lastSegOf_concat _ _
  have hbn_ends : strEndsWith bn ".session.backup" = true := by
    rw [hbn]
    exact timestampedName_endsWith fs name
  have hsub_mem : sub ∈ backupDirsOf fs := by
    rw [hsub]
    rcases locate_shape fs name sf hloc with h | h | h <;> rw [h]
    · rw [backupSubdirOf_flat]
      simp [backupDirsOf, backupRootOf]
    · rw [show fs.root ++ ["telethon", name ++ ".session"]
          = fs.root ++ [("telethon" : String), name ++ ".session"] from rfl,
        backupSubdirOf_sub]
      simp [backupDirsOf, backupRootOf]
    · rw [backupSubdirOf_sub]
      simp [backupDirsOf, backupRootOf]
  have hbp_last : lastSegOf bpath = bn := lastSegOf_concat _ _
  have hbn_ne_session : ∀ s : String, bn ≠ s ++ ".session" := by
    intro s
    exact endsWith_ne_append_lit bn s ".session" ".session.backup" hbn_ends
      (by decide) (by decide) (by decide)
  have hbp_ne_sf : bpath ≠ sf := by
    apply ne_of_lastSeg_ne
    rw [hbp_last, hsf_last]
    exact hbn_ne_session name
  have hbp_ne_wal : bpath ≠ withSuffix bpath "-wal" :=
    Ne.symm (withSuffix_ne_self bpath "-wal" (by decide))
  have hbp_ne_shm : bpath ≠ withSuffix bpath "-shm" :=
    Ne.symm (withSuffix_ne_self bpath "-shm" (by decide))
  -- content of the fresh backup
  have hmk_data : (makedirsFS fs sub).dataAt sf = fs.dataAt sf := rfl
  have hdat3 : fs3.dataAt bpath = fs.dataAt sf := by
    rw [hfs3, FS.dataAt_removeFile, if_neg hbp_ne_sf, hfs1,
      copyEffect_dataAt_main _ _ _ hbp_ne_wal hbp_ne_shm, hmk_data, hdat]
    rfl
  have hmt3 : fs3.mtimeAt bpath = fs.mtimeAt sf := by
    rw [hfs3, FS.mtimeAt_removeFile, if_neg hbp_ne_sf, hfs1,
      copyEffect_mtimeAt_main _ _ _ hbp_ne_wal hbp_ne_shm]
    rw [show (makedirsFS fs sub).dataAt sf = fs.dataAt sf from rfl, hdat]
    rfl
  have hnotdir3 : fs3.isDir bpath = false := by
    unfold FS.isDir
    rw [hroot3, hdirs3]
    have hne_layout := bpath_ne_layout fs sub bn hsub_mem hbn_ends
    have h1 : decide (bpath = fs.root) = false := by
      simp only [decide_eq_false_iff_not]
      exact hne_layout fs.root (by simp [layoutDirs])
    rw [h1]
    simp only [Bool.false_or, List.any_cons]
    have h2 : decide (sub = bpath) = false := by
      simp only [decide_eq_false_iff_not]
      exact fun he => concat_ne_self sub bn he.symm
    rw [h2]
    simp only [Bool.false_or]
    rw [List.any_eq_false]
    intro x hx
    simp only [decide_eq_true_eq]
    intro he
    exact hne_layout x (hdirs x hx) he.symm
  have hval3 : integrityOk fs3 bpath = true := by
    unfold integrityOk
    rw [hdat3, hdat, hnotdir3]
    simp [hsz, hdb, hta]
  have hgood3 : goodCand fs3 bpath = true := by
    unfold goodCand
    rw [hval3, hlock3]
    simp
  -- membership of the fresh backup among the candidates
  have hmem3 : bpath ∈ collectBackups fs3 name := by
    rw [collectBackups_mem_iff]
    refine ⟨?_, ?_, ?_, ?_⟩
    · rw [FS.isFile_eq_isSome, hdat3, hdat]
      rfl
    · rw [show bpath.dropLast = sub from List.dropLast_concat,
        backupDirsOf_root_congr fs3 fs hroot3]
      exact hsub_mem
    · rw [show bpath.dropLast = sub from List.dropLast_concat]
      unfold FS.osExists FS.isDir
      rw [hdirs3]
      simp
    · rw [hbp_last, hbn]
      exact timestampedName_globMatch fs name
  -- every other candidate is strictly older
  have hdom3 : ∀ p ∈ collectBackups fs3 name, p ≠ bpath →
      fs3.mtimeAt p < fs3.mtimeAt bpath := by
    intro p hp hpne
    obtain ⟨hf3, hdl3, -, hgm3⟩ := (collectBackups_mem_iff fs3 name p).mp hp
    have hp_ends : strEndsWith (lastSegOf p) ".session.backup" = true :=
      globMatch_suffix _ _ _ hgm3
    have hp_ne_sf : p ≠ sf := by
      apply ne_of_lastSeg_ne
      rw [hsf_last]
      exact endsWith_ne_append_lit _ name ".session" ".session.backup" hp_ends
        (by decide) (by decide) (by decide)
    have hp_ne_wal : p ≠ withSuffix bpath "-wal" := by
      apply ne_of_lastSeg_ne
      rw [lastSegOf_withSuffix]
      exact endsWith_ne_append_lit _ (lastSegOf bpath) "-wal" ".session.backup"
        hp_ends (by decide) (by decide) (by decide)
    have hp_ne_shm : p ≠ withSuffix bpath "-shm" := by
      apply ne_of_lastSeg_ne
      rw [lastSegOf_withSuffix]
      exact endsWith_ne_append_lit _ (lastSegOf bpath) "-shm" ".session.backup"
        hp_ends (by decide) (by decide) (by decide)
    have hf : fs.isFile p = true := by
      rw [hfs3] at hf3
      rw [FS.isFile_removeFile] at hf3
      simp only [Bool.and_eq_true] at hf3
      have := hf3.2
      rw [hfs1, copyEffect_isFile_other _ _ _ _ hpne hp_ne_wal hp_ne_shm] at this
      exact this
    have hmt : fs3.mtimeAt p = fs.mtimeAt p := by
      rw [hfs3, FS.mtimeAt_removeFile, if_neg hp_ne_sf, hfs1,
        copyEffect_mtimeAt_other _ _ _ _ hpne hp_ne_wal hp_ne_shm]
      rfl
    rw [hmt, hmt3]
    apply hdom p hf
    · rw [backupDirsOf_root_congr fs3 fs hroot3] at hdl3
      exact hdl3
    · exact hgm3
  -- candidates start with the fresh backup
  have hcands : ∃ rest, restoreCands fs3 name true = bpath :: rest := by
    unfold restoreCands
    dsimp only
    split_ifs with hlen
    · apply sorted_head_unique_max fs3 _ bpath (sortByMtimeDesc_sorted fs3 _)
        ((mem_sortByMtimeDesc fs3 _ bpath).mpr hmem3)
      intro y hy hyne
      exact hdom3 y ((mem_sortByMtimeDesc fs3 _ y).mp hy) hyne
    · have hlen' : (collectBackups fs3 name).length ≤ 1 := by
        by_contra hgt
        exact hlen (by simp; omega)
      exact ⟨[], eq_singleton_of_len_le_one _ bpath hlen' hmem3⟩
  -- target of the fresh backup is the original live path
  have htgt : restoreTarget fs3 name bpath = sf := by
    unfold restoreTarget
    rw [restoreTargetDirOf_root_congr fs3 fs bpath hroot3]
    unfold restoreTargetDirOf
    rw [show bpath.dropLast = sub from List.dropLast_concat]
    rcases locate_shape fs name sf hloc with h | h | h
    · have hsubv : sub = backupRootOf fs := by
        rw [hsub, h]
        exact backupSubdirOf_flat fs _
      rw [hsubv, List.drop_length, h]
      simp
    · have hsubv : sub = backupRootOf fs ++ ["telethon"] := by
        rw [hsub, h, show fs.root ++ ["telethon", name ++ ".session"]
            = fs.root ++ [("telethon" : String), name ++ ".session"] from rfl,
          backupSubdirOf_sub]
        simp [backupRootOf]
      rw [hsubv, List.drop_left]
      rw [if_neg (by simp), h]
      simp
    · have hsubv : sub = backupRootOf fs ++ ["pyrogram"] := by
        rw [hsub, h, backupSubdirOf_sub]
        simp [backupRootOf]
      rw [hsubv, List.drop_left]
      rw [if_neg (by simp), h]
      simp
  -- run the restore
  obtain ⟨fs4, hres, hdata4⟩ := restore_fresh_backup fs3 name bpath sf hden3
    hcands hgood3 htgt
    (Ne.symm (withSuffix_ne_self sf "-wal" (by decide)))
    (Ne.symm (withSuffix_ne_self sf "-shm" (by decide)))
    (by rw [hdat3, hdat]; rfl)
  exact ⟨fs1, fs4, hcre, hres, by rw [hdata4, hdat3]⟩

/-- C3 counterexample: the round trip completes, but the glob pattern
`al*.session.backup` also matches `alx`'s newer backup, which wins the
modification-time sort, so the restored file carries `alx`'s bytes — not a
byte-identical copy of the original live file. -/
theorem c3_roundtrip_counterexample :
    (create_backup fsPrefixClash "al" true).1 = .ok true
    ∧ (restore_from_backup (((create_backup fsPrefixClash "al" true).2).removeFile
        ["S", "al.session"]) "al" true).1 = .ok true
    ∧ ((restore_from_backup (((create_backup fsPrefixClash "al" true).2).removeFile
        ["S", "al.session"]) "al" true).2).dataAt ["S", "al.session"]
        = some (goodDb 77)
    ∧ fsPrefixClash.dataAt ["S", "al.session"] = some (goodDb 1)
    ∧ goodDb 77 ≠ goodDb 1 := by
  decide

/-- C3 witness: the amended round trip applied to the telethon-layout
world. -/
theorem c3_roundtrip_amended_witness :
    ∃ fs1 fs4,
      create_backup fsRound "alice" true = (.ok true, fs1)
      ∧ restore_from_backup (fs1.removeFile ["S", "telethon", "alice.session"])
          "alice" true = (.ok true, fs4)
      ∧ fs4.dataAt ["S", "telethon", "alice.session"]
          = fsRound.dataAt ["S", "telethon", "alice.session"] := by
  apply c3_roundtrip_amended fsRound "alice" ["S", "telethon", "alice.session"]
    rfl rfl (by decide) (by decide) (by decide)
  intro p hf hdl hgm
  exfalso
  have hp : p = ["S", "telethon", "alice.session"] := by
    have hd : decide ((["S", "telethon", "alice.session"] : List String) = p)
        = true := by
      simpa [FS.isFile, fsRound, baseFS, List.any] using hf
    exact (of_decide_eq_true hd).symm
  rw [hp] at hdl
  exact absurd hdl (by decide)

theorem groupsGet_cons_hit (k0 : String) (ps : List (List String))
    (rest : List (String × List (List String))) (k : String) (h : k0 = k) :
    groupsGet ((k0, ps) :: rest) k = ps := by
  unfold groupsGet
  rw [List.find?_cons_of_pos _ (by simp [h])]
  rfl

theorem groupsGet_cons_miss (k0 : String) (ps : List (List String))
    (rest : List (String × List (List String))) (k : String) (h : ¬ k0 = k) :
    groupsGet ((k0, ps) :: rest) k = groupsGet rest k := by
  unfold groupsGet
  rw [List.find?_cons_of_neg _ (by simp [h])]

theorem groupsGet_addToGroups (gs : List (String × List (List String)))
    (k : String) (p : List String) (k' : String) :
    groupsGet (addToGroups gs k p) k'
      = if k' = k then groupsGet gs k ++ [p] else groupsGet gs k' := by
  induction gs with
  | nil =>
    by_cases h : k' = k
    · subst h
      simp [addToGroups, groupsGet, List.find?]
    · rw [if_neg h]
      show groupsGet [(k, [p])] k' = groupsGet [] k'
      rw [groupsGet_cons_miss _ _ _ _ (fun he => h he.symm)]
  | cons kb rest ih =>
    obtain ⟨k0, ps⟩ := kb
    show groupsGet (if k0 = k then (k0, ps ++ [p]) :: rest
        else (k0, ps) :: addToGroups rest k p) k' = _
    by_cases hk : k0 = k
    · rw [if_pos hk]
      by_cases h : k' = k
      · subst h
        rw [groupsGet_cons_hit _ _ _ _ hk, if_pos rfl,
          groupsGet_cons_hit _ _ _ _ hk]
      · have hk0 : ¬ k0 = k' := fun he => h (he ▸ hk : k' = k)
        rw [if_neg h, groupsGet_cons_miss _ _ _ _ hk0,
          groupsGet_cons_miss _ _ _ _ hk0]
    · rw [if_neg hk]
      by_cases hh : k0 = k'
      · have hne : ¬ k' = k := fun he => hk (hh.trans he)
        rw [if_neg hne, groupsGet_cons_hit _ _ _ _ hh,
          groupsGet_cons_hit _ _ _ _ hh]
      · rw [groupsGet_cons_miss _ _ _ _ hh, ih]
        by_cases h : k' = k
        · rw [if_pos h, if_pos h, groupsGet_cons_miss _ _ _ _ (h ▸ hh)]
        · rw [if_neg h, if_neg h, groupsGet_cons_miss _ _ _ _ hh]

theorem keys_addToGroups (gs : List (String × List (List String)))
    (k : String) (p : List String) :
    (addToGroups gs k p).map Prod.fst
      = if k ∈ gs.map Prod.fst then gs.map Prod.fst
        else gs.map Prod.fst ++ [k] := by
  induction gs with
  | nil => simp [addToGroups]
  | cons kb rest ih =>
    obtain ⟨k0, ps⟩ := kb
    show (if k0 = k then (k0, ps ++ [p]) :: rest
        else (k0, ps) :: addToGroups rest k p).map Prod.fst = _
    by_cases hk : k0 = k
    · rw [if_pos hk]
      simp [hk]
    · rw [if_neg hk]
      simp only [List.map_cons, ih]
      by_cases h : k ∈ rest.map Prod.fst
      · simp [h, Ne.symm hk]
      · simp [h, Ne.symm hk]

theorem keys_nodup_addToGroups (gs : List (String × List (List String)))
    (k : String) (p : List String) (h : (gs.map Prod.fst).Nodup) :
    ((addToGroups gs k p).map Prod.fst).Nodup := by
  rw [keys_addToGroups]
  split_ifs with hmem
  · exact h
  · refine List.Nodup.append h (List.nodup_singleton k) ?_
    intro a ha hb
    rw [List.mem_singleton] at hb
    exact hmem (hb ▸ ha)

theorem buildGroups_get :
    ∀ (fls : List (List String)) (gs : List (String × List (List String)))
      (done : List (List String)),
      (∀ k, groupsGet gs k = done.filter (fun p => decide (keyOf p = k))) →
      ∀ k, groupsGet (fls.foldl (fun gs p => addToGroups gs (keyOf p) p) gs) k
        = (done ++ fls).filter (fun p => decide (keyOf p = k)) := by
  intro fls
  induction fls with
  | nil =>
    intro gs done h k
    simpa using h k
  | cons p rest ih =>
    intro gs done h k
    simp only [List.foldl_cons]
    have hstep : ∀ k', groupsGet (addToGroups gs (keyOf p) p) k'
        = (done ++ [p]).filter (fun q => decide (keyOf q = k')) := by
      intro k'
      rw [groupsGet_addToGroups, List.filter_append]
      by_cases hk : k' = keyOf p
      · subst hk
        rw [if_pos rfl, h (keyOf p)]
        simp [List.filter]
      · rw [if_neg hk, h k']
        have : ¬ keyOf p = k' := fun he => hk he.symm
        simp [List.filter, this]
    have := ih (addToGroups gs (keyOf p) p) (done ++ [p]) hstep k
    rw [this]
    simp

theorem buildGroups_keys_nodup :
    ∀ (fls : List (List String)) (gs : List (String × List (List String))),
      (gs.map Prod.fst).Nodup →
      ((fls.foldl (fun gs p => addToGroups gs (keyOf p) p) gs).map Prod.fst).Nodup := by
  intro fls
  induction fls with
  | nil => intro gs h; exact h
  | cons p rest ih =>
    intro gs h
    exact ih _ (keys_nodup_addToGroups gs (keyOf p) p h)

theorem mem_groups_get (gs : List (String × List (List String)))
    (hnd : (gs.map Prod.fst).Nodup) (kb : String × List (List String))
    (hkb : kb ∈ gs) : groupsGet gs kb.1 = kb.2 := by
  induction gs with
  | nil => simp at hkb
  | cons hd rest ih =>
    rcases List.mem_cons.mp hkb with h | h
    · subst h
      exact groupsGet_cons_hit _ _ _ _ rfl
    · have hne : hd.1 ≠ kb.1 := by
        intro he
        have hm : kb.1 ∈ rest.map Prod.fst := List.mem_map_of_mem Prod.fst h
        rw [← he] at hm
        exact (List.nodup_cons.mp hnd).1 hm
      rw [show hd = (hd.1, hd.2) from rfl, groupsGet_cons_miss _ _ _ _ hne]
      exact ih (List.nodup_cons.mp hnd).2 h

theorem buildGroups_eq_fold (fls : List (List String)) :
    buildGroups fls = fls.foldl (fun gs p => addToGroups gs (keyOf p) p) [] := rfl

theorem mem_buildGroups_bucket (fls : List (List String))
    (kb : String × List (List String)) (hkb : kb ∈ buildGroups fls) :
    kb.2 = fls.filter (fun p => decide (keyOf p = kb.1)) := by
  have hnd : ((buildGroups fls).map Prod.fst).Nodup := by
    rw [buildGroups_eq_fold]
    exact buildGroups_keys_nodup fls [] (by simp)
  have hget := mem_groups_get (buildGroups fls) hnd kb hkb
  have hchar := buildGroups_get fls [] []
    (fun k => by unfold groupsGet; simp [List.find?]) kb.1
  rw [buildGroups_eq_fold] at hget
  rw [hchar] at hget
  simpa using hget.symm

theorem strEndsWith_append_lit (s lit : String) :
    strEndsWith (s ++ lit) lit = true := by
  unfold strEndsWith
  rw [String.data_append, List.isSuffixOf_iff_suffix]
  exact List.suffix_append s.data lit.data

theorem find?_filter_notin (l : List Entry) (S : List (List String))
    (p : List String) (hp : p ∉ S) :
    (l.filter (fun e => decide (e.path ∉ S))).find? (fun e => decide (e.path = p))
      = l.find? (fun e => decide (e.path = p)) := by
  induction l with
  | nil => simp [List.find?]
  | cons e t ih =>
    by_cases heS : e.path ∈ S
    · rw [List.filter_cons_of_neg (by simp [heS])]
      rw [ih]
      have hep : e.path ≠ p := fun he => hp (he ▸ heS)
      simp [List.find?, hep]
    · rw [List.filter_cons_of_pos (by simp [heS])]
      by_cases hep : e.path = p
      · simp [List.find?, hep]
      · simp only [List.find?, hep, decide_False]
        exact ih

theorem dataAt_of_filtered (g fs : FS) (S : List (List String))
    (hE : g.entries = fs.entries.filter (fun e => decide (e.path ∉ S)))
    (p : List String) (hp : p ∉ S) : g.dataAt p = fs.dataAt p := by
  unfold FS.dataAt
  rw [hE, find?_filter_notin _ _ _ hp]

theorem mtimeAt_of_filtered (g fs : FS) (S : List (List String))
    (hE : g.entries = fs.entries.filter (fun e => decide (e.path ∉ S)))
    (p : List String) (hp : p ∉ S) : g.mtimeAt p = fs.mtimeAt p := by
  unfold FS.mtimeAt
  rw [hE, find?_filter_notin _ _ _ hp]

theorem isFile_of_filtered (g fs : FS) (S : List (List String))
    (hE : g.entries = fs.entries.filter (fun e => decide (e.path ∉ S)))
    (p : List String) (hp : p ∉ S) : g.isFile p = fs.isFile p := by
  rw [FS.isFile_eq_isSome, FS.isFile_eq_isSome,
    dataAt_of_filtered g fs S hE p hp]

theorem insertByMtime_congr (g fs : FS) (p : List String)
    (l : List (List String)) (hp : g.mtimeAt p = fs.mtimeAt p)
    (hl : ∀ q ∈ l, g.mtimeAt q = fs.mtimeAt q) :
    insertByMtime g p l = insertByMtime fs p l := by
  induction l with
  | nil => rfl
  | cons q rest ih =>
    unfold insertByMtime
    rw [hp, hl q (List.mem_cons_self q rest)]
    by_cases h : fs.mtimeAt q ≤ fs.mtimeAt p
    · rw [if_pos h, if_pos h]
    · rw [if_neg h, if_neg h,
        ih (fun r hr => hl r (List.mem_cons_of_mem q hr))]

theorem sortByMtimeDesc_congr (g fs : FS) (l : List (List String))
    (hl : ∀ q ∈ l, g.mtimeAt q = fs.mtimeAt q) :
    sortByMtimeDesc g l = sortByMtimeDesc fs l := by
  induction l with
  | nil => rfl
  | cons p rest ih =>
    unfold sortByMtimeDesc
    have hrest : ∀ q ∈ rest, g.mtimeAt q = fs.mtimeAt q :=
      fun q hq => hl q (List.mem_cons_of_mem p hq)
    rw [ih hrest]
    refine insertByMtime_congr g fs p _ (hl p (List.mem_cons_self p rest)) ?_
    intro q hq
    exact hrest q ((sortByMtimeDesc_perm fs rest).mem_iff.mp hq)

theorem removeFile_of_filtered (g fs : FS) (S : List (List String))
    (hE : g.entries = fs.entries.filter (fun e => decide (e.path ∉ S)))
    (v : List String) :
    (g.removeFile v).entries
      = fs.entries.filter (fun e => decide (e.path ∉ v :: S)) := by
  show (g.entries.filter (fun e => decide (e.path ≠ v)))
      = fs.entries.filter (fun e => decide (e.path ∉ v :: S))
  rw [hE, List.filter_filter]
  refine List.filter_congr ?_
  intro e _
  by_cases h1 : e.path ∈ S <;> by_cases h2 : e.path = v <;>
    simp [h1, h2, List.mem_cons]

theorem ends_clash (x s1 s2 : String) (h1 : strEndsWith x s1 = true)
    (h2 : strEndsWith x s2 = true) (hn1 : s1.data ≠ []) (hn2 : s2.data ≠ [])
    (hch : s1.data.getLast? ≠ s2.data.getLast?) : False := by
  unfold strEndsWith at h1 h2
  have e1 := getLast?_of_suffix h1 hn1
  have e2 := getLast?_of_suffix h2 hn2
  exact hch (e1 ▸ e2)

theorem backup_ne_wal (q : List String)
    (hq : strEndsWith (lastSegOf q) ".session.backup" = true)
    (hw : strEndsWith (lastSegOf q) "-wal" = true) : False := by
  refine ends_clash (lastSegOf q) ".session.backup" "-wal" hq hw
    (by decide) (by decide) (by decide)

theorem backup_ne_shm (q : List String)
    (hq : strEndsWith (lastSegOf q) ".session.backup" = true)
    (hw : strEndsWith (lastSegOf q) "-shm" = true) : False := by
  refine ends_clash (lastSegOf q) ".session.backup" "-shm" hq hw
    (by decide) (by decide) (by decide)

theorem backup_ne_withSuffix_wal (q v : List String)
    (hq : strEndsWith (lastSegOf q) ".session.backup" = true) :
    q ≠ withSuffix v "-wal" := by
  intro he
  apply backup_ne_wal q hq
  rw [he, lastSegOf_withSuffix]
  exact strEndsWith_append_lit _ _

theorem backup_ne_withSuffix_shm (q v : List String)
    (hq : strEndsWith (lastSegOf q) ".session.backup" = true) :
    q ≠ withSuffix v "-shm" := by
  intro he
  apply backup_ne_shm q hq
  rw [he, lastSegOf_withSuffix]
  exact strEndsWith_append_lit _ _

theorem isFile_filtered_of_mem (g fs : FS) (S : List (List String))
    (hE : g.entries = fs.entries.filter (fun e => decide (e.path ∉ S)))
    (w : List String) (hw : w ∈ S) : g.isFile w = false := by
  unfold FS.isFile
  rw [hE]
  rw [List.any_eq_false]
  intro e he
  rcases List.mem_filter.mp he with ⟨_, hnot⟩
  simp only [decide_eq_true_eq] at hnot ⊢
  intro hep
  exact hnot (hep ▸ hw)

theorem sidecarRemove_spec (fs g : FS) (S : List (List String)) (w : List String)
    (hE : g.entries = fs.entries.filter (fun e => decide (e.path ∉ S)))
    (hdirs : g.dirs = fs.dirs) (hroot : g.root = fs.root)
    (hrm : g.removeFail = [])
    (hwdir : fs.isDir w = false) :
    ∃ (g' : FS) (S' : List (List String)),
      (if g.osExists w then osRemove g w else ((.ok () : Except PyErr Unit), g))
          = ((.ok () : Except PyErr Unit), g')
      ∧ g'.entries = fs.entries.filter (fun e => decide (e.path ∉ S'))
      ∧ g'.dirs = fs.dirs ∧ g'.root = fs.root ∧ g'.removeFail = []
      ∧ (∀ q ∈ S, q ∈ S') ∧ (∀ q ∈ S', q ∈ S ∨ q = w) := by
  have hgdir : g.isDir w = fs.isDir w := by
    unfold FS.isDir
    rw [hdirs, hroot]
  by_cases hwS : w ∈ S
  · have hgf : g.isFile w = false := isFile_filtered_of_mem g fs S hE w hwS
    have hex : g.osExists w = false := by
      unfold FS.osExists
      rw [hgf, hgdir, hwdir]
      rfl
    refine ⟨g, S, ?_, hE, hdirs, hroot, hrm, fun q hq => hq, fun q hq => Or.inl hq⟩
    rw [hex]
    rfl
  · have hgf : g.isFile w = fs.isFile w := isFile_of_filtered g fs S hE w hwS
    by_cases hwf : fs.isFile w = true
    · have hex : g.osExists w = true := by
        unfold FS.osExists
        rw [hgf, hwf]
        rfl
      have hrem : osRemove g w = (.ok (), g.removeFile w) := by
        unfold osRemove
        rw [hrm]
        rw [if_neg (by simp)]
        rw [hgf, if_pos hwf]
      refine ⟨g.removeFile w, w :: S, ?_, removeFile_of_filtered g fs S hE w,
        hdirs, hroot, hrm, fun q hq => List.mem_cons_of_mem w hq, ?_⟩
      · rw [hex]
        simpa using hrem
      · intro q hq
        rcases List.mem_cons.mp hq with h | h
        · exact Or.inr h
        · exact Or.inl h
    · have hwf' : fs.isFile w = false := by simpa using hwf
      have hex : g.osExists w = false := by
        unfold FS.osExists
        rw [hgf, hwf', hgdir, hwdir]
        rfl
      refine ⟨g, S, ?_, hE, hdirs, hroot, hrm, fun q hq => hq, fun q hq => Or.inl hq⟩
      rw [hex]
      rfl

theorem removeFile_removeFail (fs : FS) (q : List String) :
    (fs.removeFile q).removeFail = fs.removeFail := rfl

theorem deleteBackupEntry_spec (fs g : FS) (S : List (List String))
    (v : List String)
    (hE : g.entries = fs.entries.filter (fun e => decide (e.path ∉ S)))
    (hdirs : g.dirs = fs.dirs) (hroot : g.root = fs.root)
    (hrm : g.removeFail = [])
    (hv : fs.isFile v = true) (hvS : v ∉ S)
    (hdir : ∀ q, fs.isDir q = true →
        strEndsWith (lastSegOf q) "-wal" = false
          ∧ strEndsWith (lastSegOf q) "-shm" = false) :
    ∃ (S' : List (List String)),
      (deleteBackupEntry g v).1 = 1
      ∧ (deleteBackupEntry g v).2.entries
          = fs.entries.filter (fun e => decide (e.path ∉ S'))
      ∧ (deleteBackupEntry g v).2.dirs = fs.dirs
      ∧ (deleteBackupEntry g v).2.root = fs.root
      ∧ (deleteBackupEntry g v).2.removeFail = []
      ∧ (∀ q ∈ S, q ∈ S') ∧ v ∈ S'
      ∧ (∀ q ∈ S', q ∈ S ∨ q = v ∨ q = withSuffix v "-wal"
          ∨ q = withSuffix v "-shm") := by
  have h1 : osRemove g v = (.ok (), g.removeFile v) := by
    unfold osRemove
    rw [hrm, if_neg (by simp)]
    rw [isFile_of_filtered g fs S hE v hvS, if_pos hv]
  have hE1 := removeFile_of_filtered g fs S hE v
  have hdirs1 : (g.removeFile v).dirs = fs.dirs := by
    rw [FS.removeFile_dirs, hdirs]
  have hroot1 : (g.removeFile v).root = fs.root := by
    rw [FS.removeFile_root, hroot]
  have hrm1 : (g.removeFile v).removeFail = [] := by
    rw [removeFile_removeFail, hrm]
  have hwal_dir : fs.isDir (withSuffix v "-wal") = false := by
    have hend : strEndsWith (lastSegOf (withSuffix v "-wal")) "-wal" = true := by
      rw [lastSegOf_withSuffix]
      exact strEndsWith_append_lit _ _
    cases hbd : fs.isDir (withSuffix v "-wal") with
    | false => rfl
    | true => exact absurd hend (by simp [(hdir _ hbd).1])
  obtain ⟨g2, S2, heq2, hE2, hdirs2, hroot2, hrm2, hsub2, hchar2⟩ :=
    sidecarRemove_spec fs (g.removeFile v) (v :: S) (withSuffix v "-wal")
      hE1 hdirs1 hroot1 hrm1 hwal_dir
  have hshm_dir : fs.isDir (withSuffix v "-shm") = false := by
    have hend : strEndsWith (lastSegOf (withSuffix v "-shm")) "-shm" = true := by
      rw [lastSegOf_withSuffix]
      exact strEndsWith_append_lit _ _
    cases hbd : fs.isDir (withSuffix v "-shm") with
    | false => rfl
    | true => exact absurd hend (by simp [(hdir _ hbd).2])
  obtain ⟨g3, S3, heq3, hE3, hdirs3, hroot3, hrm3, hsub3, hchar3⟩ :=
    sidecarRemove_spec fs g2 S2 (withSuffix v "-shm")
      hE2 hdirs2 hroot2 hrm2 hshm_dir
  have hmain : deleteBackupEntry g v = (1, g3) := by
    simp only [deleteBackupEntry, h1, heq2, heq3]
  refine ⟨S3, by rw [hmain], by rw [hmain]; exact hE3, by rw [hmain]; exact hdirs3,
    by rw [hmain]; exact hroot3, by rw [hmain]; exact hrm3, ?_, ?_, ?_⟩
  · intro q hq
    exact hsub3 q (hsub2 q (List.mem_cons_of_mem v hq))
  · exact hsub3 v (hsub2 v (List.mem_cons_self v S))
  · intro q hq
    rcases hchar3 q hq with h | h
    · rcases hchar2 q h with h' | h'
      · rcases List.mem_cons.mp h' with h'' | h''
        · exact Or.inr (Or.inl h'')
        · exact Or.inl h''
      · exact Or.inr (Or.inr (Or.inl h'))
    · exact Or.inr (Or.inr (Or.inr h))

theorem deleteVictims_spec (fs : FS)
    (hdir : ∀ q, fs.isDir q = true →
        strEndsWith (lastSegOf q) "-wal" = false
          ∧ strEndsWith (lastSegOf q) "-shm" = false) :
    ∀ (vs : List (List String)) (g : FS) (S : List (List String)),
      g.entries = fs.entries.filter (fun e => decide (e.path ∉ S)) →
      g.dirs = fs.dirs → g.root = fs.root → g.removeFail = [] →
      (∀ v ∈ vs, fs.isFile v = true ∧ v ∉ S
          ∧ strEndsWith (lastSegOf v) ".session.backup" = true) →
      vs.Nodup →
      ∃ (S' : List (List String)),
        (deleteVictims vs g).1 = vs.length
        ∧ (deleteVictims vs g).2.entries
            = fs.entries.filter (fun e => decide (e.path ∉ S'))
        ∧ (deleteVictims vs g).2.dirs = fs.dirs
        ∧ (deleteVictims vs g).2.root = fs.root
        ∧ (deleteVictims vs g).2.removeFail = []
        ∧ (∀ q ∈ S, q ∈ S')
        ∧ (∀ v ∈ vs, v ∈ S')
        ∧ (∀ q ∈ S', q ∈ S ∨ q ∈ vs
            ∨ ∃ v ∈ vs, q = withSuffix v "-wal" ∨ q = withSuffix v "-shm") := by
  intro vs
  induction vs with
  | nil =>
    intro g S hE hdirs hroot hrm _ _
    exact ⟨S, rfl, hE, hdirs, hroot, hrm, fun q hq => hq,
      fun v hv => absurd hv (List.not_mem_nil v),
      fun q hq => Or.inl hq⟩
  | cons v vs ih =>
    intro g S hE hdirs hroot hrm hvs hnd
    obtain ⟨hvf, hvS, hvb⟩ := hvs v (List.mem_cons_self v vs)
    obtain ⟨S1, hc1, hE1, hdirs1, hroot1, hrm1, hsub1, hvin1, hchar1⟩ :=
      deleteBackupEntry_spec fs g S v hE hdirs hroot hrm hvf hvS hdir
    have htail : ∀ u ∈ vs, fs.isFile u = true ∧ u ∉ S1
        ∧ strEndsWith (lastSegOf u) ".session.backup" = true := by
      intro u hu
      obtain ⟨huf, huS, hub⟩ := hvs u (List.mem_cons_of_mem v hu)
      refine ⟨huf, ?_, hub⟩
      intro huS1
      rcases hchar1 u huS1 with h | h | h | h
      · exact huS h
      · exact (List.nodup_cons.mp hnd).1 (h ▸ hu)
      · exact backup_ne_withSuffix_wal u v hub h
      · exact backup_ne_withSuffix_shm u v hub h
    obtain ⟨S2, hc2, hE2, hdirs2, hroot2, hrm2, hsub2, hvin2, hchar2⟩ :=
      ih (deleteBackupEntry g v).2 S1 hE1 hdirs1 hroot1 hrm1 htail
        (List.nodup_cons.mp hnd).2
    refine ⟨S2, ?_, hE2, hdirs2, hroot2, hrm2, ?_, ?_, ?_⟩
    · show (deleteBackupEntry g v).1 + (deleteVictims vs (deleteBackupEntry g v).2).1
          = vs.length + 1
      rw [hc1, hc2, Nat.add_comm]
    · intro q hq
      exact hsub2 q (hsub1 q hq)
    · intro u hu
      rcases List.mem_cons.mp hu with h | h
      · exact h ▸ hsub2 v hvin1
      · exact hvin2 u h
    · intro q hq
      rcases hchar2 q hq with h | h | ⟨u, hu, h⟩
      · rcases hchar1 q h with h' | h' | h' | h'
        · exact Or.inl h'
        · exact Or.inr (Or.inl (h' ▸ List.mem_cons_self v vs))
        · exact Or.inr (Or.inr ⟨v, List.mem_cons_self v vs, Or.inl h'⟩)
        · exact Or.inr (Or.inr ⟨v, List.mem_cons_self v vs, Or.inr h'⟩)
      · exact Or.inr (Or.inl (List.mem_cons_of_mem v h))
      · exact Or.inr (Or.inr ⟨u, List.mem_cons_of_mem v hu, h⟩)

theorem cleanGroupsLoop_spec (fs : FS) (keep : Nat)
    (hdir : ∀ q, fs.isDir q = true →
        strEndsWith (lastSegOf q) "-wal" = false
          ∧ strEndsWith (lastSegOf q) "-shm" = false) :
    ∀ (groups : List (String × List (List String))) (g : FS)
      (S : List (List String)),
      g.entries = fs.entries.filter (fun e => decide (e.path ∉ S)) →
      g.dirs = fs.dirs → g.root = fs.root → g.removeFail = [] →
      (groups.map Prod.fst).Nodup →
      (∀ kb ∈ groups, kb.2.Nodup ∧ ∀ p ∈ kb.2, keyOf p = kb.1
          ∧ fs.isFile p = true
          ∧ strEndsWith (lastSegOf p) ".session.backup" = true) →
      (∀ q ∈ S, strEndsWith (lastSegOf q) ".session.backup" = true →
          keyOf q ∉ groups.map Prod.fst) →
      ∃ (S' : List (List String)),
        (cleanGroupsLoop keep groups g).1
            = (groups.map (fun kb => kb.2.length - keep)).sum
        ∧ (cleanGroupsLoop keep groups g).2.entries
            = fs.entries.filter (fun e => decide (e.path ∉ S'))
        ∧ (cleanGroupsLoop keep groups g).2.dirs = fs.dirs
        ∧ (cleanGroupsLoop keep groups g).2.root = fs.root
        ∧ (cleanGroupsLoop keep groups g).2.removeFail = []
        ∧ (∀ q ∈ S, q ∈ S')
        ∧ (∀ kb ∈ groups, keep < kb.2.length →
            ∀ p ∈ (sortByMtimeDesc fs kb.2).drop keep, p ∈ S')
        ∧ (∀ q ∈ S', strEndsWith (lastSegOf q) ".session.backup" = true →
            q ∈ S ∨ ∃ kb ∈ groups, keep < kb.2.length
              ∧ q ∈ (sortByMtimeDesc fs kb.2).drop keep)
        ∧ (∀ q ∈ S', q ∈ S
            ∨ strEndsWith (lastSegOf q) ".session.backup" = true
            ∨ strEndsWith (lastSegOf q) "-wal" = true
            ∨ strEndsWith (lastSegOf q) "-shm" = true) := by
  intro groups
  induction groups with
  | nil =>
    intro g S hE hdirs hroot hrm _ _ _
    exact ⟨S, rfl, hE, hdirs, hroot, hrm, fun q hq => hq,
      fun kb hkb => absurd hkb (List.not_mem_nil kb),
      fun q hq _ => Or.inl hq, fun q hq => Or.inl hq⟩
  | cons kb rest ih =>
    obtain ⟨k, bs⟩ := kb
    intro g S hE hdirs hroot hrm hknd hbk hS
    obtain ⟨hbsnd, hbsall⟩ := hbk (k, bs) (List.mem_cons_self _ rest)
    have hrestk : ∀ kb ∈ rest, kb.2.Nodup ∧ ∀ p ∈ kb.2, keyOf p = kb.1
        ∧ fs.isFile p = true
        ∧ strEndsWith (lastSegOf p) ".session.backup" = true :=
      fun kb hkb => hbk kb (List.mem_cons_of_mem _ hkb)
    by_cases hle : bs.length ≤ keep
    · have heq : cleanGroupsLoop keep ((k, bs) :: rest) g
          = cleanGroupsLoop keep rest g := by
        simp only [cleanGroupsLoop, if_pos hle]
      have hSrest : ∀ q ∈ S,
          strEndsWith (lastSegOf q) ".session.backup" = true →
          keyOf q ∉ rest.map Prod.fst := by
        intro q hq hqb hmem
        exact hS q hq hqb (List.mem_cons_of_mem _ hmem)
      obtain ⟨S', hc, hE', hdirs', hroot', hrm', hsub, hvict, hchar, hty⟩ :=
        ih g S hE hdirs hroot hrm (List.nodup_cons.mp hknd).2 hrestk hSrest
      refine ⟨S', ?_, by rw [heq]; exact hE', by rw [heq]; exact hdirs',
        by rw [heq]; exact hroot', by rw [heq]; exact hrm', hsub, ?_, ?_, hty⟩
      · rw [heq, hc]
        simp [Nat.sub_eq_zero_of_le hle]
      · intro kb hkb hlen
        rcases List.mem_cons.mp hkb with h | h
        · exact absurd hlen (by rw [h]; exact Nat.not_lt.mpr hle)
        · exact hvict kb h hlen
      · intro q hq hqb
        rcases hchar q hq hqb with h | ⟨kb, hkb, h⟩
        · exact Or.inl h
        · exact Or.inr ⟨kb, List.mem_cons_of_mem _ hkb, h⟩
    · have hbsS : ∀ p ∈ bs, p ∉ S := by
        intro p hp hpS
        obtain ⟨hkey, _, hpb⟩ := hbsall p hp
        exact hS p hpS hpb (by rw [hkey] at *; exact hkey ▸ List.mem_cons_self k _)
      have hmt : ∀ p ∈ bs, g.mtimeAt p = fs.mtimeAt p :=
        fun p hp => mtimeAt_of_filtered g fs S hE p (hbsS p hp)
      have hsorteq : sortByMtimeDesc g bs = sortByMtimeDesc fs bs :=
        sortByMtimeDesc_congr g fs bs hmt
      have hsortnd : (sortByMtimeDesc fs bs).Nodup :=
        ((sortByMtimeDesc_perm fs bs).nodup_iff).mpr hbsnd
      have hvmem : ∀ v ∈ (sortByMtimeDesc fs bs).drop keep, v ∈ bs := by
        intro v hv
        exact (mem_sortByMtimeDesc fs bs v).mp
          (List.mem_of_mem_drop hv)
      have hvprops : ∀ v ∈ (sortByMtimeDesc fs bs).drop keep,
          fs.isFile v = true ∧ v ∉ S
            ∧ strEndsWith (lastSegOf v) ".session.backup" = true := by
        intro v hv
        have hvb := hvmem v hv
        obtain ⟨_, hvf, hvbk⟩ := hbsall v hvb
        exact ⟨hvf, hbsS v hvb, hvbk⟩
      have hvnd : ((sortByMtimeDesc fs bs).drop keep).Nodup :=
        List.Nodup.sublist (List.drop_sublist keep _) hsortnd
      obtain ⟨S1, hc1, hE1, hdirs1, hroot1, hrm1, hsub1, hvin1, hchar1⟩ :=
        deleteVictims_spec fs hdir ((sortByMtimeDesc fs bs).drop keep) g S
          hE hdirs hroot hrm hvprops hvnd
      have hS1 : ∀ q ∈ S1,
          strEndsWith (lastSegOf q) ".session.backup" = true →
          keyOf q ∉ rest.map Prod.fst := by
        intro q hq hqb
        rcases hchar1 q hq with h | h | ⟨u, _, h | h⟩
        · intro hmem
          exact hS q h hqb (List.mem_cons_of_mem _ hmem)
        · have hqbs := hvmem q h
          obtain ⟨hkey, _, _⟩ := hbsall q hqbs
          rw [hkey]
          exact (List.nodup_cons.mp hknd).1
        · exact absurd h (backup_ne_withSuffix_wal q u hqb)
        · exact absurd h (backup_ne_withSuffix_shm q u hqb)
      obtain ⟨S2, hc2, hE2, hdirs2, hroot2, hrm2, hsub2, hvict2, hchar2, hty2⟩ :=
        ih (deleteVictims ((sortByMtimeDesc fs bs).drop keep) g).2 S1
          hE1 hdirs1 hroot1 hrm1 (List.nodup_cons.mp hknd).2 hrestk hS1
      have heq : cleanGroupsLoop keep ((k, bs) :: rest) g
          = ((deleteVictims ((sortByMtimeDesc fs bs).drop keep) g).1
              + (cleanGroupsLoop keep rest
                  (deleteVictims ((sortByMtimeDesc fs bs).drop keep) g).2).1,
             (cleanGroupsLoop keep rest
                (deleteVictims ((sortByMtimeDesc fs bs).drop keep) g).2).2) := by
        simp only [cleanGroupsLoop, if_neg hle]
        rw [hsorteq]
      refine ⟨S2, ?_, by rw [heq]; exact hE2, by rw [heq]; exact hdirs2,
        by rw [heq]; exact hroot2, by rw [heq]; exact hrm2, ?_, ?_, ?_, ?_⟩
      · rw [heq]
        show _ + _ = _
        rw [hc1, hc2, List.length_drop,
          (sortByMtimeDesc_perm fs bs).length_eq]
        simp
      · intro q hq
        exact hsub2 q (hsub1 q hq)
      · intro kb hkb hlen
        rcases List.mem_cons.mp hkb with h | h
        · intro p hp
          have : p ∈ (sortByMtimeDesc fs bs).drop keep := by
            rw [h] at hp
            exact hp
          exact hsub2 p (hvin1 p this)
        · exact hvict2 kb h hlen
      · intro q hq hqb
        rcases hchar2 q hq hqb with h | ⟨kb, hkb, h⟩
        · rcases hchar1 q h with h' | h' | ⟨u, _, h' | h'⟩
          · exact Or.inl h'
          · exact Or.inr ⟨(k, bs), List.mem_cons_self _ rest,
              Nat.not_le.mp hle, h'⟩
          · exact absurd h' (backup_ne_withSuffix_wal q u hqb)
          · exact absurd h' (backup_ne_withSuffix_shm q u hqb)
        · exact Or.inr ⟨kb, List.mem_cons_of_mem _ hkb, h⟩
      · intro q hq
        rcases hty2 q hq with h | h
        · rcases hchar1 q h with h' | h' | ⟨u, _, h' | h'⟩
          · exact Or.inl h'
          · exact Or.inr (Or.inl (hvprops q h').2.2)
          · refine Or.inr (Or.inr (Or.inl ?_))
            rw [h', lastSegOf_withSuffix]
            exact strEndsWith_append_lit _ _
          · refine Or.inr (Or.inr (Or.inr ?_))
            rw [h', lastSegOf_withSuffix]
            exact strEndsWith_append_lit _ _
        · exact Or.inr h

theorem listAllBackups_eq_collect (fs : FS) :
    listAllBackups fs = collectBackups fs "" := rfl

theorem listAllBackups_mem_iff (g : FS) (p : List String) :
    p ∈ listAllBackups g ↔
      g.isFile p = true ∧ p.dropLast ∈ backupDirsOf g
      ∧ g.osExists p.dropLast = true
      ∧ globMatch "" ".session.backup" (lastSegOf p) = true := by
  rw [listAllBackups_eq_collect]
  exact collectBackups_mem_iff g "" p

theorem isFile_filtered_iff (g fs : FS) (S : List (List String))
    (hE : g.entries = fs.entries.filter (fun e => decide (e.path ∉ S)))
    (p : List String) :
    g.isFile p = (fs.isFile p && decide (p ∉ S)) := by
  by_cases hpS : p ∈ S
  · rw [isFile_filtered_of_mem g fs S hE p hpS]
    simp [hpS]
  · rw [isFile_of_filtered g fs S hE p hpS]
    simp [hpS]

theorem backupDir_not_typed (fs : FS) (d : List String)
    (hd : d ∈ backupDirsOf fs)
    (hty : strEndsWith (lastSegOf d) ".session.backup" = true
        ∨ strEndsWith (lastSegOf d) "-wal" = true
        ∨ strEndsWith (lastSegOf d) "-shm" = true) : False := by
  have hd' : d = fs.root ++ ["backups"]
      ∨ d = (fs.root ++ ["backups"]) ++ ["telethon"]
      ∨ d = (fs.root ++ ["backups"]) ++ ["pyrogram"] := by
    rcases (by simpa [backupDirsOf] using hd :
        d = backupRootOf fs ∨ d = backupRootOf fs ++ ["telethon"]
          ∨ d = backupRootOf fs ++ ["pyrogram"]) with h | h | h
    · exact Or.inl h
    · exact Or.inr (Or.inl h)
    · exact Or.inr (Or.inr h)
  rcases hd' with h | h | h <;> rw [h] at hty <;>
    rw [lastSegOf_concat] at hty <;>
    rcases hty with h' | h' | h' <;> revert h' <;> decide

theorem listAllBackups_filtered (fs g : FS) (S : List (List String))
    (hE : g.entries = fs.entries.filter (fun e => decide (e.path ∉ S)))
    (hdirs : g.dirs = fs.dirs) (hroot : g.root = fs.root)
    (hty : ∀ q ∈ S, strEndsWith (lastSegOf q) ".session.backup" = true
        ∨ strEndsWith (lastSegOf q) "-wal" = true
        ∨ strEndsWith (lastSegOf q) "-shm" = true)
    (p : List String) :
    p ∈ listAllBackups g ↔ p ∈ listAllBackups fs ∧ p ∉ S := by
  have hbd : backupDirsOf g = backupDirsOf fs := by
    unfold backupDirsOf backupRootOf
    rw [hroot]
  have hisdir : ∀ q, g.isDir q = fs.isDir q := by
    intro q
    unfold FS.isDir
    rw [hdirs, hroot]
  rw [listAllBackups_mem_iff, listAllBackups_mem_iff, hbd]
  constructor
  · rintro ⟨hf, hdl, hex, hgm⟩
    rw [isFile_filtered_iff g fs S hE p, Bool.and_eq_true] at hf
    obtain ⟨hf1, hf2⟩ := hf
    have hpS : p ∉ S := of_decide_eq_true hf2
    refine ⟨⟨hf1, hdl, ?_, hgm⟩, hpS⟩
    unfold FS.osExists at hex ⊢
    rw [Bool.or_eq_true] at hex
    rcases hex with h | h
    · rw [isFile_filtered_iff g fs S hE _, Bool.and_eq_true] at h
      rw [h.1]
      rfl
    · rw [← hisdir]
      rw [h]
      simp
  · rintro ⟨⟨hf, hdl, hex, hgm⟩, hpS⟩
    have hdlS : p.dropLast ∉ S := by
      intro hmem
      exact backupDir_not_typed fs p.dropLast hdl (hty _ hmem)
    refine ⟨?_, hdl, ?_, hgm⟩
    · rw [isFile_filtered_iff g fs S hE p, hf]
      simp [hpS]
    · unfold FS.osExists at hex ⊢
      rw [isFile_filtered_iff g fs S hE _, hisdir]
      rw [Bool.or_eq_true] at hex
      rcases hex with h | h
      · rw [h]
        simp [hdlS]
      · rw [h]
        simp

theorem globFiles_nodup (fs : FS) (d : List String) (pre suf : String)
    (hnd : (fs.entries.map Entry.path).Nodup) :
    (globFiles fs d pre suf).Nodup := by
  unfold globFiles
  exact List.Nodup.sublist (List.Sublist.map _ (List.filter_sublist _)) hnd

theorem globFiles_disjoint (fs : FS) (d1 d2 : List String) (pre suf : String)
    (hne : d1 ≠ d2) :
    (globFiles fs d1 pre suf).Disjoint (globFiles fs d2 pre suf) := by
  intro a ha hb
  obtain ⟨-, h1, -⟩ := (globFiles_mem fs d1 pre suf a).mp ha
  obtain ⟨-, h2, -⟩ := (globFiles_mem fs d2 pre suf a).mp hb
  exact hne (h1 ▸ h2)

theorem backups_dir_ne_tel (fs : FS) :
    backupRootOf fs ≠ backupRootOf fs ++ ["telethon"] := by
  intro h
  have := congrArg List.length h
  simp at this

theorem backups_dir_ne_pyr (fs : FS) :
    backupRootOf fs ≠ backupRootOf fs ++ ["pyrogram"] := by
  intro h
  have := congrArg List.length h
  simp at this

theorem tel_dir_ne_pyr (fs : FS) :
    backupRootOf fs ++ ["telethon"] ≠ backupRootOf fs ++ ["pyrogram"] := by
  exact append_singleton_ne _ _ _ (by decide)

theorem listAllBackups_nodup (fs : FS)
    (hnd : (fs.entries.map Entry.path).Nodup) :
    (listAllBackups fs).Nodup := by
  have h1 := globFiles_nodup fs (backupRootOf fs) "" ".session.backup" hnd
  have h2 := globFiles_nodup fs (backupRootOf fs ++ ["telethon"]) ""
    ".session.backup" hnd
  have h3 := globFiles_nodup fs (backupRootOf fs ++ ["pyrogram"]) ""
    ".session.backup" hnd
  have d12 := globFiles_disjoint fs (backupRootOf fs)
    (backupRootOf fs ++ ["telethon"]) "" ".session.backup" (backups_dir_ne_tel fs)
  have d13 := globFiles_disjoint fs (backupRootOf fs)
    (backupRootOf fs ++ ["pyrogram"]) "" ".session.backup" (backups_dir_ne_pyr fs)
  have d23 := globFiles_disjoint fs (backupRootOf fs ++ ["telethon"])
    (backupRootOf fs ++ ["pyrogram"]) "" ".session.backup" (tel_dir_ne_pyr fs)
  unfold listAllBackups
  simp only [backupDirsOf, List.foldl]
  split_ifs <;>
    simp [List.nodup_append, List.disjoint_append_left, h1, h2, h3, d12, d13, d23]

theorem backupsWithGroupKey_eq (fs : FS) (k : String) :
    backupsWithGroupKey fs k
      = (listAllBackups fs).filter (fun p => decide (keyOf p = k)) := rfl

theorem mem_backupsWithGroupKey (g : FS) (k : String) (p : List String) :
    p ∈ backupsWithGroupKey g k ↔ p ∈ listAllBackups g ∧ keyOf p = k := by
  rw [backupsWithGroupKey_eq]
  simp [List.mem_filter]

theorem backupsWithGroupKey_props (fs : FS) (k : String) (p : List String)
    (hp : p ∈ backupsWithGroupKey fs k) :
    fs.isFile p = true
      ∧ strEndsWith (lastSegOf p) ".session.backup" = true := by
  obtain ⟨hl, -⟩ := (mem_backupsWithGroupKey fs k p).mp hp
  obtain ⟨hf, -, -, hgm⟩ := (listAllBackups_mem_iff fs p).mp hl
  exact ⟨hf, globMatch_suffix _ _ _ hgm⟩

theorem buildGroups_mem_of_filter_ne_nil (fls : List (List String)) (k : String)
    (h : fls.filter (fun p => decide (keyOf p = k)) ≠ []) :
    (k, fls.filter (fun p => decide (keyOf p = k))) ∈ buildGroups fls := by
  have hget : groupsGet (buildGroups fls) k
      = fls.filter (fun p => decide (keyOf p = k)) := by
    rw [buildGroups_eq_fold]
    have := buildGroups_get fls [] []
      (fun k' => by unfold groupsGet; simp [List.find?]) k
    simpa using this
  cases hf : (buildGroups fls).find? (fun kb => decide (kb.1 = k)) with
  | none =>
    exfalso
    apply h
    rw [← hget]
    unfold groupsGet
    rw [hf]
    rfl
  | some kb =>
    have hmem : kb ∈ buildGroups fls := List.mem_of_find?_eq_some hf
    have hk : kb.1 = k := by
      have := List.find?_some hf
      simpa using this
    have hbucket : kb.2 = fls.filter (fun p => decide (keyOf p = k)) := by
      rw [← hget]
      unfold groupsGet
      rw [hf]
      rfl
    have : (k, fls.filter (fun p => decide (keyOf p = k))) = kb := by
      rw [← hbucket, ← hk]
    rw [this]
    exact hmem

theorem victim_in_bucket (fs : FS) (keep : Nat)
    (kb : String × List (List String)) (fls : List (List String))
    (hkb : kb ∈ buildGroups fls) (q : List String)
    (hq : q ∈ (sortByMtimeDesc fs kb.2).drop keep) :
    q ∈ kb.2 ∧ keyOf q = kb.1 := by
  have hq1 : q ∈ kb.2 :=
    (mem_sortByMtimeDesc fs kb.2 q).mp (List.mem_of_mem_drop hq)
  have hbucket := mem_buildGroups_bucket fls kb hkb
  rw [hbucket] at hq1
  obtain ⟨hmem, hkey⟩ := List.mem_filter.mp hq1
  exact ⟨by rw [hbucket]; exact hq1, of_decide_eq_true hkey⟩

theorem isDir_cases (fs : FS) (q : List String) (h : fs.isDir q = true) :
    q ∈ fs.root :: fs.dirs := by
  unfold FS.isDir at h
  rw [Bool.or_eq_true] at h
  rcases h with h | h
  · exact (of_decide_eq_true h) ▸ List.mem_cons_self _ _
  · obtain ⟨d, hd, hdq⟩ := List.any_eq_true.mp h
    have : d = q := of_decide_eq_true hdq
    exact this ▸ List.mem_cons_of_mem _ hd

theorem clean_old_backups_eq (fs : FS) (keep : Nat) :
    clean_old_backups fs keep
      = cleanGroupsLoop keep (buildGroups (listAllBackups fs)) fs := rfl

theorem clean_old_backups_spec (fs : FS) (keep : Nat)
    (hrm : fs.removeFail = [])
    (hnd : (fs.entries.map Entry.path).Nodup)
    (hdirlist : ∀ d ∈ fs.root :: fs.dirs,
        strEndsWith (lastSegOf d) "-wal" = false
          ∧ strEndsWith (lastSegOf d) "-shm" = false) :
    ∃ (S' : List (List String)),
      (clean_old_backups fs keep).1
          = ((buildGroups (listAllBackups fs)).map
              (fun kb => kb.2.length - keep)).sum
      ∧ (clean_old_backups fs keep).2.entries
          = fs.entries.filter (fun e => decide (e.path ∉ S'))
      ∧ (clean_old_backups fs keep).2.dirs = fs.dirs
      ∧ (clean_old_backups fs keep).2.root = fs.root
      ∧ (∀ kb ∈ buildGroups (listAllBackups fs), keep < kb.2.length →
          ∀ p ∈ (sortByMtimeDesc fs kb.2).drop keep, p ∈ S')
      ∧ (∀ q ∈ S', strEndsWith (lastSegOf q) ".session.backup" = true →
          ∃ kb ∈ buildGroups (listAllBackups fs), keep < kb.2.length
            ∧ q ∈ (sortByMtimeDesc fs kb.2).drop keep)
      ∧ (∀ q ∈ S', strEndsWith (lastSegOf q) ".session.backup" = true
          ∨ strEndsWith (lastSegOf q) "-wal" = true
          ∨ strEndsWith (lastSegOf q) "-shm" = true) := by
  have hdir : ∀ q, fs.isDir q = true →
      strEndsWith (lastSegOf q) "-wal" = false
        ∧ strEndsWith (lastSegOf q) "-shm" = false :=
    fun q hq => hdirlist q (isDir_cases fs q hq)
  have hE0 : fs.entries
      = fs.entries.filter (fun e => decide (e.path ∉ ([] : List (List String)))) := by
    symm
    apply List.filter_eq_self.mpr
    intro e _
    simp
  have hknd : ((buildGroups (listAllBackups fs)).map Prod.fst).Nodup := by
    rw [buildGroups_eq_fold]
    exact buildGroups_keys_nodup _ [] (by simp)
  have hfnd : (listAllBackups fs).Nodup := listAllBackups_nodup fs hnd
  have hbk : ∀ kb ∈ buildGroups (listAllBackups fs),
      kb.2.Nodup ∧ ∀ p ∈ kb.2, keyOf p = kb.1
        ∧ fs.isFile p = true
        ∧ strEndsWith (lastSegOf p) ".session.backup" = true := by
    intro kb hkb
    have hbucket := mem_buildGroups_bucket (listAllBackups fs) kb hkb
    constructor
    · rw [hbucket]
      exact List.Nodup.filter _ hfnd
    · intro p hp
      rw [hbucket] at hp
      obtain ⟨hmem, hkey⟩ := List.mem_filter.mp hp
      obtain ⟨hf, -, -, hgm⟩ := (listAllBackups_mem_iff fs p).mp hmem
      exact ⟨of_decide_eq_true hkey, hf, globMatch_suffix _ _ _ hgm⟩
  obtain ⟨S', hc, hE', hdirs', hroot', hrm', hsub', hvict', hchar', hty'⟩ :=
    cleanGroupsLoop_spec fs keep hdir (buildGroups (listAllBackups fs)) fs []
      hE0 rfl rfl hrm hknd hbk (fun q hq => absurd hq (List.not_mem_nil q))
  rw [clean_old_backups_eq]
  refine ⟨S', hc, hE', hdirs', hroot', hvict', ?_, ?_⟩
  · intro q hq hqb
    rcases hchar' q hq hqb with h | h
    · exact absurd h (List.not_mem_nil q)
    · exact h
  · intro q hq
    rcases hty' q hq with h | h
    · exact absurd h (List.not_mem_nil q)
    · exact h

/-- C1 (amended): with no injected removal failures, duplicate-free entry
paths and no directory named like a sidecar, `clean_old_backups` leaves,
for every grouping key actually computed by the code
(`basename.rsplit('_', 1)[0]` when the last underscore field is numeric
after stripping, i.e. `keyOf` — not the spec's full-timestamp-stripping
identity), exactly the backups of `keptOf`: at most `keep` files, and
every deleted backup of the key is no newer than every retained one. -/
theorem c1_retention_amended (fs : FS) (keep : Nat)
    (hrm : fs.removeFail = [])
    (hnd : (fs.entries.map Entry.path).Nodup)
    (hdirlist : ∀ d ∈ fs.root :: fs.dirs,
        strEndsWith (lastSegOf d) "-wal" = false
          ∧ strEndsWith (lastSegOf d) "-shm" = false)
    (k : String) :
    (∀ p, p ∈ backupsWithGroupKey (clean_old_backups fs keep).2 k
        ↔ p ∈ keptOf fs keep k)
    ∧ (backupsWithGroupKey (clean_old_backups fs keep).2 k).length ≤ keep
    ∧ ∀ p q, p ∈ backupsWithGroupKey fs k → p ∉ keptOf fs keep k →
        q ∈ keptOf fs keep k → fs.mtimeAt p ≤ fs.mtimeAt q := by
  obtain ⟨S', hc, hE', hdirs', hroot', hvict, hchar, hty⟩ :=
    clean_old_backups_spec fs keep hrm hnd hdirlist
  have htrans : ∀ p, p ∈ listAllBackups (clean_old_backups fs keep).2
      ↔ p ∈ listAllBackups fs ∧ p ∉ S' :=
    listAllBackups_filtered fs _ S' hE' hdirs' hroot' hty
  have hmem : ∀ p, p ∈ backupsWithGroupKey (clean_old_backups fs keep).2 k
      ↔ (p ∈ backupsWithGroupKey fs k ∧ p ∉ S') := by
    intro p
    rw [mem_backupsWithGroupKey, mem_backupsWithGroupKey, htrans p]
    constructor
    · rintro ⟨⟨h1, h2⟩, h3⟩
      exact ⟨⟨h1, h3⟩, h2⟩
    · rintro ⟨⟨h1, h3⟩, h2⟩
      exact ⟨⟨h1, h2⟩, h3⟩
  have hbseq : (listAllBackups fs).filter (fun p => decide (keyOf p = k))
      = backupsWithGroupKey fs k := (backupsWithGroupKey_eq fs k).symm
  have hSmem : ∀ p, p ∈ backupsWithGroupKey fs k →
      (p ∈ S' ↔ (keep < (backupsWithGroupKey fs k).length
        ∧ p ∈ (sortByMtimeDesc fs (backupsWithGroupKey fs k)).drop keep)) := by
    intro p hp
    obtain ⟨hpf, hpb⟩ := backupsWithGroupKey_props fs k p hp
    constructor
    · intro hpS
      obtain ⟨kb, hkb, hlen, hdrop⟩ := hchar p hpS hpb
      obtain ⟨hpkb, hpkey⟩ := victim_in_bucket fs keep kb _ hkb p hdrop
      have hkk : keyOf p = k := ((mem_backupsWithGroupKey fs k p).mp hp).2
      have hk1 : kb.1 = k := hpkey.symm.trans hkk
      have hbucket := mem_buildGroups_bucket _ kb hkb
      have hkb2 : kb.2 = backupsWithGroupKey fs k := by
        rw [hbucket, hk1, hbseq]
      rw [hkb2] at hlen hdrop
      exact ⟨hlen, hdrop⟩
    · rintro ⟨hlen, hdrop⟩
      have hne : (listAllBackups fs).filter (fun p => decide (keyOf p = k)) ≠ [] := by
        rw [hbseq]
        exact List.ne_nil_of_length_pos (lt_of_le_of_lt (Nat.zero_le keep) hlen)
      have hkbmem := buildGroups_mem_of_filter_ne_nil (listAllBackups fs) k hne
      refine hvict (k, (listAllBackups fs).filter (fun p => decide (keyOf p = k)))
        hkbmem ?_ p ?_
      · show keep < ((listAllBackups fs).filter (fun p => decide (keyOf p = k))).length
        rw [hbseq]
        exact hlen
      · show p ∈ (sortByMtimeDesc fs
            ((listAllBackups fs).filter (fun p => decide (keyOf p = k)))).drop keep
        rw [hbseq]
        exact hdrop
  have hiff : ∀ p, p ∈ backupsWithGroupKey (clean_old_backups fs keep).2 k
      ↔ p ∈ keptOf fs keep k := by
    intro p
    rw [hmem p]
    unfold keptOf
    by_cases hle : (backupsWithGroupKey fs k).length ≤ keep
    · rw [if_pos hle]
      constructor
      · rintro ⟨h1, -⟩
        exact h1
      · intro h1
        refine ⟨h1, ?_⟩
        intro hpS
        obtain ⟨hlen, -⟩ := (hSmem p h1).mp hpS
        exact absurd hlen (Nat.not_lt.mpr hle)
    · rw [if_neg hle]
      have hlt := Nat.not_le.mp hle
      have hndbs : (backupsWithGroupKey fs k).Nodup := by
        rw [backupsWithGroupKey_eq]
        exact List.Nodup.filter _ (listAllBackups_nodup fs hnd)
      have hsortnd : (sortByMtimeDesc fs (backupsWithGroupKey fs k)).Nodup :=
        ((sortByMtimeDesc_perm fs _).nodup_iff).mpr hndbs
      constructor
      · rintro ⟨h1, h2⟩
        have hsmem : p ∈ sortByMtimeDesc fs (backupsWithGroupKey fs k) :=
          (mem_sortByMtimeDesc fs _ p).mpr h1
        have hsplit : p ∈ (sortByMtimeDesc fs (backupsWithGroupKey fs k)).take keep
            ++ (sortByMtimeDesc fs (backupsWithGroupKey fs k)).drop keep := by
          rw [List.take_append_drop keep]
          exact hsmem
        rcases List.mem_append.mp hsplit with h | h
        · exact h
        · exact absurd ((hSmem p h1).mpr ⟨hlt, h⟩) h2
      · intro h1
        have hsmem : p ∈ sortByMtimeDesc fs (backupsWithGroupKey fs k) :=
          List.mem_of_mem_take h1
        have hbs : p ∈ backupsWithGroupKey fs k :=
          (mem_sortByMtimeDesc fs _ p).mp hsmem
        refine ⟨hbs, ?_⟩
        intro hpS
        obtain ⟨-, hdrop⟩ := (hSmem p hbs).mp hpS
        have hnda : ((sortByMtimeDesc fs (backupsWithGroupKey fs k)).take keep
            ++ (sortByMtimeDesc fs (backupsWithGroupKey fs k)).drop keep).Nodup := by
          rw [List.take_append_drop keep]
          exact hsortnd
        exact (List.nodup_append.mp hnda).2.2 h1 hdrop
  refine ⟨hiff, ?_, ?_⟩
  · have hL : (backupsWithGroupKey (clean_old_backups fs keep).2 k).Nodup := by
      rw [backupsWithGroupKey_eq]
      refine List.Nodup.filter _ (listAllBackups_nodup _ ?_)
      rw [hE']
      exact List.Nodup.sublist (List.Sublist.map _ (List.filter_sublist _)) hnd
    have hndbs : (backupsWithGroupKey fs k).Nodup := by
      rw [backupsWithGroupKey_eq]
      exact List.Nodup.filter _ (listAllBackups_nodup fs hnd)
    have hK : (keptOf fs keep k).Nodup := by
      unfold keptOf
      split_ifs
      · exact hndbs
      · exact List.Nodup.sublist (List.take_sublist _ _)
          (((sortByMtimeDesc_perm fs _).nodup_iff).mpr hndbs)
    have hfin : (backupsWithGroupKey (clean_old_backups fs keep).2 k).toFinset
        = (keptOf fs keep k).toFinset := by
      apply Finset.ext
      intro a
      simp only [List.mem_toFinset]
      exact hiff a
    have hlen : (backupsWithGroupKey (clean_old_backups fs keep).2 k).length
        = (keptOf fs keep k).length := by
      rw [← List.toFinset_card_of_nodup hL, ← List.toFinset_card_of_nodup hK, hfin]
    rw [hlen]
    unfold keptOf
    split_ifs with h
    · exact h
    · rw [List.length_take]
      exact min_le_left _ _
  · intro p q hp hpk hqk
    unfold keptOf at hpk hqk
    by_cases hle : (backupsWithGroupKey fs k).length ≤ keep
    · rw [if_pos hle] at hpk
      exact absurd hp hpk
    · rw [if_neg hle] at hpk hqk
      have hsorted := sortByMtimeDesc_sorted fs (backupsWithGroupKey fs k)
      have hpmem : p ∈ sortByMtimeDesc fs (backupsWithGroupKey fs k) :=
        (mem_sortByMtimeDesc fs _ p).mpr hp
      have hsplit : p ∈ (sortByMtimeDesc fs (backupsWithGroupKey fs k)).take keep
          ++ (sortByMtimeDesc fs (backupsWithGroupKey fs k)).drop keep := by
        rw [List.take_append_drop keep]
        exact hpmem
      have hpdrop : p ∈ (sortByMtimeDesc fs (backupsWithGroupKey fs k)).drop keep := by
        rcases List.mem_append.mp hsplit with h | h
        · exact absurd h hpk
        · exact h
      have hpw : List.Pairwise (fun a b => fs.mtimeAt b ≤ fs.mtimeAt a)
          ((sortByMtimeDesc fs (backupsWithGroupKey fs k)).take keep
            ++ (sortByMtimeDesc fs (backupsWithGroupKey fs k)).drop keep) := by
        rw [List.take_append_drop keep]
        exact hsorted
      exact (List.pairwise_append.mp hpw).2.2 q hqk p hpdrop

/-- C8 (counterexample to the original wording): when an over-quota backup
has a write-ahead-log sidecar, the sweep deletes two files (the backup and
its sidecar) but returns 1 — the counter is incremented once per deleted
backup entry (line 311), not once per deleted file. -/
theorem c8_cleanup_count_counterexample :
    (clean_old_backups fsSidecar 5).1 = 1
      ∧ fsSidecar.entries.length
          - (clean_old_backups fsSidecar 5).2.entries.length = 2 := by
  decide

/-- C8 (amended): the return value of `clean_old_backups` counts deleted
backup entries, one per over-quota entry whose per-entry `try` block
completed — with no injected faults that is the sum over the code's groups
of `group size - keep`, whatever sidecars were deleted alongside.  The
second conjunct shows the per-file failure containment on a concrete
population: with a removal failure injected on the first victim met, the
sweep still deletes the other victim and returns 1, and the failed entry
survives. -/
theorem c8_cleanup_count_amended (fs : FS) (keep : Nat)
    (hrm : fs.removeFail = [])
    (hnd : (fs.entries.map Entry.path).Nodup)
    (hdirlist : ∀ d ∈ fs.root :: fs.dirs,
        strEndsWith (lastSegOf d) "-wal" = false
          ∧ strEndsWith (lastSegOf d) "-shm" = false) :
    (clean_old_backups fs keep).1
        = ((buildGroups (listAllBackups fs)).map
            (fun kb => kb.2.length - keep)).sum
    ∧ ((clean_old_backups fsAbort 5).1 = 1
        ∧ (clean_old_backups fsAbort 5).2.isFile
            ["S", "backups", "sess_20240101_120000.session.backup"] = true
        ∧ (clean_old_backups fsAbort 5).2.isFile
            ["S", "backups", "sess_20240101_110000.session.backup"] = false) := by
  obtain ⟨S', hc, -, -, -, -, -, -⟩ :=
    clean_old_backups_spec fs keep hrm hnd hdirlist
  exact ⟨hc, by decide, by decide, by decide⟩

theorem c8_cleanup_count_amended_witness :
    (fsSidecar.removeFail = []
      ∧ (fsSidecar.entries.map Entry.path).Nodup
      ∧ ∀ d ∈ fsSidecar.root :: fsSidecar.dirs,
          strEndsWith (lastSegOf d) "-wal" = false
            ∧ strEndsWith (lastSegOf d) "-shm" = false)
    ∧ ((clean_old_backups fsSidecar 5).1
          = ((buildGroups (listAllBackups fsSidecar)).map
              (fun kb => kb.2.length - 5)).sum
      ∧ ((clean_old_backups fsAbort 5).1 = 1
          ∧ (clean_old_backups fsAbort 5).2.isFile
              ["S", "backups", "sess_20240101_120000.session.backup"] = true
          ∧ (clean_old_backups fsAbort 5).2.isFile
              ["S", "backups", "sess_20240101_110000.session.backup"] = false)) :=
  ⟨⟨by decide, by decide, by decide⟩,
    c8_cleanup_count_amended fsSidecar 5 (by decide) (by decide) (by decide)⟩

/-- C1 (counterexample to the original wording): the spec's identity strips
the whole `_YYYYMMDD_HHMMSS` timestamp; the code's grouping key
(`rsplit('_', 1)`) keeps the date part, so the six backups of identity
`sess` fall into two groups of three, each within quota, and all six
survive a cleanup with `keep_count = 5`. -/
theorem c1_retention_counterexample :
    5 < (backupsWithSpecIdentity (clean_old_backups fsRetention 5).2 "sess").length := by
  decide

theorem c1_retention_amended_witness :
    (fsRetention.removeFail = []
      ∧ (fsRetention.entries.map Entry.path).Nodup
      ∧ ∀ d ∈ fsRetention.root :: fsRetention.dirs,
          strEndsWith (lastSegOf d) "-wal" = false
            ∧ strEndsWith (lastSegOf d) "-shm" = false)
    ∧ ((∀ p, p ∈ backupsWithGroupKey (clean_old_backups fsRetention 5).2
            "sess_20240101"
          ↔ p ∈ keptOf fsRetention 5 "sess_20240101")
      ∧ (backupsWithGroupKey (clean_old_backups fsRetention 5).2
          "sess_20240101").length ≤ 5
      ∧ ∀ p q, p ∈ backupsWithGroupKey fsRetention "sess_20240101" →
          p ∉ keptOf fsRetention 5 "sess_20240101" →
          q ∈ keptOf fsRetention 5 "sess_20240101" →
          fsRetention.mtimeAt p ≤ fsRetention.mtimeAt q) :=
  ⟨⟨by decide, by decide, by decide⟩,
    c1_retention_amended fsRetention 5 (by decide) (by decide) (by decide)
      "sess_20240101"⟩
